import Mathlib

/-! A verification development for `single-linked-list.h`: a singly linked list with a sentinel
(`head_`) node, raw `Node*` links and a `size_` counter.

The C++ object memory is modelled explicitly.  A `Node*` is `Option Nat` (`none` is `nullptr`);
the memory maps an address to the `Node` object living there.  A `SingleLinkedList` object at
address `this` consists of its sentinel `head_` (the node stored at address `this`, since `head_`
is the first member) and its `size_` field.  `size_t` arithmetic is done modulo `2 ^ 64`.
Loops that follow pointers take a fuel argument.
-/

namespace SingleLinkedList

variable {α : Type}

/-! ## The memory and the storage providers -/

/-- Number of values of `size_t`, and of distinct addresses (64-bit target). -/
def SIZE_MOD : Nat := 2 ^ 64

/-- The struct `Node`: a value and the raw pointer to the next node. -/
structure Node (α : Type) where
  value : α
  next_node : Option Nat
deriving DecidableEq, Repr

/-- Object memory: the live `Node` objects by address, and the `size_` field of the list object
whose sentinel lives at an address. -/
structure Mem (α : Type) where
  nodes : Nat → Option (Node α)
  sizes : Nat → Nat

/-- Ways in which a run leaves the contract of the class (or the fuel of the model). -/
inductive Fault where
  | invalid_access
  | stack_exhausted
  | out_of_fuel
deriving DecidableEq, Repr

/-- Result of an operation that may throw `std::bad_alloc`: normal completion with the new memory,
the exception together with the memory left behind by unwinding, or a fault. -/
inductive Outcome (α : Type) (β : Type) where
  | ok : β → Mem α → Outcome α β
  | bad_alloc : Mem α → Outcome α β
  | fault : Fault → Outcome α β

/-- Store a `Node` object at address `a`. -/
def Mem.setNode (m : Mem α) (a : Nat) (n : Node α) : Mem α :=
  { m with nodes := fun b => if b = a then some n else m.nodes b }

/-- End the lifetime of the `Node` object at address `a` (`delete`, or leaving a scope). -/
def Mem.delNode (m : Mem α) (a : Nat) : Mem α :=
  { m with nodes := fun b => if b = a then none else m.nodes b }

/-- Write the `size_` field of the list object at address `a`. -/
def Mem.setSize (m : Mem α) (a : Nat) (s : Nat) : Mem α :=
  { m with sizes := fun b => if b = a then s else m.sizes b }

/-- Read through a `Node*`. -/
def Mem.load (m : Mem α) (p : Option Nat) : Except Fault (Node α) :=
  match p with
  | none => .error .invalid_access
  | some a =>
    match m.nodes a with
    | none => .error .invalid_access
    | some n => .ok n

/-- The storage providers of the C++ runtime: `operator new` for nodes and automatic storage for
local list objects.  Either may fail; what they return is storage not in use, at a 64-bit
address. -/
structure Allocator (α : Type) where
  new : Mem α → Option Nat
  auto : Mem α → Option Nat
  new_fresh : ∀ m a, new m = some a → m.nodes a = none ∧ a < SIZE_MOD
  auto_fresh : ∀ m a, auto m = some a → m.nodes a = none ∧ a < SIZE_MOD

/-- First unused address in `[lo, lo + len)`. -/
def firstFree (m : Mem α) (lo len : Nat) : Option Nat :=
  (List.range' lo len).find? (fun a => (m.nodes a).isNone && decide (a < SIZE_MOD))

/-- An allocator with `heap` node slots at addresses `1000, 1001, ...` and `stack` slots for
local objects at addresses `2000, 2001, ...`; it hands out the first unused slot. -/
def firstFit (α : Type) (heap stack : Nat) : Allocator α where
  new m := firstFree m 1000 heap
  auto m := firstFree m 2000 stack
  new_fresh m a h := by
    have h1 := List.find?_some h
    simpa only [Bool.and_eq_true, Option.isNone_iff_eq_none, decide_eq_true_eq] using h1
  auto_fresh m a h := by
    have h1 := List.find?_some h
    simpa only [Bool.and_eq_true, Option.isNone_iff_eq_none, decide_eq_true_eq] using h1

/-! ## The iterator -/

/-- The class `BasicIterator`: a non-owning `Node*`. -/
structure BasicIterator where
  node_ : Option Nat
deriving DecidableEq, Repr

/-- The comparison `BasicIterator::operator==`: the same node. -/
def BasicIterator.eq (a b : BasicIterator) : Bool := decide (a.node_ = b.node_)

/-- The increment `BasicIterator::operator++`: `node_ = node_->next_node`. -/
def BasicIterator.incr (m : Mem α) (it : BasicIterator) : Except Fault BasicIterator :=
  match m.load it.node_ with
  | .error e => .error e
  | .ok n => .ok ⟨n.next_node⟩

/-- The dereference `BasicIterator::operator*`: `node_->value`. -/
def BasicIterator.deref (m : Mem α) (it : BasicIterator) : Except Fault α :=
  match m.load it.node_ with
  | .error e => .error e
  | .ok n => .ok n.value

/-- The function `std::advance(it, n)`: `n` times `++it`. -/
def advance (m : Mem α) : Nat → BasicIterator → Except Fault BasicIterator
  | 0, it => .ok it
  | n + 1, it =>
    match it.incr m with
    | .error e => .error e
    | .ok it1 => advance m n it1

/-! ## The class `SingleLinkedList` -/

/-- The members `begin()` and `cbegin()`: `Iterator(head_.next_node)`. -/
def begin (m : Mem α) (this : Nat) : Except Fault BasicIterator :=
  match m.nodes this with
  | none => .error .invalid_access
  | some head_ => .ok ⟨head_.next_node⟩

/-- The members `end()` and `cend()`: `Iterator(nullptr)`. -/
def cend : BasicIterator := ⟨none⟩

/-- The members `before_begin()` and `cbefore_begin()`: `Iterator(&head_)`. -/
def before_begin (this : Nat) : BasicIterator := ⟨some this⟩

/-- The iterator `j` steps behind `before_begin()`: `j = 0` is the sentinel position,
`j = k + 1` references the `k`-th real node, and one step behind the last node is `end()`. -/
def posAt (m : Mem α) (this : Nat) (j : Nat) : Except Fault BasicIterator :=
  advance m j (before_begin this)

/-- The member `GetSize()`. -/
def GetSize (m : Mem α) (this : Nat) : Nat := m.sizes this

/-- The member `IsEmpty()`. -/
def IsEmpty (m : Mem α) (this : Nat) : Bool := m.sizes this == 0

/-- The default constructor `SingleLinkedList() : head_{}, size_{0}`. -/
def mk_default [Inhabited α] (m : Mem α) (this : Nat) : Mem α :=
  (m.setNode this ⟨default, none⟩).setSize this 0

/-- The member `PushFront(el)`: `head_.next_node = new Node(el, head_.next_node); ++size_`. -/
def PushFront (A : Allocator α) (m : Mem α) (this : Nat) (el : α) : Outcome α Unit :=
  match A.new m with
  | none => .bad_alloc m
  | some p =>
    match m.nodes this with
    | none => .fault .invalid_access
    | some head_ =>
      let m1 := m.setNode p ⟨el, head_.next_node⟩
      let m2 := m1.setNode this ⟨head_.value, some p⟩
      .ok () (m2.setSize this ((m2.sizes this + 1) % SIZE_MOD))

/-- The member `Clear()`: the loop `while (head_.next_node)`. -/
def Clear : Nat → Mem α → Nat → Except Fault (Mem α)
  | fuel, m, this =>
    match m.nodes this with
    | none => .error .invalid_access
    | some head_ =>
      match head_.next_node with
      | none => .ok m
      | some del =>
        match fuel with
        | 0 => .error .out_of_fuel
        | f + 1 =>
          match m.nodes del with
          | none => .error .invalid_access
          | some dn =>
            let m1 := m.setNode this ⟨head_.value, dn.next_node⟩
            let m2 := m1.delNode del
            Clear f (m2.setSize this ((m2.sizes this + SIZE_MOD - 1) % SIZE_MOD)) this

/-- The member `InsertAfter(pos, value)`. -/
def InsertAfter (A : Allocator α) (m : Mem α) (this : Nat) (pos : BasicIterator) (value : α) :
    Outcome α BasicIterator :=
  match pos.node_ with
  | none => .ok cend m
  | some p =>
    match A.new m with
    | none => .bad_alloc m
    | some insert_node =>
      match m.nodes p with
      | none => .fault .invalid_access
      | some pn =>
        let m1 := m.setNode insert_node ⟨value, pn.next_node⟩
        let m2 := m1.setNode p ⟨pn.value, some insert_node⟩
        .ok ⟨some insert_node⟩ (m2.setSize this ((m2.sizes this + 1) % SIZE_MOD))

/-- The member `PopFront()`. -/
def PopFront (m : Mem α) (this : Nat) : Except Fault (Mem α) :=
  match m.nodes this with
  | none => .error .invalid_access
  | some head_ =>
    match head_.next_node with
    | none => .ok m
    | some del_node =>
      match m.nodes del_node with
      | none => .error .invalid_access
      | some dn =>
        let m1 := m.setNode this ⟨head_.value, dn.next_node⟩
        let m2 := m1.delNode del_node
        .ok (m2.setSize this ((m2.sizes this + SIZE_MOD - 1) % SIZE_MOD))

/-- The member `EraseAfter(pos)`. -/
def EraseAfter (m : Mem α) (this : Nat) (pos : BasicIterator) :
    Except Fault (Mem α × BasicIterator) :=
  match pos.node_ with
  | none => .ok (m, cend)
  | some p =>
    match m.nodes p with
    | none => .error .invalid_access
    | some pn =>
      match pn.next_node with
      | none => .ok (m, cend)
      | some del_node =>
        match m.nodes del_node with
        | none => .error .invalid_access
        | some dn =>
          let m1 := m.setNode p ⟨pn.value, dn.next_node⟩
          let m2 := m1.delNode del_node
          let m3 := m2.setSize this ((m2.sizes this + SIZE_MOD - 1) % SIZE_MOD)
          match m3.nodes p with
          | none => .error .invalid_access
          | some pn' => .ok (m3, ⟨pn'.next_node⟩)

/-- The member `swap(other)`. -/
def swap (m : Mem α) (this other : Nat) : Except Fault (Mem α) :=
  if this ≠ other then
    match m.nodes this, m.nodes other with
    | some h1, some h2 =>
      let m1 := (m.setNode this ⟨h1.value, h2.next_node⟩).setNode other ⟨h2.value, h1.next_node⟩
      .ok ((m1.setSize this (m.sizes other)).setSize other (m.sizes this))
    | _, _ => .error .invalid_access
  else .ok m

/-- The destructor `~SingleLinkedList() { Clear(); }`, after which the object is gone. -/
def dtor (fuel : Nat) (m : Mem α) (this : Nat) : Except Fault (Mem α) :=
  match Clear fuel m this with
  | .error e => .error e
  | .ok m1 => .ok (m1.delNode this)

/-- Destroy local list objects, in the order given. -/
def dtors (fuel : Nat) : Mem α → List Nat → Except Fault (Mem α)
  | m, [] => .ok m
  | m, t :: ts =>
    match dtor fuel m t with
    | .error e => .error e
    | .ok m1 => dtors fuel m1 ts

/-- Leave a constructor of the object at `this` by `std::bad_alloc`: the locals are destroyed
and the object at `this` never comes to life. -/
def unwind (fuel : Nat) (m : Mem α) (locals : List Nat) (this : Nat) : Outcome α Unit :=
  match dtors fuel m locals with
  | .error e => .fault e
  | .ok m1 => .bad_alloc (m1.delNode this)

/-- Leave a function normally: `swap(temp)` has been done, the locals are destroyed. -/
def leave (fuel : Nat) (m : Mem α) (locals : List Nat) : Outcome α Unit :=
  match dtors fuel m locals with
  | .error e => .fault e
  | .ok m1 => .ok () m1

/-- The loop of the initializer-list constructor, `temp.PushFront(*it)` for each value in the
order visited. -/
def pushAll (A : Allocator α) (temp : Nat) : List α → Mem α → Outcome α Unit
  | [], m => .ok () m
  | v :: vs, m =>
    match PushFront A m temp v with
    | .fault e => .fault e
    | .bad_alloc m1 => .bad_alloc m1
    | .ok _ m1 => pushAll A temp vs m1

/-- The constructor `SingleLinkedList(std::initializer_list<Type> values)`.  The member `head_`
is default-initialised (its link is `nullptr`; its value is never read) and `size_` is not
initialised: it keeps what the storage held. -/
def mk_from_values [Inhabited α] (A : Allocator α) (fuel : Nat) (m : Mem α) (this : Nat)
    (values : List α) : Outcome α Unit :=
  let m0 := m.setNode this ⟨default, none⟩
  match A.auto m0 with
  | none => .fault .stack_exhausted
  | some temp =>
    match pushAll A temp values.reverse (mk_default m0 temp) with
    | .fault e => .fault e
    | .bad_alloc m1 => unwind fuel m1 [temp] this
    | .ok _ m1 =>
      match swap m1 this temp with
      | .error e => .fault e
      | .ok m2 => leave fuel m2 [temp]

/-- The range-for loop of the copy constructor, `dst.PushFront(el)` for each element met from
`it` to `end()`. -/
def pushEach (A : Allocator α) (dst : Nat) : Nat → Mem α → BasicIterator → Outcome α Unit
  | fuel, m, it =>
    if it.eq cend then .ok () m
    else
      match fuel with
      | 0 => .fault .out_of_fuel
      | f + 1 =>
        match it.deref m with
        | .error e => .fault e
        | .ok el =>
          match PushFront A m dst el with
          | .fault e => .fault e
          | .bad_alloc m1 => .bad_alloc m1
          | .ok _ m1 =>
            match it.incr m1 with
            | .error e => .fault e
            | .ok it1 => pushEach A dst f m1 it1

/-- The copy constructor `SingleLinkedList(const SingleLinkedList& other)`. -/
def mk_copy [Inhabited α] (A : Allocator α) (fuel : Nat) (m : Mem α) (this other : Nat) :
    Outcome α Unit :=
  let m0 := m.setNode this ⟨default, none⟩
  match A.auto m0 with
  | none => .fault .stack_exhausted
  | some t1 =>
    let m1 := mk_default m0 t1
    match begin m1 other with
    | .error e => .fault e
    | .ok b1 =>
      match pushEach A t1 fuel m1 b1 with
      | .fault e => .fault e
      | .bad_alloc m2 => unwind fuel m2 [t1] this
      | .ok _ m2 =>
        match A.auto m2 with
        | none => .fault .stack_exhausted
        | some t2 =>
          let m3 := mk_default m2 t2
          match begin m3 t1 with
          | .error e => .fault e
          | .ok b2 =>
            match pushEach A t2 fuel m3 b2 with
            | .fault e => .fault e
            | .bad_alloc m4 => unwind fuel m4 [t2, t1] this
            | .ok _ m4 =>
              match swap m4 this t2 with
              | .error e => .fault e
              | .ok m5 => leave fuel m5 [t2, t1]

/-- The copy assignment `operator=(const SingleLinkedList& rhs)`. -/
def assign [Inhabited α] (A : Allocator α) (fuel : Nat) (m : Mem α) (this rhs : Nat) :
    Outcome α Unit :=
  if this ≠ rhs then
    match A.auto m with
    | none => .fault .stack_exhausted
    | some temp =>
      match mk_copy A fuel m temp rhs with
      | .fault e => .fault e
      | .bad_alloc m1 => .bad_alloc m1
      | .ok _ m1 =>
        match swap m1 this temp with
        | .error e => .fault e
        | .ok m2 => leave fuel m2 [temp]
  else .ok () m

/-! ## The comparison operators -/

/-- The algorithm `std::equal(first1, last1, first2)` with the element type's `==`. -/
def equal [BEq α] (m : Mem α) :
    Nat → BasicIterator → BasicIterator → BasicIterator → Except Fault Bool
  | fuel, first1, last1, first2 =>
    if first1.eq last1 then .ok true
    else
      match fuel with
      | 0 => .error .out_of_fuel
      | f + 1 =>
        match first1.deref m with
        | .error e => .error e
        | .ok a =>
          match first2.deref m with
          | .error e => .error e
          | .ok b =>
            if !(a == b) then .ok false
            else
              match first1.incr m with
              | .error e => .error e
              | .ok i1 =>
                match first2.incr m with
                | .error e => .error e
                | .ok i2 => equal m f i1 last1 i2

/-- The algorithm `std::lexicographical_compare(first1, last1, first2, last2)` with the element
type's `<`, given as `lt`. -/
def lexicographical_compare (lt : α → α → Bool) (m : Mem α) :
    Nat → BasicIterator → BasicIterator → BasicIterator → BasicIterator → Except Fault Bool
  | fuel, first1, last1, first2, last2 =>
    if !(first1.eq last1) && !(first2.eq last2) then
      match fuel with
      | 0 => .error .out_of_fuel
      | f + 1 =>
        match first1.deref m with
        | .error e => .error e
        | .ok a =>
          match first2.deref m with
          | .error e => .error e
          | .ok b =>
            if lt a b then .ok true
            else if lt b a then .ok false
            else
              match first1.incr m with
              | .error e => .error e
              | .ok i1 =>
                match first2.incr m with
                | .error e => .error e
                | .ok i2 => lexicographical_compare lt m f i1 last1 i2 last2
    else .ok (first1.eq last1 && !(first2.eq last2))

/-- The free `operator==`. -/
def op_eq [BEq α] (fuel : Nat) (m : Mem α) (lhs rhs : Nat) : Except Fault Bool :=
  if GetSize m lhs ≠ GetSize m rhs then .ok false
  else
    match begin m lhs with
    | .error e => .error e
    | .ok b1 =>
      match begin m rhs with
      | .error e => .error e
      | .ok b2 => equal m fuel b1 cend b2

/-- The free `operator!=`. -/
def op_ne [BEq α] (fuel : Nat) (m : Mem α) (lhs rhs : Nat) : Except Fault Bool :=
  match op_eq fuel m lhs rhs with
  | .error e => .error e
  | .ok b => .ok (!b)

/-- The free `operator<`. -/
def op_lt (lt : α → α → Bool) (fuel : Nat) (m : Mem α) (lhs rhs : Nat) : Except Fault Bool :=
  match begin m lhs with
  | .error e => .error e
  | .ok b1 =>
    match begin m rhs with
    | .error e => .error e
    | .ok b2 => lexicographical_compare lt m fuel b1 cend b2 cend

/-- The free `operator<=`: `(lhs == rhs) || (lhs < rhs)`. -/
def op_le [BEq α] (lt : α → α → Bool) (fuel : Nat) (m : Mem α) (lhs rhs : Nat) :
    Except Fault Bool :=
  match op_eq fuel m lhs rhs with
  | .error e => .error e
  | .ok true => .ok true
  | .ok false => op_lt lt fuel m lhs rhs

/-- The free `operator>`: `!(lhs <= rhs)`. -/
def op_gt [BEq α] (lt : α → α → Bool) (fuel : Nat) (m : Mem α) (lhs rhs : Nat) :
    Except Fault Bool :=
  match op_le lt fuel m lhs rhs with
  | .error e => .error e
  | .ok b => .ok (!b)

/-- The free `operator>=`: `!(lhs < rhs)`. -/
def op_ge (lt : α → α → Bool) (fuel : Nat) (m : Mem α) (lhs rhs : Nat) : Except Fault Bool :=
  match op_lt lt fuel m lhs rhs with
  | .error e => .error e
  | .ok b => .ok (!b)

/-! ## Observation and client programs -/

/-- The traversal loop `for (it = first; it != end(); ++it)` collecting `*it`. -/
def collect (m : Mem α) : Nat → BasicIterator → Except Fault (List α)
  | fuel, it =>
    if it.eq cend then .ok []
    else
      match fuel with
      | 0 => .error .out_of_fuel
      | f + 1 =>
        match it.deref m with
        | .error e => .error e
        | .ok v =>
          match it.incr m with
          | .error e => .error e
          | .ok it1 =>
            match collect m f it1 with
            | .error e => .error e
            | .ok vs => .ok (v :: vs)

/-- The traversal sequence of the list at `this`: the values met from `begin()` to `end()`. -/
def toSeq (fuel : Nat) (m : Mem α) (this : Nat) : Except Fault (List α) :=
  match begin m this with
  | .error e => .error e
  | .ok b => collect m fuel b

/-- A mutating call on one list.  Positions are given as the number of steps behind
`before_begin()`, which is how a client reaches the sentinel, the nodes of the list and
`end()`. -/
inductive Mutation (α : Type) where
  | pushFront (v : α)
  | popFront
  | clear
  | insertAfter (j : Nat) (v : α)
  | eraseAfter (j : Nat)

/-- Run a mutating call on the list at `this`.  The loop of `Clear` gets the fuel `size_`. -/
def mutate (A : Allocator α) (m : Mem α) (this : Nat) : Mutation α → Outcome α Unit
  | .pushFront v => PushFront A m this v
  | .popFront =>
    match PopFront m this with
    | .error e => .fault e
    | .ok m1 => .ok () m1
  | .clear =>
    match Clear (GetSize m this) m this with
    | .error e => .fault e
    | .ok m1 => .ok () m1
  | .insertAfter j v =>
    match posAt m this j with
    | .error e => .fault e
    | .ok pos =>
      match InsertAfter A m this pos v with
      | .fault e => .fault e
      | .bad_alloc m1 => .bad_alloc m1
      | .ok _ m1 => .ok () m1
  | .eraseAfter j =>
    match posAt m this j with
    | .error e => .fault e
    | .ok pos =>
      match EraseAfter m this pos with
      | .error e => .fault e
      | .ok r => .ok () r.1

/-- Run a sequence of mutating calls on the list at `this`; a `std::bad_alloc` is caught and
the sequence goes on. -/
def mutateAll (A : Allocator α) (this : Nat) : List (Mutation α) → Mem α → Except Fault (Mem α)
  | [], m => .ok m
  | mu :: mus, m =>
    match mutate A m this mu with
    | .fault e => .error e
    | .bad_alloc m1 => mutateAll A this mus m1
    | .ok _ m1 => mutateAll A this mus m1

/-- A statement of a client program working on list objects, which are named by their
addresses. -/
inductive Cmd (α : Type) where
  | mkDefault
  | mkFromValues (values : List α)
  | mkCopy (other : Nat)
  | assign (this rhs : Nat)
  | swap (this other : Nat)
  | call (this : Nat) (mu : Mutation α)

/-- Define a new list variable: storage is obtained, the constructor runs there, and on normal
completion the object joins the live list objects. -/
def declare (A : Allocator α) (m : Mem α) (objs : List Nat) (ctor : Nat → Outcome α Unit) :
    Outcome α (List Nat) :=
  match A.auto m with
  | none => .fault .stack_exhausted
  | some this =>
    match ctor this with
    | .fault e => .fault e
    | .bad_alloc m1 => .bad_alloc m1
    | .ok _ m1 => .ok (this :: objs) m1

/-- Keep the live list objects `objs` along an operation that creates none. -/
def keepObjs (objs : List Nat) : Outcome α Unit → Outcome α (List Nat)
  | .fault e => .fault e
  | .bad_alloc m1 => .bad_alloc m1
  | .ok _ m1 => .ok objs m1

/-- Run one statement on the memory `m` with the live list objects `objs`.  Using an address
that is not a live list object is a fault.  Loops get the fuel `size_` of the lists involved. -/
def exec [Inhabited α] (A : Allocator α) (m : Mem α) (objs : List Nat) :
    Cmd α → Outcome α (List Nat)
  | .mkDefault => declare A m objs (fun this => .ok () (mk_default m this))
  | .mkFromValues values =>
    declare A m objs (fun this => mk_from_values A values.length m this values)
  | .mkCopy other =>
    if other ∈ objs then
      declare A m objs (fun this => mk_copy A (GetSize m other) m this other)
    else .fault .invalid_access
  | .assign this rhs =>
    if this ∈ objs ∧ rhs ∈ objs then
      keepObjs objs (assign A (max (GetSize m this) (GetSize m rhs)) m this rhs)
    else .fault .invalid_access
  | .swap this other =>
    if this ∈ objs ∧ other ∈ objs then
      match swap m this other with
      | .error e => .fault e
      | .ok m1 => .ok objs m1
    else .fault .invalid_access
  | .call this mu =>
    if this ∈ objs then keepObjs objs (mutate A m this mu) else .fault .invalid_access

/-- Run a program; a `std::bad_alloc` is caught and the program goes on. -/
def run [Inhabited α] (A : Allocator α) : List (Cmd α) → Mem α → List Nat →
    Outcome α (List Nat)
  | [], m, objs => .ok objs m
  | c :: cs, m, objs =>
    match exec A m objs c with
    | .fault e => .fault e
    | .bad_alloc m1 => run A cs m1 objs
    | .ok objs1 m1 => run A cs m1 objs1

/-! ## Well-formed lists in memory -/

/-- The pointer to the first cell of a chain (`nullptr` for the empty chain). -/
def headPtr : List (Nat × α) → Option Nat
  | [] => none
  | c :: _ => some c.1

/-- The addresses of the cells of a chain. -/
def addrs (cells : List (Nat × α)) : List Nat := cells.map Prod.fst

/-- The values of the cells of a chain. -/
def vals (cells : List (Nat × α)) : List α := cells.map Prod.snd

/-- The cells `(address, value)` are live nodes and each one points to the next, the last one
to `nullptr`. -/
def IsChain (m : Mem α) : List (Nat × α) → Prop
  | [] => True
  | c :: cs => m.nodes c.1 = some ⟨c.2, headPtr cs⟩ ∧ IsChain m cs

/-- The list object at `this` has a live sentinel (holding some value `hv`) that starts the chain
`cells`; the sentinel and the cells are distinct objects at 64-bit addresses. -/
structure Linked (m : Mem α) (this : Nat) (cells : List (Nat × α)) : Prop where
  chain : ∃ hv, IsChain m ((this, hv) :: cells)
  nodup : (this :: addrs cells).Nodup
  bound : ∀ a ∈ this :: addrs cells, a < SIZE_MOD

/-- The list object at `this` is well formed with real nodes `cells`: it is linked and `size_`
is the number of cells. -/
def Owns (m : Mem α) (this : Nat) (cells : List (Nat × α)) : Prop :=
  Linked m this cells ∧ m.sizes this = cells.length

/-- Every object that is live in `m` and lies outside the addresses `S` is the same in `m1`:
the node there, and the `size_` field there. -/
def Keep (m m1 : Mem α) (S : List Nat) : Prop :=
  ∀ a, a ∉ S → m.nodes a ≠ none → m1.nodes a = m.nodes a ∧ m1.sizes a = m.sizes a

/-- What an operation on the list at `this` (cells `cells` before, `cells1` after) leaves alone:
live objects outside the old footprint are kept, and new cells are new storage. -/
structure Frame (m m1 : Mem α) (this : Nat) (cells cells1 : List (Nat × α)) : Prop where
  keep : Keep m m1 (this :: addrs cells)
  fresh : ∀ a ∈ addrs cells1, a ∈ addrs cells ∨ m.nodes a = none

/-- The memory after linking a new node `q` (value `v`) behind the node `p` (value `pv`, old
successor `nx`) of the list at `this`, and counting it. -/
def linkMem (m : Mem α) (this p q : Nat) (pv v : α) (nx : Option Nat) : Mem α :=
  ((m.setNode q ⟨v, nx⟩).setNode p ⟨pv, some q⟩).setSize this ((m.sizes this + 1) % SIZE_MOD)

/-- The memory after unlinking and deleting the node `d` (successor `nx`) behind the node `p`
(value `pv`) of the list at `this`, and discounting it. -/
def unlinkMem (m : Mem α) (this p d : Nat) (pv : α) (nx : Option Nat) : Mem α :=
  ((m.setNode p ⟨pv, nx⟩).delNode d).setSize this ((m.sizes this + SIZE_MOD - 1) % SIZE_MOD)

/-- The invariant of a program state: every live list object `l` is a well-formed list with
cells `cf l` (so `size_` counts its real nodes), no sentinel is a cell of a list, and distinct
lists share no cell. -/
structure WorldOK (m : Mem α) (objs : List Nat) (cf : Nat → List (Nat × α)) : Prop where
  owns : ∀ l ∈ objs, Owns m l (cf l)
  sentinel : ∀ l1 ∈ objs, ∀ l2 ∈ objs, l1 ∉ addrs (cf l2)
  cells : ∀ l1 ∈ objs, ∀ l2 ∈ objs, l1 ≠ l2 → ∀ a ∈ addrs (cf l1), a ∉ addrs (cf l2)

/-- The list `L` (cells `cells`) is unchanged in `m1`: same nodes, same sequence, same size. -/
def Unchanged (m1 : Mem α) (L : Nat) (cells : List (Nat × α)) : Prop :=
  Owns m1 L cells ∧ (∀ f, cells.length ≤ f → toSeq f m1 L = .ok (vals cells)) ∧
    GetSize m1 L = cells.length

/-- The state `m1` after copying the list `L` (cells `cells`) into the list at `c`: the copy is a
well-formed list made of other objects than `L`, with the same traversal sequence and the same
size; `operator==` of the copy and `L` returns, and is `true` exactly when every element of `L` is
`==` to itself; `L` is unchanged, and stays so under every later sequence of mutating calls on
the copy. -/
def CopyPost [BEq α] (A : Allocator α) (m1 : Mem α) (c L : Nat) (cells : List (Nat × α)) :
    Prop :=
  (∃ cs, Owns m1 c cs ∧ vals cs = vals cells ∧ ∀ a ∈ c :: addrs cs, a ∉ L :: addrs cells) ∧
  (∀ f, cells.length ≤ f → toSeq f m1 c = .ok (vals cells)) ∧
  GetSize m1 c = cells.length ∧
  (∀ f, cells.length ≤ f →
    ∃ b, op_eq f m1 c L = .ok b ∧ (b = true ↔ ∀ a ∈ vals cells, (a == a) = true)) ∧
  Unchanged m1 L cells ∧
  ∀ mus m2, mutateAll A c mus m1 = .ok m2 → Unchanged m2 L cells

/-! ## The comparisons on sequences -/

/-- What `std::equal` computes on two sequences of the same length. -/
def seqEq [BEq α] : List α → List α → Bool
  | x :: xs, y :: ys => (x == y) && seqEq xs ys
  | _, _ => true

/-- What `std::lexicographical_compare` computes on two sequences. -/
def lexRef (lt : α → α → Bool) : List α → List α → Bool
  | x :: xs, y :: ys => if lt x y then true else if lt y x then false else lexRef lt xs ys
  | [], _ :: _ => true
  | _, [] => false

/-- The sequences have elements at position `i` that differ under `<`: one is less than the
other. -/
def DifferAt (lt : α → α → Bool) (xs ys : List α) (i : Nat) : Prop :=
  ∃ x y, xs[i]? = some x ∧ ys[i]? = some y ∧ (lt x y = true ∨ lt y x = true)

/-- Lexicographic comparison in the words of the specification: at the first position where the
elements differ under `<` the element of `xs` is the smaller one, or there is no such position
and `xs` is the shorter sequence. -/
def LexLess (lt : α → α → Bool) (xs ys : List α) : Prop :=
  (∃ i, DifferAt lt xs ys i ∧ (∀ k, k < i → ¬ DifferAt lt xs ys k) ∧
      ∃ x y, xs[i]? = some x ∧ ys[i]? = some y ∧ lt x y = true) ∨
  ((∀ i, ¬ DifferAt lt xs ys i) ∧ xs.length < ys.length)

/-! ## Concrete memories and a concrete program -/

/-- A memory without objects. -/
def mem0 : Mem Nat := ⟨fun _ => none, fun _ => 77⟩

/-- A memory holding the list `{1, 2, 3}` at address `0`, its nodes at `1000, 1001, 1002`. -/
def mem123 : Mem Nat where
  nodes := fun a =>
    if a = 0 then some ⟨0, some 1000⟩
    else if a = 1000 then some ⟨1, some 1001⟩
    else if a = 1001 then some ⟨2, some 1002⟩
    else if a = 1002 then some ⟨3, none⟩
    else none
  sizes := fun a => if a = 0 then 3 else 77

/-- The cells of the list in `mem123`. -/
def cells123 : List (Nat × Nat) := [(1000, 1), (1001, 2), (1002, 3)]

/-- A memory holding `L = {1, 2, 3}` at address `0` and `M = {1, 2, 4}` at address `1`. -/
def memLM : Mem Nat where
  nodes := fun a =>
    if a = 0 then some ⟨0, some 1000⟩
    else if a = 1000 then some ⟨1, some 1001⟩
    else if a = 1001 then some ⟨2, some 1002⟩
    else if a = 1002 then some ⟨3, none⟩
    else if a = 1 then some ⟨0, some 1003⟩
    else if a = 1003 then some ⟨1, some 1004⟩
    else if a = 1004 then some ⟨2, some 1005⟩
    else if a = 1005 then some ⟨4, none⟩
    else none
  sizes := fun a => if a = 0 then 3 else if a = 1 then 3 else 77

/-- The cells of the list `M` in `memLM`. -/
def cells124 : List (Nat × Nat) := [(1003, 1), (1004, 2), (1005, 4)]

/-- A client program: `a{1, 2}` (at address `2000`), `b(a)` (at `2001`), `c` (at `2002`),
`c.PushFront(5)`, `a.swap(c)`, `c.EraseAfter(c.begin())`, `b.Clear()`, `a.PopFront()`. -/
def demoProgram : List (Cmd Nat) :=
  [.mkFromValues [1, 2], .mkCopy 2000, .mkDefault, .call 2002 (.pushFront 5), .swap 2000 2002,
   .call 2002 (.eraseAfter 1), .call 2001 .clear, .call 2000 .popFront]

/-- Forget the iterator that `InsertAfter` returns. -/
def dropIt : Outcome α BasicIterator → Outcome α Unit
  | .fault e => .fault e
  | .bad_alloc m1 => .bad_alloc m1
  | .ok _ m1 => .ok () m1

/-- The free function `swap(lhs, rhs)`: `lhs.swap(rhs)`. -/
def free_swap (m : Mem α) (lhs rhs : Nat) : Except Fault (Mem α) :=
  swap m lhs rhs

/-- The member `PopFront()` called `n` times in a row. -/
def popN : Nat → Mem α → Nat → Except Fault (Mem α)
  | 0, m, _ => .ok m
  | n + 1, m, this =>
    match PopFront m this with
    | .error e => .error e
    | .ok m1 => popN n m1 this

/-- What `operator==` computes on two sequences: equal lengths and `std::equal`. -/
def listEq [BEq α] (xs ys : List α) : Bool :=
  decide (xs.length = ys.length) && seqEq xs ys

/-- An element `<` that is only a strict partial order: `a` is a proper divisor of `b`.  The
numbers `2` and `3` are not comparable under it. -/
def properDvd (a b : Nat) : Bool := decide (a ∣ b) && decide (a ≠ b)

/-- A memory holding `L = {2}` at address `0` (node at `1000`) and `M = {3}` at address `1`
(node at `1001`). -/
def memAB : Mem Nat where
  nodes := fun a =>
    if a = 0 then some ⟨0, some 1000⟩
    else if a = 1000 then some ⟨2, none⟩
    else if a = 1 then some ⟨0, some 1001⟩
    else if a = 1001 then some ⟨3, none⟩
    else none
  sizes := fun a => if a = 0 then 1 else if a = 1 then 1 else 77

/-- An element type whose `==` is not reflexive, in the manner of `double`: numbers and a NaN. -/
inductive Dbl where
  | nan
  | num (n : Nat)

/-- The `==` of `Dbl`: numbers compare by value, and NaN is `==` to nothing, itself included. -/
def Dbl.eq : Dbl → Dbl → Bool
  | .num a, .num b => a == b
  | _, _ => false

instance instBEqDbl : BEq Dbl := ⟨Dbl.eq⟩

instance instInhabitedDbl : Inhabited Dbl := ⟨.num 0⟩

/-- A memory holding the list `{NaN}` at address `0`, its node at `1000`. -/
def memNaN : Mem Dbl where
  nodes := fun a =>
    if a = 0 then some ⟨.num 0, some 1000⟩
    else if a = 1000 then some ⟨.nan, none⟩
    else none
  sizes := fun a => if a = 0 then 1 else 77

/-! ## Lemmas -/

@[simp] theorem setNode_nodes (m : Mem α) (a b : Nat) (n : Node α) :
    (m.setNode a n).nodes b = if b = a then some n else m.nodes b := rfl

@[simp] theorem setNode_sizes (m : Mem α) (a : Nat) (n : Node α) :
    (m.setNode a n).sizes = m.sizes := rfl

@[simp] theorem delNode_nodes (m : Mem α) (a b : Nat) :
    (m.delNode a).nodes b = if b = a then none else m.nodes b := rfl

@[simp] theorem delNode_sizes (m : Mem α) (a : Nat) : (m.delNode a).sizes = m.sizes := rfl

@[simp] theorem setSize_nodes (m : Mem α) (a s : Nat) : (m.setSize a s).nodes = m.nodes := rfl

@[simp] theorem setSize_sizes (m : Mem α) (a b s : Nat) :
    (m.setSize a s).sizes b = if b = a then s else m.sizes b := rfl

theorem IsChain.cell_live {m : Mem α} : ∀ {cells : List (Nat × α)}, IsChain m cells →
    ∀ a ∈ addrs cells, m.nodes a ≠ none
  | [], _, a, ha => by simp [addrs] at ha
  | c :: cs, h, a, ha => by
    simp only [addrs, List.map_cons, List.mem_cons] at ha
    rcases ha with rfl | ha
    · rw [h.1]; simp
    · exact IsChain.cell_live h.2 a ha

/-- A chain only depends on the nodes at its addresses. -/
theorem IsChain.chain_congr {m m1 : Mem α} : ∀ {cells : List (Nat × α)}, IsChain m cells →
    (∀ a ∈ addrs cells, m1.nodes a = m.nodes a) → IsChain m1 cells
  | [], _, _ => trivial
  | c :: cs, h, hm => by
    refine ⟨?_, IsChain.chain_congr h.2 (fun a ha => hm a ?_)⟩
    · rw [hm c.1 (by simp [addrs]), h.1]
    · simp only [addrs, List.map_cons, List.mem_cons]; exact Or.inr ha

theorem Linked.live {m : Mem α} {this : Nat} {cells : List (Nat × α)} (h : Linked m this cells) :
    ∀ a ∈ this :: addrs cells, m.nodes a ≠ none := by
  obtain ⟨hv, hc⟩ := h.chain
  exact hc.cell_live

theorem Linked.congr {m m1 : Mem α} {this : Nat} {cells : List (Nat × α)}
    (h : Linked m this cells) (hm : ∀ a ∈ this :: addrs cells, m1.nodes a = m.nodes a) :
    Linked m1 this cells where
  chain := by
    obtain ⟨hv, hc⟩ := h.chain
    exact ⟨hv, hc.chain_congr hm⟩
  nodup := h.nodup
  bound := h.bound

/-- Distinct addresses below `n` are at most `n`. -/
theorem length_le_of_nodup_bound {l : List Nat} {n : Nat} (hn : l.Nodup) (hb : ∀ a ∈ l, a < n) :
    l.length ≤ n := by
  have h1 : l.toFinset ⊆ Finset.range n := by
    intro a ha
    exact Finset.mem_range.2 (hb a (List.mem_toFinset.1 ha))
  have h2 := Finset.card_le_card h1
  rwa [List.toFinset_card_of_nodup hn, Finset.card_range] at h2

theorem Linked.length_lt {m : Mem α} {this : Nat} {cells : List (Nat × α)}
    (h : Linked m this cells) : cells.length < SIZE_MOD := by
  have := length_le_of_nodup_bound h.nodup h.bound
  simp only [List.length_cons, addrs, List.length_map] at this
  omega

theorem collect_chain {m : Mem α} : ∀ (cells : List (Nat × α)) (fuel : Nat), IsChain m cells →
    cells.length ≤ fuel → collect m fuel ⟨headPtr cells⟩ = .ok (vals cells)
  | [], fuel, _, _ => by
    unfold collect
    simp [headPtr, BasicIterator.eq, cend, vals]
  | c :: cs, 0, _, hf => by simp at hf
  | c :: cs, f + 1, h, hf => by
    unfold collect
    have ih := collect_chain cs f h.2 (by simpa using hf)
    have hd : headPtr (c :: cs) = some c.1 := rfl
    simp only [hd, BasicIterator.eq, cend, BasicIterator.deref, BasicIterator.incr,
      Mem.load, h.1, ih]
    simp [vals]

theorem Linked.begin_eq {m : Mem α} {this : Nat} {cells : List (Nat × α)}
    (h : Linked m this cells) : begin m this = .ok ⟨headPtr cells⟩ := by
  obtain ⟨hv, hc⟩ := h.chain
  unfold begin
  rw [hc.1]

/-- Traversing a linked list from `begin()` to `end()` yields the values of its cells. -/
theorem Linked.toSeq_eq {m : Mem α} {this : Nat} {cells : List (Nat × α)}
    (h : Linked m this cells) (fuel : Nat) (hf : cells.length ≤ fuel) :
    toSeq fuel m this = .ok (vals cells) := by
  obtain ⟨hv, hc⟩ := h.chain
  unfold toSeq
  rw [h.begin_eq]
  exact collect_chain cells fuel hc.2 hf

theorem IsChain.suffix {m : Mem α} : ∀ (xs : List (Nat × α)) {ys : List (Nat × α)},
    IsChain m (xs ++ ys) → IsChain m ys
  | [], _, h => h
  | _ :: xs, _, h => IsChain.suffix xs h.2

/-- Replacing what follows the cell `p` of a chain: the cells before `p` are untouched, `p` now
points to the chain `zs`. -/
theorem IsChain.replace_tail {m m1 : Mem α} {p : Nat} {pv : α} {ys zs : List (Nat × α)} :
    ∀ (xs : List (Nat × α)), IsChain m (xs ++ (p, pv) :: ys) →
      (∀ a ∈ addrs xs, m1.nodes a = m.nodes a) →
      m1.nodes p = some ⟨pv, headPtr zs⟩ → IsChain m1 zs → IsChain m1 (xs ++ (p, pv) :: zs)
  | [], _, _, hp, hz => ⟨hp, hz⟩
  | x :: xs, h, hm, hp, hz => by
    refine ⟨?_, IsChain.replace_tail xs h.2
      (fun a ha => hm a (by simp only [addrs, List.map_cons, List.mem_cons]; exact Or.inr ha))
      hp hz⟩
    show m1.nodes x.1 = _
    rw [hm x.1 (by simp [addrs]), h.1]
    cases xs <;> rfl

theorem addrs_append (xs ys : List (Nat × α)) : addrs (xs ++ ys) = addrs xs ++ addrs ys := by
  simp [addrs]

theorem addrs_cons (c : Nat × α) (ys : List (Nat × α)) : addrs (c :: ys) = c.1 :: addrs ys := rfl

theorem insert_chain {m : Mem α} {xs ys : List (Nat × α)} {p q : Nat} {pv v : α}
    (h : IsChain m (xs ++ (p, pv) :: ys)) (hnd : (addrs (xs ++ (p, pv) :: ys)).Nodup)
    (hq : m.nodes q = none) :
    IsChain ((m.setNode q ⟨v, headPtr ys⟩).setNode p ⟨pv, some q⟩)
      (xs ++ (p, pv) :: (q, v) :: ys) := by
  have hlive := h.cell_live
  have hqn : ∀ a ∈ addrs (xs ++ (p, pv) :: ys), a ≠ q := fun a ha hqa => hlive a ha (hqa ▸ hq)
  rw [addrs_append, addrs_cons] at hnd hqn
  have hpq : p ≠ q := hqn p (by simp)
  have hd := List.nodup_append.1 hnd
  have hpys : p ∉ addrs ys := (List.nodup_cons.1 hd.2.1).1
  refine IsChain.replace_tail xs h ?_ ?_ ⟨?_, ?_⟩
  · intro a ha
    have h1 : a ≠ p := fun hap => hd.2.2 ha (by simp [hap])
    have h2 : a ≠ q := hqn a (by simp [ha])
    simp [h1, h2]
  · simp [headPtr]
  · show (Mem.setNode _ _ _).nodes q = _
    simp [hpq.symm]
  · refine (IsChain.suffix (xs ++ [(p, pv)]) (by simpa using h)).chain_congr ?_
    intro a ha
    have h1 : a ≠ p := fun hap => hpys (hap ▸ ha)
    have h2 : a ≠ q := hqn a (by simp [ha])
    simp [h1, h2]

theorem erase_chain {m : Mem α} {xs ys : List (Nat × α)} {p d : Nat} {pv dv : α}
    (h : IsChain m (xs ++ (p, pv) :: (d, dv) :: ys))
    (hnd : (addrs (xs ++ (p, pv) :: (d, dv) :: ys)).Nodup) :
    IsChain ((m.setNode p ⟨pv, headPtr ys⟩).delNode d) (xs ++ (p, pv) :: ys) := by
  rw [addrs_append, addrs_cons, addrs_cons] at hnd
  have hd := List.nodup_append.1 hnd
  have hn1 := List.nodup_cons.1 hd.2.1
  have hn2 := List.nodup_cons.1 hn1.2
  have hpd : p ≠ d := fun hpd => hn1.1 (by simp [hpd])
  refine IsChain.replace_tail xs h ?_ ?_ ?_
  · intro a ha
    have h1 : a ≠ p := fun hap => hd.2.2 ha (by simp [hap])
    have h2 : a ≠ d := fun hap => hd.2.2 ha (by simp [hap])
    simp [h1, h2]
  · simp [hpd]
  · refine (IsChain.suffix (xs ++ [(p, pv), (d, dv)]) (by simpa using h)).chain_congr ?_
    intro a ha
    have h1 : a ≠ p := fun hap => hn1.1 (by simp [← hap, ha])
    have h2 : a ≠ d := fun hap => hn2.1 (hap ▸ ha)
    simp [h1, h2]

theorem perm_insert_mid (xs ys : List (Nat × α)) (c e : Nat × α) :
    (addrs (xs ++ c :: e :: ys)).Perm (e.1 :: addrs (xs ++ c :: ys)) := by
  have h := @List.perm_middle _ e (xs ++ [c]) ys
  simp only [List.append_assoc, List.singleton_append] at h
  exact h.map Prod.fst

theorem IsChain.chain_setSize {m : Mem α} {cells : List (Nat × α)} (h : IsChain m cells) (a s : Nat) :
    IsChain (m.setSize a s) cells :=
  h.chain_congr (fun _ _ => rfl)

/-- Splicing a new node `q` after the node `p` of the list (`p` is the sentinel or a cell). -/
theorem linkMem_spec {m : Mem α} {this : Nat} (xs : List (Nat × α))
    {cells cells1 ys : List (Nat × α)} {hv pv : α} {p q : Nat} (v : α)
    (h : Linked m this cells) (hc : IsChain m ((this, hv) :: cells))
    (hx : (this, hv) :: cells = xs ++ (p, pv) :: ys)
    (hx1 : (this, hv) :: cells1 = xs ++ (p, pv) :: (q, v) :: ys)
    (hfresh : m.nodes q = none ∧ q < SIZE_MOD) :
    m.nodes p = some ⟨pv, headPtr ys⟩ ∧
      Linked (linkMem m this p q pv v (headPtr ys)) this cells1 ∧
      Frame m (linkMem m this p q pv v (headPtr ys)) this cells cells1 := by
  have hc0 : IsChain m (xs ++ (p, pv) :: ys) := hx ▸ hc
  have hnd0 : (addrs (xs ++ (p, pv) :: ys)).Nodup := hx ▸ h.nodup
  have hp : m.nodes p = some ⟨pv, headPtr ys⟩ := (IsChain.suffix xs hc0).1
  have hperm := perm_insert_mid xs ys (p, pv) (q, v)
  rw [← hx1, ← hx] at hperm
  have hmem : ∀ a, a ∈ this :: addrs cells1 ↔ a = q ∨ a ∈ this :: addrs cells := fun a => by
    have := hperm.mem_iff (a := a)
    simpa [addrs] using this
  have hqold : q ∉ this :: addrs cells := fun hq1 => h.live q hq1 hfresh.1
  have hnd1 : (this :: addrs cells1).Nodup :=
    hperm.nodup_iff.2 (List.nodup_cons.2 ⟨hqold, h.nodup⟩)
  refine ⟨hp, ⟨⟨hv, ?_⟩, hnd1, ?_⟩, ⟨fun a ha hlive => ⟨?_, ?_⟩, ?_⟩⟩
  · rw [hx1]
    exact (insert_chain hc0 hnd0 hfresh.1).chain_setSize _ _
  · intro a ha
    rcases (hmem a).1 ha with rfl | ha
    · exact hfresh.2
    · exact h.bound a ha
  · have h1 : a ≠ p := fun hap => ha (by
      have : p ∈ addrs (xs ++ (p, pv) :: ys) := by simp [addrs]
      rw [← hx] at this
      exact hap ▸ this)
    have h2 : a ≠ q := fun haq => hlive (haq ▸ hfresh.1)
    simp [linkMem, h1, h2]
  · have h1 : a ≠ this := fun hat => ha (by simp [hat])
    simp [linkMem, h1]
  · intro a ha
    have h1 : a ≠ this := fun hat => (List.nodup_cons.1 hnd1).1 (hat ▸ ha)
    rcases (hmem a).1 (List.mem_cons_of_mem _ ha) with rfl | ha1
    · exact Or.inr hfresh.1
    · rcases List.mem_cons.1 ha1 with hat | ha2
      · exact absurd hat h1
      · exact Or.inl ha2

/-- Unlinking and deleting the node `d` that follows the node `p` of the list. -/
theorem unlinkMem_spec {m : Mem α} {this : Nat} (xs : List (Nat × α)) (dv : α)
    {cells cells1 ys : List (Nat × α)} {hv pv : α} {p d : Nat}
    (h : Linked m this cells) (hc : IsChain m ((this, hv) :: cells))
    (hx : (this, hv) :: cells = xs ++ (p, pv) :: (d, dv) :: ys)
    (hx1 : (this, hv) :: cells1 = xs ++ (p, pv) :: ys) :
    (m.nodes p = some ⟨pv, some d⟩ ∧ m.nodes d = some ⟨dv, headPtr ys⟩ ∧ p ≠ d) ∧
      Linked (unlinkMem m this p d pv (headPtr ys)) this cells1 ∧
      Frame m (unlinkMem m this p d pv (headPtr ys)) this cells cells1 := by
  have hc0 : IsChain m (xs ++ (p, pv) :: (d, dv) :: ys) := hx ▸ hc
  have hnd0 : (addrs (xs ++ (p, pv) :: (d, dv) :: ys)).Nodup := hx ▸ h.nodup
  have hp : m.nodes p = some ⟨pv, some d⟩ := (IsChain.suffix xs hc0).1
  have hd : m.nodes d = some ⟨dv, headPtr ys⟩ := (IsChain.suffix xs hc0).2.1
  have hperm := perm_insert_mid xs ys (p, pv) (d, dv)
  rw [← hx1, ← hx] at hperm
  have hmem : ∀ a, a ∈ this :: addrs cells ↔ a = d ∨ a ∈ this :: addrs cells1 := fun a => by
    have := hperm.mem_iff (a := a)
    simpa [addrs] using this
  have hnd1 : (this :: addrs cells1).Nodup :=
    (List.nodup_cons.1 (hperm.nodup_iff.1 h.nodup)).2
  have hdnew : d ∉ this :: addrs cells1 := (List.nodup_cons.1 (hperm.nodup_iff.1 h.nodup)).1
  have hpd : p ≠ d := fun hpd => hdnew (by
    have : p ∈ addrs (xs ++ (p, pv) :: ys) := by simp [addrs]
    rw [← hx1] at this
    exact hpd ▸ this)
  refine ⟨⟨hp, hd, hpd⟩, ⟨⟨hv, ?_⟩, hnd1, ?_⟩, ⟨fun a ha _ => ⟨?_, ?_⟩, ?_⟩⟩
  · rw [hx1]
    exact (erase_chain hc0 hnd0).chain_setSize _ _
  · intro a ha
    exact h.bound a ((hmem a).2 (Or.inr ha))
  · have h1 : a ≠ p := fun hap => ha (by
      have : p ∈ addrs (xs ++ (p, pv) :: (d, dv) :: ys) := by simp [addrs]
      rw [← hx] at this
      exact hap ▸ this)
    have h2 : a ≠ d := fun had => ha ((hmem a).2 (Or.inl had))
    simp [unlinkMem, h1, h2]
  · have h1 : a ≠ this := fun hat => ha (by simp [hat])
    simp [unlinkMem, h1]
  · intro a ha
    have h1 : a ≠ this := fun hat => (List.nodup_cons.1 hnd1).1 (hat ▸ ha)
    rcases List.mem_cons.1 ((hmem a).2 (Or.inr (List.mem_cons_of_mem _ ha))) with hat | ha2
    · exact absurd hat h1
    · exact Or.inl ha2

/-- The member `InsertAfter` behind the node `p` of the list, when `operator new` returns `q`. -/
theorem InsertAfter_core (A : Allocator α) {m : Mem α} {this : Nat}
    {cells cells1 xs ys : List (Nat × α)} {hv pv : α} {p q : Nat} (v : α)
    (h : Linked m this cells) (hc : IsChain m ((this, hv) :: cells))
    (hx : (this, hv) :: cells = xs ++ (p, pv) :: ys)
    (hx1 : (this, hv) :: cells1 = xs ++ (p, pv) :: (q, v) :: ys)
    (hq : A.new m = some q) :
    ∃ m1, InsertAfter A m this ⟨some p⟩ v = .ok ⟨some q⟩ m1 ∧ Linked m1 this cells1 ∧
      m1.sizes this = (m.sizes this + 1) % SIZE_MOD ∧ Frame m m1 this cells cells1 := by
  obtain ⟨hp, hl, hf⟩ := linkMem_spec xs v h hc hx hx1 (A.new_fresh m q hq)
  refine ⟨_, ?_, hl, ?_, hf⟩
  · simp only [InsertAfter, hq, hp]
    rfl
  · simp [linkMem]

/-- The member `PushFront`, when `operator new` returns `q`. -/
theorem PushFront_core (A : Allocator α) {m : Mem α} {this : Nat} {cells : List (Nat × α)}
    {q : Nat} (v : α) (h : Linked m this cells) (hq : A.new m = some q) :
    ∃ m1, PushFront A m this v = .ok () m1 ∧ Linked m1 this ((q, v) :: cells) ∧
      m1.sizes this = (m.sizes this + 1) % SIZE_MOD ∧
      Frame m m1 this cells ((q, v) :: cells) := by
  obtain ⟨hv, hc⟩ := h.chain
  obtain ⟨hp, hl, hf⟩ := linkMem_spec [] v h hc rfl rfl (A.new_fresh m q hq)
  refine ⟨_, ?_, hl, ?_, hf⟩
  · simp only [PushFront, hq, hp]
    rfl
  · simp [linkMem]

/-- The member `EraseAfter` behind the node `p` of the list, when `p` has the successor `d`. -/
theorem EraseAfter_core {m : Mem α} {this : Nat} (dv : α)
    {cells cells1 xs ys : List (Nat × α)} {hv pv : α} {p d : Nat}
    (h : Linked m this cells) (hc : IsChain m ((this, hv) :: cells))
    (hx : (this, hv) :: cells = xs ++ (p, pv) :: (d, dv) :: ys)
    (hx1 : (this, hv) :: cells1 = xs ++ (p, pv) :: ys) :
    ∃ m1, EraseAfter m this ⟨some p⟩ = .ok (m1, ⟨headPtr ys⟩) ∧ Linked m1 this cells1 ∧
      m1.sizes this = (m.sizes this + SIZE_MOD - 1) % SIZE_MOD ∧ Frame m m1 this cells cells1 := by
  obtain ⟨⟨hp, hd, hpd⟩, hl, hf⟩ := unlinkMem_spec xs dv h hc hx hx1
  refine ⟨_, ?_, hl, ?_, hf⟩
  · simp only [EraseAfter, hp, hd]
    simp [hpd]
    rfl
  · simp [unlinkMem]

/-- The member `PopFront` on a list with a first cell. -/
theorem PopFront_core {m : Mem α} {this : Nat} {c : Nat × α} {cells : List (Nat × α)}
    (h : Linked m this (c :: cells)) :
    ∃ m1, PopFront m this = .ok m1 ∧ Linked m1 this cells ∧
      m1.sizes this = (m.sizes this + SIZE_MOD - 1) % SIZE_MOD ∧
      Frame m m1 this (c :: cells) cells := by
  obtain ⟨hv, hc⟩ := h.chain
  obtain ⟨⟨hp, hd, _⟩, hl, hf⟩ := unlinkMem_spec [] c.2 (d := c.1) h hc rfl rfl
  refine ⟨_, ?_, hl, ?_, hf⟩
  · simp only [PopFront, hp, hd]
    rfl
  · simp [unlinkMem]

/-- The member `PopFront` on a list without cells changes nothing. -/
theorem PopFront_nil {m : Mem α} {this : Nat} (h : Linked m this []) :
    PopFront m this = .ok m := by
  obtain ⟨hv, hc⟩ := h.chain
  simp only [PopFront, hc.1, headPtr]

/-- The member `EraseAfter` at the last node of the list changes nothing and returns `end()`. -/
theorem EraseAfter_last {m : Mem α} {this : Nat} {cells xs : List (Nat × α)} {hv pv : α}
    {p : Nat} (hc : IsChain m ((this, hv) :: cells)) (hx : (this, hv) :: cells = xs ++ [(p, pv)]) :
    EraseAfter m this ⟨some p⟩ = .ok (m, cend) := by
  have hc0 : IsChain m (xs ++ [(p, pv)]) := hx ▸ hc
  have hp : m.nodes p = some ⟨pv, none⟩ := (IsChain.suffix xs hc0).1
  simp only [EraseAfter, hp]

theorem Keep.refl (m : Mem α) (S : List Nat) : Keep m m S := fun _ _ _ => ⟨rfl, rfl⟩

/-- Two steps in a row: the second one may only touch what the first one was allowed to touch,
or storage that was not in use at the start. -/
theorem Keep.trans {m m1 m2 : Mem α} {S S1 : List Nat} (h1 : Keep m m1 S) (h2 : Keep m1 m2 S1)
    (hS : ∀ a ∈ S1, a ∈ S ∨ m.nodes a = none) : Keep m m2 S := by
  intro a ha hlive
  obtain ⟨e1, e2⟩ := h1 a ha hlive
  have ha1 : a ∉ S1 := fun h => by
    rcases hS a h with h | h
    · exact ha h
    · exact hlive h
  obtain ⟨e3, e4⟩ := h2 a ha1 (by rw [e1]; exact hlive)
  exact ⟨e3.trans e1, e4.trans e2⟩

theorem Keep.mono {m m1 : Mem α} {S S1 : List Nat} (h : Keep m m1 S) (hS : ∀ a ∈ S, a ∈ S1) :
    Keep m m1 S1 :=
  fun a ha hlive => h a (fun h1 => ha (hS a h1)) hlive

/-- A list whose footprint avoids the touched addresses is kept as it is. -/
theorem Linked.keep {m m1 : Mem α} {this : Nat} {cells : List (Nat × α)} {S : List Nat}
    (h : Linked m this cells) (hk : Keep m m1 S) (hS : ∀ a ∈ this :: addrs cells, a ∉ S) :
    Linked m1 this cells :=
  h.congr (fun a ha => (hk a (hS a ha) (h.live a ha)).1)

theorem Owns.keep_owns {m m1 : Mem α} {this : Nat} {cells : List (Nat × α)} {S : List Nat}
    (h : Owns m this cells) (hk : Keep m m1 S) (hS : ∀ a ∈ this :: addrs cells, a ∉ S) :
    Owns m1 this cells :=
  ⟨h.1.keep hk hS, by
    rw [(hk this (hS this (by simp)) (h.1.live this (by simp))).2]
    exact h.2⟩

theorem Frame.frame_trans {m m1 m2 : Mem α} {this : Nat} {c0 c1 c2 : List (Nat × α)}
    (h1 : Frame m m1 this c0 c1) (h2 : Frame m1 m2 this c1 c2) (hl : Linked m2 this c2)
    (hlive : m1.nodes this ≠ none) : Frame m m2 this c0 c2 where
  keep := h1.keep.trans h2.keep (fun a ha => by
    rcases List.mem_cons.1 ha with rfl | ha
    · exact Or.inl (by simp)
    · rcases h1.fresh a ha with h | h
      · exact Or.inl (List.mem_cons_of_mem _ h)
      · exact Or.inr h)
  fresh := fun a ha => by
    rcases h2.fresh a ha with h | h
    · exact h1.fresh a h
    · by_cases hc : a ∈ this :: addrs c0
      · rcases List.mem_cons.1 hc with rfl | hc
        · exact absurd ha (List.nodup_cons.1 hl.nodup).1
        · exact Or.inl hc
      · by_cases hm : m.nodes a = none
        · exact Or.inr hm
        · rw [(h1.keep a hc hm).1] at h
          exact absurd h hm

/-- Counting one more cell never wraps around: the cells are distinct 64-bit objects. -/
theorem size_succ_eq {m1 : Mem α} {this : Nat} {c : Nat × α} {cells : List (Nat × α)} {s : Nat}
    (h : Linked m1 this (c :: cells)) (hs : s = cells.length) :
    (s + 1) % SIZE_MOD = (c :: cells).length := by
  have := h.length_lt
  simp only [List.length_cons] at this ⊢
  rw [hs, Nat.mod_eq_of_lt this]

/-- Discounting one cell never wraps around. -/
theorem size_pred_eq {m : Mem α} {this : Nat} {c : Nat × α} {cells : List (Nat × α)} {s : Nat}
    (h : Linked m this (c :: cells)) (hs : s = (c :: cells).length) :
    (s + SIZE_MOD - 1) % SIZE_MOD = cells.length := by
  have := h.length_lt
  simp only [List.length_cons] at this hs
  rw [hs, show cells.length + 1 + SIZE_MOD - 1 = cells.length + SIZE_MOD by omega,
    Nat.add_mod_right, Nat.mod_eq_of_lt (by omega)]

theorem Keep.setNode (m : Mem α) (a : Nat) (n : Node α) : Keep m (m.setNode a n) [a] := by
  intro b hb _
  have : b ≠ a := fun h => hb (by simp [h])
  simp [this]

theorem Keep.delNode (m : Mem α) (a : Nat) : Keep m (m.delNode a) [a] := by
  intro b hb _
  have : b ≠ a := fun h => hb (by simp [h])
  simp [this]

theorem Keep.setSize (m : Mem α) (a s : Nat) : Keep m (m.setSize a s) [a] := by
  intro b hb _
  have : b ≠ a := fun h => hb (by simp [h])
  simp [this]

theorem Linked.nil_of {m : Mem α} {this : Nat} (hv : α) (h : m.nodes this = some ⟨hv, none⟩)
    (hb : this < SIZE_MOD) : Linked m this [] :=
  ⟨⟨hv, h, trivial⟩, by simp [addrs], by simpa [addrs] using hb⟩

/-- The default constructor makes an empty well-formed list and touches only its own storage. -/
theorem mk_default_spec [Inhabited α] (m : Mem α) {this : Nat} (hb : this < SIZE_MOD) :
    Owns (mk_default m this) this [] ∧ Keep m (mk_default m this) [this] := by
  refine ⟨⟨Linked.nil_of default (by simp [mk_default]) hb, by simp [mk_default]⟩, ?_⟩
  intro b hb _
  have : b ≠ this := fun h => hb (by simp [h])
  simp [mk_default, this]

/-- The member `Clear()` deletes every cell; on a well-formed list `size_` ends at `0`. -/
theorem Clear_spec {this : Nat} : ∀ (cells : List (Nat × α)) (fuel : Nat) (m : Mem α),
    Linked m this cells → cells.length ≤ fuel →
    ∃ m1, Clear fuel m this = .ok m1 ∧ Linked m1 this [] ∧ Frame m m1 this cells [] ∧
      (m.sizes this = cells.length → m1.sizes this = 0)
  | [], fuel, m, h, _ => by
    obtain ⟨hv, hc⟩ := h.chain
    refine ⟨m, ?_, h, ⟨Keep.refl _ _, fun a ha => Or.inl ha⟩, fun hs => by simpa using hs⟩
    unfold Clear
    simp only [hc.1, headPtr]
  | c :: cs, 0, m, _, hf => by simp at hf
  | c :: cs, f + 1, m, h, hf => by
    obtain ⟨hv, hc⟩ := h.chain
    obtain ⟨⟨hp, hd, _⟩, hl, hfr⟩ :=
      unlinkMem_spec [] c.2 (d := c.1) h hc rfl rfl
    obtain ⟨m1, he, hl1, hfr1, hs1⟩ := Clear_spec cs f _ hl (by simpa using hf)
    refine ⟨m1, ?_, hl1, hfr.frame_trans hfr1 hl1 (hl.live this (by simp)), fun hs => hs1 ?_⟩
    · rw [← he]
      conv_lhs => unfold Clear
      simp only [hp, hd]
      rfl
    · simp only [unlinkMem, setSize_sizes, if_true]
      exact size_pred_eq h hs

/-- The member `swap` of two distinct lists exchanges their chains and their sizes. -/
theorem swap_spec {m : Mem α} {a b : Nat} {ca cb : List (Nat × α)} (ha : Linked m a ca)
    (hb : Linked m b cb) (hd : ∀ x ∈ a :: addrs ca, x ∉ b :: addrs cb) :
    ∃ m1, swap m a b = .ok m1 ∧ Linked m1 a cb ∧ Linked m1 b ca ∧
      m1.sizes a = m.sizes b ∧ m1.sizes b = m.sizes a ∧ Keep m m1 [a, b] := by
  obtain ⟨va, hca⟩ := ha.chain
  obtain ⟨vb, hcb⟩ := hb.chain
  have hab : a ≠ b := fun h => hd a (by simp) (by simp [h])
  have hacb : ∀ x ∈ addrs cb, x ≠ a ∧ x ≠ b := fun x hx =>
    ⟨fun h => hd a (by simp) (by simp [← h, hx]),
     fun h => (List.nodup_cons.1 hb.nodup).1 (h ▸ hx)⟩
  have hbca : ∀ x ∈ addrs ca, x ≠ a ∧ x ≠ b := fun x hx =>
    ⟨fun h => (List.nodup_cons.1 ha.nodup).1 (h ▸ hx),
     fun h => hd x (by simp [hx]) (by simp [h])⟩
  refine ⟨(((m.setNode a ⟨va, headPtr cb⟩).setNode b ⟨vb, headPtr ca⟩).setSize a
    (m.sizes b)).setSize b (m.sizes a), ?_, ⟨⟨va, ?_, ?_⟩, ?_, ?_⟩, ⟨⟨vb, ?_, ?_⟩, ?_, ?_⟩,
    ?_, ?_, ?_⟩
  · simp only [swap, hab, ne_eq, not_false_eq_true, if_true, hca.1, hcb.1]
  · simp [hab]
  · exact hcb.2.chain_congr (fun x hx => by simp [(hacb x hx).1, (hacb x hx).2])
  · exact List.nodup_cons.2 ⟨fun h => (hacb a h).1 rfl, (List.nodup_cons.1 hb.nodup).2⟩
  · intro x hx
    rcases List.mem_cons.1 hx with rfl | hx
    · exact ha.bound _ (by simp)
    · exact hb.bound x (List.mem_cons_of_mem _ hx)
  · simp
  · exact hca.2.chain_congr (fun x hx => by simp [(hbca x hx).1, (hbca x hx).2])
  · exact List.nodup_cons.2 ⟨fun h => (hbca b h).2 rfl, (List.nodup_cons.1 ha.nodup).2⟩
  · intro x hx
    rcases List.mem_cons.1 hx with rfl | hx
    · exact hb.bound _ (by simp)
    · exact ha.bound x (List.mem_cons_of_mem _ hx)
  · simp [hab]
  · simp
  · intro x hx _
    have h1 : x ≠ a := fun h => hx (by simp [h])
    have h2 : x ≠ b := fun h => hx (by simp [h])
    simp [h1, h2]

/-- Swapping a list with itself changes nothing. -/
theorem swap_self (m : Mem α) (a : Nat) : swap m a a = .ok m := by
  simp [swap]

/-- The destructor deletes every cell and ends the life of the list object. -/
theorem dtor_spec (fuel : Nat) {m : Mem α} {this : Nat} {cells : List (Nat × α)}
    (h : Linked m this cells) (hf : cells.length ≤ fuel) :
    ∃ m1, dtor fuel m this = .ok m1 ∧ Keep m m1 (this :: addrs cells) := by
  obtain ⟨m0, he, _, hfr, _⟩ := Clear_spec cells fuel m h hf
  refine ⟨m0.delNode this, by simp only [dtor, he], ?_⟩
  exact hfr.keep.trans (Keep.delNode m0 this) (fun a ha => Or.inl (by
    simp only [List.mem_singleton] at ha
    simp [ha]))

/-- The member `PushFront` on a well-formed list, when `operator new` returns `q`. -/
theorem PushFront_owns (A : Allocator α) {m : Mem α} {this : Nat} {cells : List (Nat × α)}
    {q : Nat} (v : α) (h : Owns m this cells) (hq : A.new m = some q) :
    ∃ m1, PushFront A m this v = .ok () m1 ∧ Owns m1 this ((q, v) :: cells) ∧
      Frame m m1 this cells ((q, v) :: cells) := by
  obtain ⟨m1, he, hl, hs, hf⟩ := PushFront_core A v h.1 hq
  exact ⟨m1, he, ⟨hl, by rw [hs]; exact size_succ_eq hl h.2⟩, hf⟩

/-- The member `PushFront` when `operator new` fails: the exception leaves the memory as it was. -/
theorem PushFront_none (A : Allocator α) (m : Mem α) (this : Nat) (v : α)
    (hq : A.new m = none) : PushFront A m this v = .bad_alloc m := by
  simp only [PushFront, hq]

theorem Frame.frame_refl (m : Mem α) (this : Nat) (cells : List (Nat × α)) :
    Frame m m this cells cells :=
  ⟨Keep.refl _ _, fun _ ha => Or.inl ha⟩

/-- The loop of the initializer-list constructor pushes the values one by one; it ends normally
with all of them in front (last pushed first), or by `std::bad_alloc` with some of them. -/
theorem pushAll_spec (A : Allocator α) {temp : Nat} : ∀ (vs : List α) (m : Mem α)
    (cells : List (Nat × α)), Owns m temp cells →
    ∃ m1 news, (pushAll A temp vs m = .ok () m1 ∧ vals news = vs.reverse ∨
        pushAll A temp vs m = .bad_alloc m1 ∧ ∃ m0, A.new m0 = none) ∧ news.length ≤ vs.length ∧
      Owns m1 temp (news ++ cells) ∧ Frame m m1 temp cells (news ++ cells)
  | [], m, cells, h =>
    ⟨m, [], Or.inl ⟨rfl, rfl⟩, Nat.le_refl _, h, Frame.frame_refl _ _ _⟩
  | v :: vs, m, cells, h => by
    cases hq : A.new m with
    | none =>
      refine ⟨m, [], Or.inr ⟨?_, m, hq⟩, Nat.zero_le _, h, Frame.frame_refl _ _ _⟩
      simp only [pushAll, PushFront_none A m temp v hq]
    | some q =>
      obtain ⟨m1, he, ho, hf⟩ := PushFront_owns A v h hq
      obtain ⟨m2, news, hres, hlen, ho2, hf2⟩ := pushAll_spec A vs m1 ((q, v) :: cells) ho
      have hcat : (news ++ [(q, v)]) ++ cells = news ++ (q, v) :: cells := by simp
      refine ⟨m2, news ++ [(q, v)], ?_, by simpa using hlen, hcat ▸ ho2, ?_⟩
      · rcases hres with ⟨h1, h2⟩ | ⟨h1, hx⟩
        · exact Or.inl ⟨by simp only [pushAll, he, h1], by simp [vals] at h2 ⊢; exact h2⟩
        · exact Or.inr ⟨by simp only [pushAll, he, h1], hx⟩
      · rw [hcat]
        exact hf.frame_trans hf2 ho2.1 (ho.1.live temp (by simp))

/-- The range-for loop of the copy constructor over the chain `src` of another list. -/
theorem pushEach_spec (A : Allocator α) {dst : Nat} : ∀ (src : List (Nat × α)) (fuel : Nat)
    (m : Mem α) (cells : List (Nat × α)), IsChain m src → Owns m dst cells →
    (∀ a ∈ addrs src, a ∉ dst :: addrs cells) → src.length ≤ fuel →
    ∃ m1 news, (pushEach A dst fuel m ⟨headPtr src⟩ = .ok () m1 ∧ vals news = (vals src).reverse ∨
        pushEach A dst fuel m ⟨headPtr src⟩ = .bad_alloc m1 ∧ ∃ m0, A.new m0 = none) ∧
      news.length ≤ src.length ∧
      Owns m1 dst (news ++ cells) ∧ Frame m m1 dst cells (news ++ cells)
  | [], fuel, m, cells, _, h, _, _ => by
    refine ⟨m, [], Or.inl ⟨?_, rfl⟩, Nat.le_refl _, h, Frame.frame_refl _ _ _⟩
    unfold pushEach
    simp [headPtr, BasicIterator.eq, cend]
  | c :: cs, 0, m, cells, _, _, _, hf => by simp at hf
  | c :: cs, f + 1, m, cells, hc, h, hd, hf => by
    have hhd : headPtr (c :: cs) = some c.1 := rfl
    have hne : BasicIterator.eq ⟨some c.1⟩ cend = false := by simp [BasicIterator.eq, cend]
    have hderef : BasicIterator.deref m ⟨some c.1⟩ = .ok c.2 := by
      simp only [BasicIterator.deref, Mem.load, hc.1]
    cases hq : A.new m with
    | none =>
      refine ⟨m, [], Or.inr ⟨?_, m, hq⟩, Nat.zero_le _, h, Frame.frame_refl _ _ _⟩
      unfold pushEach
      simp only [hhd, hne, hderef, PushFront_none A m dst c.2 hq]
      rfl
    | some q =>
      obtain ⟨m1, he, ho, hfr⟩ := PushFront_owns A c.2 h hq
      have hkeep : ∀ a ∈ addrs (c :: cs), m1.nodes a = m.nodes a := fun a ha =>
        (hfr.keep a (hd a ha) (hc.cell_live a ha)).1
      have hincr : BasicIterator.incr m1 ⟨some c.1⟩ = .ok ⟨headPtr cs⟩ := by
        simp only [BasicIterator.incr, Mem.load, hkeep c.1 (by simp [addrs]), hc.1]
      have hc1 : IsChain m1 cs := hc.2.chain_congr (fun a ha => hkeep a (by
        simp only [addrs, List.map_cons, List.mem_cons]; exact Or.inr ha))
      have hq0 := (A.new_fresh m q hq).1
      have hd1 : ∀ a ∈ addrs cs, a ∉ dst :: addrs ((q, c.2) :: cells) := by
        intro a ha hmem
        have ha1 : a ∈ addrs (c :: cs) := by
          simp only [addrs, List.map_cons, List.mem_cons]; exact Or.inr ha
        simp only [addrs, List.map_cons, List.mem_cons] at hmem
        rcases hmem with h1 | h1 | h1
        · exact hd a ha1 (by simp [h1])
        · exact hc.cell_live a ha1 (h1 ▸ hq0)
        · exact hd a ha1 (by simp [addrs, h1])
      obtain ⟨m2, news, hres, hlen, ho2, hf2⟩ :=
        pushEach_spec A cs f m1 ((q, c.2) :: cells) hc1 ho hd1 (by simpa using hf)
      have hcat : (news ++ [(q, c.2)]) ++ cells = news ++ (q, c.2) :: cells := by simp
      have hstep : pushEach A dst (f + 1) m ⟨headPtr (c :: cs)⟩ =
          pushEach A dst f m1 ⟨headPtr cs⟩ := by
        conv_lhs => unfold pushEach
        simp only [hhd, hne, hderef, he, hincr]
        rfl
      refine ⟨m2, news ++ [(q, c.2)], ?_, by simpa using hlen, hcat ▸ ho2, ?_⟩
      · rw [hstep]
        rcases hres with ⟨h1, h2⟩ | h1
        · exact Or.inl ⟨h1, by simp [vals] at h2 ⊢; exact h2⟩
        · exact Or.inr h1
      · rw [hcat]
        exact hfr.frame_trans hf2 ho2.1 (ho.1.live dst (by simp))

theorem Keep.shrink {m m1 : Mem α} {S S1 : List Nat} (h : Keep m m1 S)
    (hS : ∀ a ∈ S, a ∈ S1 ∨ m.nodes a = none) : Keep m m1 S1 :=
  (Keep.refl m S1).trans h hS

/-- Storage that is unused after a step was unused before it, unless the step may free it. -/
theorem Keep.dead {m m1 : Mem α} {S : List Nat} (h : Keep m m1 S) {a : Nat} (ha : a ∉ S)
    (hd : m1.nodes a = none) : m.nodes a = none := by
  by_contra hl
  exact hl ((h a ha hl).1 ▸ hd)

theorem dtors_nil (fuel : Nat) (m : Mem α) : dtors fuel m [] = .ok m := rfl

theorem dtors_cons {fuel : Nat} {m m1 : Mem α} {t : Nat} (ts : List Nat)
    (h : dtor fuel m t = .ok m1) : dtors fuel m (t :: ts) = dtors fuel m1 ts := by
  simp only [dtors, h]

/-- The initializer-list constructor: it completes with a well-formed list holding `values` in
order, or throws `std::bad_alloc`, or finds no storage for its local; other objects are kept. -/
theorem mk_from_values_spec [Inhabited α] (A : Allocator α) (fuel : Nat) (m : Mem α)
    (this : Nat) (values : List α) (hb : this < SIZE_MOD) (hf : values.length ≤ fuel) :
    (∃ m1 cells, mk_from_values A fuel m this values = .ok () m1 ∧ Owns m1 this cells ∧
        vals cells = values ∧ Frame m m1 this [] cells) ∨
    (∃ m1, mk_from_values A fuel m this values = .bad_alloc m1 ∧ Keep m m1 [this] ∧
        ∃ m0, A.new m0 = none) ∨
    (mk_from_values A fuel m this values = .fault .stack_exhausted ∧
        ∃ m0, A.auto m0 = none) := by
  have hk0 : Keep m (m.setNode this ⟨default, none⟩) [this] := Keep.setNode _ _ _
  have hl0 : Linked (m.setNode this ⟨default, none⟩) this [] :=
    Linked.nil_of default (by simp) hb
  cases hauto : A.auto (m.setNode this ⟨default, none⟩) with
  | none =>
    right; right
    exact ⟨by simp only [mk_from_values, hauto], _, hauto⟩
  | some temp =>
    obtain ⟨htd, htb⟩ := A.auto_fresh _ _ hauto
    have htt : temp ≠ this := fun h => hl0.live this (by simp) (h ▸ htd)
    obtain ⟨ho1, hk1⟩ := mk_default_spec (m.setNode this ⟨default, none⟩) htb
    have hl1 : Linked (mk_default (m.setNode this ⟨default, none⟩) temp) this [] :=
      hl0.keep hk1 (by simp [addrs, htt.symm])
    obtain ⟨m2, news, hres, hlen, ho2, hf2⟩ := pushAll_spec A values.reverse _ [] ho1
    simp only [List.append_nil] at ho2 hf2
    have hl2 : Linked m2 this [] := hl1.keep hf2.keep (by simp [addrs, htt.symm])
    have hdead1 : ∀ a ∈ addrs news,
        (mk_default (m.setNode this ⟨default, none⟩) temp).nodes a = none := fun a ha => by
      rcases hf2.fresh a ha with h | h
      · simp [addrs] at h
      · exact h
    have hnew : ∀ a ∈ temp :: addrs news, a ≠ this ∧ m.nodes a = none := by
      intro a ha
      rcases List.mem_cons.1 ha with rfl | ha
      · exact ⟨htt, by simpa [htt] using htd⟩
      · have h1 := hdead1 a ha
        have h2 : a ≠ this := fun h => hl1.live this (by simp) (h ▸ h1)
        have h3 := hk1.dead (a := a) (fun h => by
          simp only [List.mem_singleton] at h
          have := ho1.1.live temp (by simp)
          exact this (h ▸ h1)) h1
        exact ⟨h2, by simpa [h2] using h3⟩
    have hk2 : Keep m m2 [this] :=
      (hk0.trans hk1 (fun a ha => Or.inr (hnew a (by
        simp only [List.mem_singleton] at ha; simp [ha])).2)).trans hf2.keep
        (fun a ha => Or.inr (hnew a (by
          simp only [addrs, List.map_nil, List.mem_singleton] at ha; simp [ha])).2)
    rcases hres with ⟨hpush, hvals⟩ | ⟨hpush, hx⟩
    · -- all values pushed: adopt the temporary, destroy it
      obtain ⟨m3, hsw, hl3, hlt3, hs3, _, hk3⟩ := swap_spec hl2 ho2.1 (by
        intro x hx hx2
        simp only [addrs, List.map_nil, List.mem_singleton] at hx
        exact (hnew x hx2).1 hx)
      obtain ⟨m4, hdt, hk4⟩ := dtor_spec fuel hlt3 (Nat.zero_le _)
      have hav : ∀ a ∈ this :: addrs news, a ∉ temp :: addrs ([] : List (Nat × α)) := by
        intro a ha h
        simp only [addrs, List.map_nil, List.mem_singleton] at h
        rcases List.mem_cons.1 ha with h1 | h1
        · exact htt (h.symm.trans h1)
        · exact (List.nodup_cons.1 ho2.1.nodup).1 (h ▸ h1)
      left
      refine ⟨m4, news, ?_, ⟨hl3.keep hk4 hav, ?_⟩, ?_, ⟨?_, ?_⟩⟩
      · simp only [mk_from_values, hauto, hpush, hsw, leave, dtors_cons [] hdt, dtors_nil]
      · rw [(hk4 this (hav this (by simp)) (hl3.live this (by simp))).2, hs3]
        exact ho2.2
      · simpa using hvals
      · refine (hk2.trans hk3 ?_).trans hk4 ?_
        · intro a ha
          simp only [List.mem_cons, List.mem_singleton, List.not_mem_nil, or_false] at ha
          rcases ha with rfl | rfl
          · exact Or.inl (by simp)
          · exact Or.inr (hnew _ (by simp)).2
        · intro a ha
          simp only [addrs, List.map_nil, List.mem_singleton] at ha
          exact Or.inr (hnew a (by simp [ha])).2
      · intro a ha
        exact Or.inr (hnew a (List.mem_cons_of_mem _ ha)).2
    · -- `std::bad_alloc`: the temporary is destroyed, the object never lives
      obtain ⟨m3, hdt, hk3⟩ := dtor_spec fuel ho2.1
        (le_trans hlen (by simpa using hf))
      right; left
      refine ⟨m3.delNode this, ?_, ?_, hx⟩
      · simp only [mk_from_values, hauto, hpush, unwind, dtors_cons [] hdt, dtors_nil]
      · refine (hk2.trans hk3 (fun a ha => Or.inr (hnew a ha).2)).trans (Keep.delNode _ _) ?_
        intro a ha
        exact Or.inl ha

theorem advance_chain {m : Mem α} : ∀ (j : Nat) (ext : List (Nat × α)), IsChain m ext →
    j ≤ ext.length → advance m j ⟨headPtr ext⟩ = .ok ⟨headPtr (ext.drop j)⟩
  | 0, _, _, _ => rfl
  | j + 1, [], _, hj => by simp at hj
  | j + 1, c :: cs, h, hj => by
    have ih := advance_chain j cs h.2 (by simpa using hj)
    have hhd : headPtr (c :: cs) = some c.1 := rfl
    simp only [advance, BasicIterator.incr, Mem.load, hhd, h.1, ih, List.drop_succ_cons]

/-- The position `j` steps behind `before_begin()` references the `j`-th node of the sentinel
followed by the cells. -/
theorem Linked.posAt_eq {m : Mem α} {this : Nat} {cells : List (Nat × α)} {hv : α}
    (hc : IsChain m ((this, hv) :: cells)) {j : Nat} (hj : j ≤ cells.length + 1) :
    posAt m this j = .ok ⟨headPtr (((this, hv) :: cells).drop j)⟩ :=
  advance_chain j ((this, hv) :: cells) hc (by simpa using hj)

/-- Cutting a nonempty list behind its `j`-th entry. -/
theorem split_behind : ∀ (j : Nat) (c0 : Nat × α) (cells : List (Nat × α)), j ≤ cells.length →
    ∃ xs p, c0 :: cells = xs ++ p :: cells.drop j ∧ (c0 :: cells).drop j = p :: cells.drop j ∧
      c0 :: cells.take j = xs ++ [p]
  | 0, c0, cells, _ => ⟨[], c0, rfl, rfl, rfl⟩
  | j + 1, c0, [], hj => by simp at hj
  | j + 1, c0, c1 :: cells, hj => by
    obtain ⟨xs, p, h1, h2, h3⟩ := split_behind j c1 cells (by simpa using hj)
    refine ⟨c0 :: xs, p, ?_, ?_, ?_⟩
    · simp only [List.drop_succ_cons, List.cons_append]
      rw [← h1]
    · simpa only [List.drop_succ_cons] using h2
    · simp only [List.take_succ_cons, List.cons_append]
      rw [← h3]

theorem vals_append (xs ys : List (Nat × α)) : vals (xs ++ ys) = vals xs ++ vals ys := by
  simp [vals]

theorem vals_take (j : Nat) (xs : List (Nat × α)) : vals (xs.take j) = (vals xs).take j := by
  simp [vals, List.map_take]

theorem vals_drop (j : Nat) (xs : List (Nat × α)) : vals (xs.drop j) = (vals xs).drop j := by
  simp [vals, List.map_drop]

theorem Owns_mem123 : Owns mem123 0 cells123 :=
  ⟨⟨⟨0, by simp [IsChain, mem123, cells123, headPtr]⟩, by decide,
    by simp [addrs, cells123, SIZE_MOD]⟩, rfl⟩

theorem IsChain.node_of_mem {m : Mem α} : ∀ {cells : List (Nat × α)}, IsChain m cells →
    ∀ c ∈ cells, ∃ nx, m.nodes c.1 = some ⟨c.2, nx⟩
  | [], _, c, hc => by simp at hc
  | d :: ds, h, c, hc => by
    rcases List.mem_cons.1 hc with rfl | hc
    · exact ⟨_, h.1⟩
    · exact IsChain.node_of_mem h.2 c hc

theorem getElem?_addrs_of_drop {ext ys : List (Nat × α)} {j : Nat} {c : Nat × α}
    (h : ext.drop j = c :: ys) : (addrs ext)[j]? = some c.1 := by
  have h1 : (ext.drop j).head? = ext[j]? := List.head?_drop ext j
  rw [h] at h1
  simp only [List.head?_cons] at h1
  simp [addrs, ← h1]

/-- A local list is default-constructed at `t` and filled by the range-for loop over the list
`src`: it ends up well formed with the values of `src` reversed (or a part of them, at
`std::bad_alloc`), everything live before is kept, and all it occupies is new storage. -/
theorem temp_copy [Inhabited α] (A : Allocator α) {m : Mem α} {src t fuel : Nat}
    {cells : List (Nat × α)} (hs : Linked m src cells) (hf : cells.length ≤ fuel)
    (ht : A.auto m = some t) :
    begin (mk_default m t) src = .ok ⟨headPtr cells⟩ ∧
    ∃ m2 news, (pushEach A t fuel (mk_default m t) ⟨headPtr cells⟩ = .ok () m2 ∧
          vals news = (vals cells).reverse ∨
        pushEach A t fuel (mk_default m t) ⟨headPtr cells⟩ = .bad_alloc m2 ∧
          ∃ m0, A.new m0 = none) ∧
      news.length ≤ cells.length ∧ Owns m2 t news ∧ Keep m m2 [] ∧
      ∀ a ∈ t :: addrs news, m.nodes a = none := by
  obtain ⟨htd, htb⟩ := A.auto_fresh m t ht
  obtain ⟨ho1, hk1⟩ := mk_default_spec m htb
  have hts : ∀ a ∈ src :: addrs cells, a ∉ [t] := fun a ha h => by
    simp only [List.mem_singleton] at h
    exact hs.live a ha (h ▸ htd)
  have hs1 : Linked (mk_default m t) src cells := hs.keep hk1 hts
  obtain ⟨hv, hc1⟩ := hs1.chain
  obtain ⟨m2, news, hres, hlen, ho2, hf2⟩ := pushEach_spec A cells fuel _ [] hc1.2 ho1
    (fun a ha h => by
      simp only [addrs, List.map_nil, List.mem_singleton] at h
      exact hts a (List.mem_cons_of_mem _ ha) (by simp [h])) hf
  simp only [List.append_nil] at ho2 hf2
  have hdead : ∀ a ∈ t :: addrs news, m.nodes a = none := by
    intro a ha
    rcases List.mem_cons.1 ha with rfl | ha
    · exact htd
    · rcases hf2.fresh a ha with h | h
      · simp [addrs] at h
      · have hat : a ≠ t := fun e => ho1.1.live t (by simp) (e ▸ h)
        exact hk1.dead (by simpa using hat) h
  refine ⟨hs1.begin_eq, m2, news, hres, hlen, ho2, ?_, hdead⟩
  refine (hk1.trans hf2.keep (fun a ha => Or.inl (by simpa [addrs] using ha))).shrink ?_
  intro a ha
  exact Or.inr (hdead a (by simp only [List.mem_singleton] at ha; simp [ha]))

/-- The copy constructor: it completes with a well-formed list holding the values of `other` in
order, in new nodes, or throws `std::bad_alloc`, or finds no storage for a local; every object
that was live before (the source list included) is kept as it was. -/
theorem mk_copy_spec [Inhabited α] (A : Allocator α) (fuel : Nat) {m : Mem α} {this other : Nat}
    {cells : List (Nat × α)} (ho : Linked m other cells) (hthis : this ∉ other :: addrs cells)
    (hb : this < SIZE_MOD) (hf : cells.length ≤ fuel) :
    (∃ m1 cs, mk_copy A fuel m this other = .ok () m1 ∧ Owns m1 this cs ∧
        vals cs = vals cells ∧ Frame m m1 this [] cs) ∨
    (∃ m1, mk_copy A fuel m this other = .bad_alloc m1 ∧ Keep m m1 [this] ∧
        ∃ m0, A.new m0 = none) ∨
    (mk_copy A fuel m this other = .fault .stack_exhausted ∧ ∃ m0, A.auto m0 = none) := by
  have hk0 : Keep m (m.setNode this ⟨default, none⟩) [this] := Keep.setNode _ _ _
  have hl0 : Linked (m.setNode this ⟨default, none⟩) this [] :=
    Linked.nil_of default (by simp) hb
  have ho0 : Linked (m.setNode this ⟨default, none⟩) other cells :=
    ho.keep hk0 (fun a ha h => by
      simp only [List.mem_singleton] at h
      exact hthis (h ▸ ha))
  have hnew0 : ∀ a, (m.setNode this ⟨default, none⟩).nodes a = none →
      a ≠ this ∧ m.nodes a = none := fun a h => by
    have h1 : a ≠ this := fun e => hl0.live this (by simp) (e ▸ h)
    exact ⟨h1, by simpa [h1] using h⟩
  cases hauto1 : A.auto (m.setNode this ⟨default, none⟩) with
  | none =>
    right; right
    exact ⟨by simp only [mk_copy, hauto1], _, hauto1⟩
  | some t1 =>
    obtain ⟨hbegin1, m2, news1, hres1, hlen1, hot1, hk2, hdead1⟩ := temp_copy A ho0 hf hauto1
    have hN1 : ∀ a ∈ t1 :: addrs news1, a ≠ this ∧ m.nodes a = none :=
      fun a ha => hnew0 a (hdead1 a ha)
    have hl2 : Linked m2 this [] := hl0.keep hk2 (by simp)
    have hk02 : Keep m m2 [this] := hk0.trans hk2 (by simp)
    rcases hres1 with ⟨hpush1, hvals1⟩ | ⟨hpush1, hx1⟩
    · cases hauto2 : A.auto m2 with
      | none =>
        right; right
        exact ⟨by simp only [mk_copy, hauto1, hbegin1, hpush1, hauto2], _, hauto2⟩
      | some t2 =>
        obtain ⟨hbegin2, m4, news2, hres2, hlen2, hot2, hk4, hdead2⟩ :=
          temp_copy A hot1.1 (le_trans hlen1 hf) hauto2
        have hN2 : ∀ a ∈ t2 :: addrs news2, a ≠ this ∧ m.nodes a = none :=
          fun a ha => hnew0 a (hk2.dead (by simp) (hdead2 a ha))
        have hX : ∀ a ∈ t1 :: addrs news1, a ∉ t2 :: addrs news2 :=
          fun a ha h => hot1.1.live a ha (hdead2 a h)
        have hl4 : Linked m4 this [] := hl2.keep hk4 (by simp)
        have ht14 : Linked m4 t1 news1 := hot1.1.keep hk4 (by simp)
        have hk04 : Keep m m4 [this] := hk02.trans hk4 (by simp)
        rcases hres2 with ⟨hpush2, hvals2⟩ | ⟨hpush2, hx2⟩
        · obtain ⟨m5, hsw, hl5, hlt5, hs5, _, hk5⟩ := swap_spec hl4 hot2.1 (by
            intro x hx hx2
            simp only [addrs, List.map_nil, List.mem_singleton] at hx
            exact (hN2 x hx2).1 hx)
          have ht15 : Linked m5 t1 news1 := ht14.keep hk5 (by
            intro a ha h
            simp only [List.mem_cons, List.mem_singleton, List.not_mem_nil, or_false] at h
            rcases h with h | h
            · exact (hN1 a ha).1 h
            · exact hX a ha (by simp [h]))
          obtain ⟨m6, hdt2, hk6⟩ := dtor_spec fuel hlt5 (Nat.zero_le _)
          simp only [addrs, List.map_nil] at hk6
          have ht16 : Linked m6 t1 news1 := ht15.keep hk6 (by
            intro a ha h
            simp only [List.mem_singleton] at h
            exact hX a ha (by simp [h]))
          obtain ⟨m7, hdt1, hk7⟩ := dtor_spec fuel ht16 (le_trans hlen1 hf)
          have hav6 : ∀ a ∈ this :: addrs news2, a ∉ [t2] := by
            intro a ha h
            simp only [List.mem_singleton] at h
            rcases List.mem_cons.1 ha with h1 | h1
            · exact (hN2 t2 (by simp)).1 (h.symm.trans h1)
            · exact (List.nodup_cons.1 hot2.1.nodup).1 (h ▸ h1)
          have hav7 : ∀ a ∈ this :: addrs news2, a ∉ t1 :: addrs news1 := by
            intro a ha h
            rcases List.mem_cons.1 ha with h1 | h1
            · exact (hN1 a h).1 h1
            · exact hX a h (List.mem_cons_of_mem _ h1)
          have hl6 : Linked m6 this news2 := hl5.keep hk6 hav6
          have hl7 : Linked m7 this news2 := hl6.keep hk7 hav7
          left
          refine ⟨m7, news2, ?_, ⟨hl7, ?_⟩, ?_, ⟨?_, ?_⟩⟩
          · simp only [mk_copy, hauto1, hbegin1, hpush1, hauto2, hbegin2, hpush2, hsw, leave,
              dtors_cons _ hdt2, dtors_cons _ hdt1, dtors_nil]
          · rw [(hk7 this (hav7 this (by simp)) (hl6.live this (by simp))).2,
              (hk6 this (hav6 this (by simp)) (hl5.live this (by simp))).2, hs5]
            exact hot2.2
          · rw [hvals2, hvals1, List.reverse_reverse]
          · refine ((hk04.trans hk5 ?_).trans hk6 ?_).trans hk7 ?_
            · intro a ha
              simp only [List.mem_cons, List.mem_singleton, List.not_mem_nil, or_false] at ha
              rcases ha with rfl | rfl
              · exact Or.inl (by simp)
              · exact Or.inr (hN2 _ (by simp)).2
            · intro a ha
              simp only [List.mem_singleton] at ha
              exact Or.inr (hN2 a (by simp [ha])).2
            · intro a ha
              exact Or.inr (hN1 a ha).2
          · intro a ha
            exact Or.inr (hN2 a (List.mem_cons_of_mem _ ha)).2
        · obtain ⟨m5, hdt2, hk5⟩ := dtor_spec fuel hot2.1
            (le_trans hlen2 (le_trans hlen1 hf))
          have ht15 : Linked m5 t1 news1 := ht14.keep hk5 hX
          obtain ⟨m6, hdt1, hk6⟩ := dtor_spec fuel ht15 (le_trans hlen1 hf)
          right; left
          refine ⟨m6.delNode this, ?_, ?_, hx2⟩
          · simp only [mk_copy, hauto1, hbegin1, hpush1, hauto2, hbegin2, hpush2, unwind,
              dtors_cons _ hdt2, dtors_cons _ hdt1, dtors_nil]
          · refine ((hk04.trans hk5 ?_).trans hk6 ?_).trans (Keep.delNode _ _) ?_
            · intro a ha
              exact Or.inr (hN2 a ha).2
            · intro a ha
              exact Or.inr (hN1 a ha).2
            · intro a ha
              exact Or.inl ha
    · obtain ⟨m3, hdt1, hk3⟩ := dtor_spec fuel hot1.1 (le_trans hlen1 hf)
      right; left
      refine ⟨m3.delNode this, ?_, ?_, hx1⟩
      · simp only [mk_copy, hauto1, hbegin1, hpush1, unwind, dtors_cons _ hdt1, dtors_nil]
      · refine (hk02.trans hk3 ?_).trans (Keep.delNode _ _) ?_
        · intro a ha
          exact Or.inr (hN1 a ha).2
        · intro a ha
          exact Or.inl ha

/-- The copy assignment between two distinct lists: it completes with the target well formed and
holding the values of `rhs` in order, in new nodes, or throws `std::bad_alloc` with every live
object (the target included) kept as it was, or finds no storage for a local. -/
theorem assign_spec [Inhabited α] (A : Allocator α) (fuel : Nat) {m : Mem α} {this rhs : Nat}
    {tcells rcells : List (Nat × α)} (ht : Linked m this tcells) (hr : Linked m rhs rcells)
    (hd : ∀ x ∈ this :: addrs tcells, x ∉ rhs :: addrs rcells)
    (hf1 : tcells.length ≤ fuel) (hf2 : rcells.length ≤ fuel) :
    (∃ m1 cs, assign A fuel m this rhs = .ok () m1 ∧ Owns m1 this cs ∧
        vals cs = vals rcells ∧ Frame m m1 this tcells cs) ∨
    (∃ m1, assign A fuel m this rhs = .bad_alloc m1 ∧ Keep m m1 [] ∧ ∃ m0, A.new m0 = none) ∨
    (assign A fuel m this rhs = .fault .stack_exhausted ∧ ∃ m0, A.auto m0 = none) := by
  have hne : this ≠ rhs := fun h => hd this (by simp) (by simp [h])
  cases hauto : A.auto m with
  | none =>
    right; right
    exact ⟨by simp only [assign, hne, ne_eq, not_false_eq_true, if_true, hauto], _, hauto⟩
  | some temp =>
    obtain ⟨htd, htb⟩ := A.auto_fresh m temp hauto
    have htr : temp ∉ rhs :: addrs rcells := fun h => hr.live temp h htd
    rcases mk_copy_spec A fuel hr htr htb hf2 with
      ⟨m1, cs, he, ho, hv, hfr⟩ | ⟨m1, he, hk, hx⟩ | ⟨he, hx⟩
    · have hcsdead : ∀ a ∈ temp :: addrs cs, m.nodes a = none := by
        intro a ha
        rcases List.mem_cons.1 ha with rfl | ha
        · exact htd
        · rcases hfr.fresh a ha with h | h
          · simp [addrs] at h
          · exact h
      have hdis : ∀ x ∈ this :: addrs tcells, x ∉ temp :: addrs cs :=
        fun x hx h => ht.live x hx (hcsdead x h)
      have ht1 : Linked m1 this tcells := ht.keep hfr.keep (fun a ha h => by
        simp only [addrs, List.map_nil] at h
        exact hdis a ha (List.mem_cons.2 (Or.inl (List.mem_singleton.1 h))))
      obtain ⟨m2, hsw, hl2, hlt2, hs2, _, hk2⟩ := swap_spec ht1 ho.1 hdis
      obtain ⟨m3, hdt, hk3⟩ := dtor_spec fuel hlt2 hf1
      have hav : ∀ a ∈ this :: addrs cs, a ∉ temp :: addrs tcells := by
        intro a ha h
        rcases List.mem_cons.1 ha with h1 | h1
        · rcases List.mem_cons.1 h with h2 | h2
          · exact hdis this (by simp) (by simp [← h2, h1])
          · exact (List.nodup_cons.1 ht.nodup).1 (h1 ▸ h2)
        · rcases List.mem_cons.1 h with h2 | h2
          · exact (List.nodup_cons.1 ho.1.nodup).1 (h2 ▸ h1)
          · exact hdis a (List.mem_cons_of_mem _ h2) (List.mem_cons_of_mem _ h1)
      left
      refine ⟨m3, cs, ?_, ⟨hl2.keep hk3 hav, ?_⟩, hv, ⟨?_, ?_⟩⟩
      · simp only [assign, hne, ne_eq, not_false_eq_true, if_true, hauto, he, hsw, leave,
          dtors_cons _ hdt, dtors_nil]
      · rw [(hk3 this (hav this (by simp)) (hl2.live this (by simp))).2, hs2]
        exact ho.2
      · refine ((hfr.keep.shrink ?_).trans hk2 ?_).trans hk3 ?_
        · intro a ha
          simp only [addrs, List.map_nil, List.mem_singleton] at ha
          exact Or.inr (ha ▸ htd)
        · intro a ha
          simp only [List.mem_cons, List.mem_singleton, List.not_mem_nil, or_false] at ha
          rcases ha with rfl | rfl
          · exact Or.inl (by simp)
          · exact Or.inr htd
        · intro a ha
          rcases List.mem_cons.1 ha with rfl | ha
          · exact Or.inr htd
          · exact Or.inl (List.mem_cons_of_mem _ ha)
      · intro a ha
        exact Or.inr (hcsdead a (List.mem_cons_of_mem _ ha))
    · right; left
      refine ⟨m1, ?_, hk.shrink ?_, hx⟩
      · simp only [assign, hne, ne_eq, not_false_eq_true, if_true, hauto, he]
      · intro a ha
        simp only [List.mem_singleton] at ha
        exact Or.inr (ha ▸ htd)
    · right; right
      exact ⟨by simp only [assign, hne, ne_eq, not_false_eq_true, if_true, hauto, he], hx⟩

/-- Assigning a list to itself changes nothing. -/
theorem assign_self [Inhabited α] (A : Allocator α) (fuel : Nat) (m : Mem α) (this : Nat) :
    assign A fuel m this this = .ok () m := by
  simp [assign]

theorem equal_chain [BEq α] {m : Mem α} : ∀ (c1 c2 : List (Nat × α)) (fuel : Nat),
    IsChain m c1 → IsChain m c2 → c1.length = c2.length → c1.length ≤ fuel →
    equal m fuel ⟨headPtr c1⟩ cend ⟨headPtr c2⟩ = .ok (seqEq (vals c1) (vals c2))
  | [], c2, fuel, _, _, _, _ => by
    unfold equal
    simp [headPtr, BasicIterator.eq, cend, vals, seqEq]
  | _ :: _, [], _, _, _, hl, _ => by simp at hl
  | _ :: _, _ :: _, 0, _, _, _, hf => by simp at hf
  | x :: xs, y :: ys, f + 1, h1, h2, hl, hf => by
    have ih := equal_chain xs ys f h1.2 h2.2 (by simpa using hl) (by simpa using hf)
    have hx : headPtr (x :: xs) = some x.1 := rfl
    have hy : headPtr (y :: ys) = some y.1 := rfl
    have hne : BasicIterator.eq ⟨some x.1⟩ cend = false := by simp [BasicIterator.eq, cend]
    unfold equal
    simp only [hx, hy, hne, BasicIterator.deref, BasicIterator.incr, Mem.load, h1.1, h2.1, ih]
    cases hxy : x.2 == y.2 <;> simp [vals, seqEq, hxy]

theorem seqEq_iff [BEq α] : ∀ (xs ys : List α), xs.length = ys.length →
    (seqEq xs ys = true ↔
      ∀ i, i < xs.length → ∃ x y, xs[i]? = some x ∧ ys[i]? = some y ∧ (x == y) = true)
  | [], [], _ => by simp [seqEq]
  | [], _ :: _, hl => by simp at hl
  | _ :: _, [], hl => by simp at hl
  | x :: xs, y :: ys, hl => by
    have ih := seqEq_iff xs ys (by simpa using hl)
    simp only [seqEq, Bool.and_eq_true, ih, List.length_cons]
    constructor
    · rintro ⟨hxy, hrest⟩ i hi
      cases i with
      | zero => exact ⟨x, y, by simp, by simp, hxy⟩
      | succ i =>
        obtain ⟨a, b, ha, hb, hab⟩ := hrest i (by omega)
        exact ⟨a, b, by simpa using ha, by simpa using hb, hab⟩
    · intro h
      refine ⟨?_, fun i hi => ?_⟩
      · obtain ⟨a, b, ha, hb, hab⟩ := h 0 (by omega)
        simp only [List.getElem?_cons_zero, Option.some.injEq] at ha hb
        rw [ha, hb]
        exact hab
      · obtain ⟨a, b, ha, hb, hab⟩ := h (i + 1) (by omega)
        exact ⟨a, b, by simpa using ha, by simpa using hb, hab⟩

theorem lex_chain (lt : α → α → Bool) {m : Mem α} : ∀ (c1 c2 : List (Nat × α)) (fuel : Nat),
    IsChain m c1 → IsChain m c2 → c1.length ≤ fuel →
    lexicographical_compare lt m fuel ⟨headPtr c1⟩ cend ⟨headPtr c2⟩ cend =
      .ok (lexRef lt (vals c1) (vals c2))
  | [], [], fuel, _, _, _ => by
    unfold lexicographical_compare
    simp [headPtr, BasicIterator.eq, cend, vals, lexRef]
  | [], _ :: _, fuel, _, _, _ => by
    unfold lexicographical_compare
    simp [headPtr, BasicIterator.eq, cend, vals, lexRef]
  | _ :: _, [], fuel, _, _, _ => by
    unfold lexicographical_compare
    simp [headPtr, BasicIterator.eq, cend, vals, lexRef]
  | _ :: _, _ :: _, 0, _, _, hf => by simp at hf
  | x :: xs, y :: ys, f + 1, h1, h2, hf => by
    have ih := lex_chain lt xs ys f h1.2 h2.2 (by simpa using hf)
    have hx : headPtr (x :: xs) = some x.1 := rfl
    have hy : headPtr (y :: ys) = some y.1 := rfl
    have hne1 : BasicIterator.eq ⟨some x.1⟩ cend = false := by simp [BasicIterator.eq, cend]
    have hne2 : BasicIterator.eq ⟨some y.1⟩ cend = false := by simp [BasicIterator.eq, cend]
    unfold lexicographical_compare
    simp only [hx, hy, hne1, hne2, BasicIterator.deref, BasicIterator.incr, Mem.load, h1.1,
      h2.1, ih]
    cases hxy : lt x.2 y.2 <;> cases hyx : lt y.2 x.2 <;> simp [vals, lexRef, hxy, hyx]

theorem DifferAt_zero (lt : α → α → Bool) (x y : α) (xs ys : List α) :
    DifferAt lt (x :: xs) (y :: ys) 0 ↔ (lt x y = true ∨ lt y x = true) := by
  simp [DifferAt]

theorem DifferAt_succ (lt : α → α → Bool) (x y : α) (xs ys : List α) (i : Nat) :
    DifferAt lt (x :: xs) (y :: ys) (i + 1) ↔ DifferAt lt xs ys i := by
  simp [DifferAt]

theorem LexLess_cons (lt : α → α → Bool) (x y : α) (xs ys : List α) :
    LexLess lt (x :: xs) (y :: ys) ↔
      lt x y = true ∨ (lt x y = false ∧ lt y x = false ∧ LexLess lt xs ys) := by
  constructor
  · rintro (⟨i, hD, hfirst, a, b, ha, hb, hab⟩ | ⟨hno, hlen⟩)
    · cases i with
      | zero =>
        simp only [List.getElem?_cons_zero, Option.some.injEq] at ha hb
        exact Or.inl (ha ▸ hb ▸ hab)
      | succ i =>
        have h0 := hfirst 0 (Nat.succ_pos i)
        rw [DifferAt_zero] at h0
        have hx : lt x y = false := by
          cases h : lt x y
          · rfl
          · exact absurd (Or.inl h) h0
        have hy : lt y x = false := by
          cases h : lt y x
          · rfl
          · exact absurd (Or.inr h) h0
        refine Or.inr ⟨hx, hy, Or.inl ⟨i, (DifferAt_succ lt x y xs ys i).1 hD, ?_, a, b, ?_, ?_,
          hab⟩⟩
        · intro k hk hDk
          exact hfirst (k + 1) (by omega) ((DifferAt_succ lt x y xs ys k).2 hDk)
        · simpa using ha
        · simpa using hb
    · have h0 := hno 0
      rw [DifferAt_zero] at h0
      have hx : lt x y = false := by
        cases h : lt x y
        · rfl
        · exact absurd (Or.inl h) h0
      have hy : lt y x = false := by
        cases h : lt y x
        · rfl
        · exact absurd (Or.inr h) h0
      refine Or.inr ⟨hx, hy, Or.inr ⟨fun i hD => hno (i + 1)
        ((DifferAt_succ lt x y xs ys i).2 hD), by simpa using hlen⟩⟩
  · rintro (hxy | ⟨hx, hy, hrest⟩)
    · exact Or.inl ⟨0, (DifferAt_zero lt x y xs ys).2 (Or.inl hxy),
        fun k hk => absurd hk (Nat.not_lt_zero k), x, y, by simp, by simp, hxy⟩
    · have h0 : ¬ DifferAt lt (x :: xs) (y :: ys) 0 := by
        rw [DifferAt_zero]
        simp [hx, hy]
      rcases hrest with ⟨i, hD, hfirst, a, b, ha, hb, hab⟩ | ⟨hno, hlen⟩
      · refine Or.inl ⟨i + 1, (DifferAt_succ lt x y xs ys i).2 hD, ?_, a, b, by simpa using ha,
          by simpa using hb, hab⟩
        intro k hk
        cases k with
        | zero => exact h0
        | succ k =>
          rw [DifferAt_succ]
          exact hfirst k (by omega)
      · refine Or.inr ⟨fun i => ?_, by simpa using hlen⟩
        cases i with
        | zero => exact h0
        | succ i =>
          rw [DifferAt_succ]
          exact hno i

/-- The loop of `std::lexicographical_compare` decides the lexicographic comparison as the
specification words it. -/
theorem lexRef_iff (lt : α → α → Bool) : ∀ (xs ys : List α),
    lexRef lt xs ys = true ↔ LexLess lt xs ys
  | [], [] => by simp [lexRef, LexLess, DifferAt]
  | [], _ :: _ => by simp [lexRef, LexLess, DifferAt]
  | _ :: _, [] => by simp [lexRef, LexLess, DifferAt]
  | x :: xs, y :: ys => by
    rw [LexLess_cons, ← lexRef_iff lt xs ys]
    cases hxy : lt x y <;> cases hyx : lt y x <;> simp [lexRef, hxy, hyx]

/-- With an irreflexive `<` under which incomparable elements are identical, "no position
differs and `xs` is shorter" says that `xs` is a proper prefix of `ys`. -/
theorem noDiffer_iff_initial (lt : α → α → Bool) (hirr : ∀ a, lt a a = false)
    (htri : ∀ a b, lt a b = false → lt b a = false → a = b) : ∀ (xs ys : List α),
    ((∀ i, ¬ DifferAt lt xs ys i) ∧ xs.length < ys.length) ↔
      (xs <+: ys ∧ xs.length < ys.length)
  | [], ys => by simp [DifferAt]
  | _ :: _, [] => by simp
  | x :: xs, y :: ys => by
    have ih := noDiffer_iff_initial lt hirr htri xs ys
    constructor
    · rintro ⟨hno, hlen⟩
      have h0 := hno 0
      rw [DifferAt_zero] at h0
      have hx : lt x y = false := by
        cases h : lt x y
        · rfl
        · exact absurd (Or.inl h) h0
      have hy : lt y x = false := by
        cases h : lt y x
        · rfl
        · exact absurd (Or.inr h) h0
      have hxy := htri x y hx hy
      subst hxy
      have h1 := ih.1 ⟨fun i hD => hno (i + 1) ((DifferAt_succ lt x x xs ys i).2 hD),
        by simpa using hlen⟩
      exact ⟨by simpa [List.cons_prefix_cons] using h1.1, hlen⟩
    · rintro ⟨hpre, hlen⟩
      rw [List.cons_prefix_cons] at hpre
      obtain ⟨hxy, hpre⟩ := hpre
      subst hxy
      have h1 := ih.2 ⟨hpre, by simpa using hlen⟩
      refine ⟨fun i => ?_, hlen⟩
      cases i with
      | zero =>
        rw [DifferAt_zero]
        simp [hirr]
      | succ i =>
        rw [DifferAt_succ]
        exact h1.1 i

theorem Owns_memLM_L : Owns memLM 0 cells123 :=
  ⟨⟨⟨0, by simp [IsChain, memLM, cells123, headPtr]⟩, by decide,
    by simp [addrs, cells123, SIZE_MOD]⟩, rfl⟩

theorem Owns_memLM_M : Owns memLM 1 cells124 :=
  ⟨⟨⟨0, by simp [IsChain, memLM, cells124, headPtr]⟩, by decide,
    by simp [addrs, cells124, SIZE_MOD]⟩, rfl⟩

/-- The free `operator==` on two well-formed lists compares the sizes and then the elements in order. -/
theorem op_eq_spec [BEq α] {m : Mem α} {L M : Nat} {cl cm : List (Nat × α)} {fuel : Nat}
    (hL : Owns m L cl) (hM : Owns m M cm) (hf : cl.length ≤ fuel) :
    op_eq fuel m L M =
      .ok (decide (cl.length = cm.length) && seqEq (vals cl) (vals cm)) := by
  obtain ⟨_, hcl⟩ := hL.1.chain
  obtain ⟨_, hcm⟩ := hM.1.chain
  unfold op_eq
  simp only [GetSize, hL.2, hM.2]
  by_cases hlen : cl.length = cm.length
  · simp only [hlen, ne_eq, not_true_eq_false, if_false, hL.1.begin_eq, hM.1.begin_eq]
    rw [equal_chain cl cm fuel hcl.2 hcm.2 hlen hf]
    simp
  · simp [hlen]

/-- The free `operator<` on two well-formed lists is `std::lexicographical_compare` of their values. -/
theorem op_lt_spec (lt : α → α → Bool) {m : Mem α} {L M : Nat} {cl cm : List (Nat × α)}
    {fuel : Nat} (hL : Linked m L cl) (hM : Linked m M cm) (hf : cl.length ≤ fuel) :
    op_lt lt fuel m L M = .ok (lexRef lt (vals cl) (vals cm)) := by
  obtain ⟨_, hcl⟩ := hL.chain
  obtain ⟨_, hcm⟩ := hM.chain
  unfold op_lt
  simp only [hL.begin_eq, hM.begin_eq]
  exact lex_chain lt cl cm fuel hcl.2 hcm.2 hf

theorem advance_beyond {m : Mem α} : ∀ (j : Nat) (ext : List (Nat × α)), IsChain m ext →
    ext.length < j → advance m j ⟨headPtr ext⟩ = .error .invalid_access
  | 0, _, _, hj => by simp at hj
  | j + 1, [], _, _ => by
    simp only [advance, BasicIterator.incr, Mem.load, headPtr]
  | j + 1, c :: cs, h, hj => by
    have ih := advance_beyond j cs h.2 (by simpa using hj)
    have hhd : headPtr (c :: cs) = some c.1 := rfl
    simp only [advance, BasicIterator.incr, Mem.load, hhd, h.1, ih]

theorem InsertAfter_none (A : Allocator α) (m : Mem α) (this p : Nat) (v : α)
    (hq : A.new m = none) : InsertAfter A m this ⟨some p⟩ v = .bad_alloc m := by
  simp only [InsertAfter, hq]

/-- A mutating call on a well-formed list completes and leaves it well formed, all other live
objects being kept; or it throws `std::bad_alloc` and nothing has changed; or the position was
beyond `end()`. -/
theorem mutate_spec (A : Allocator α) {m : Mem α} {this : Nat} {cells : List (Nat × α)}
    (h : Owns m this cells) (mu : Mutation α) :
    (∃ m1 cells1, mutate A m this mu = .ok () m1 ∧ Owns m1 this cells1 ∧
        Frame m m1 this cells cells1) ∨
    mutate A m this mu = .bad_alloc m ∨ mutate A m this mu = .fault .invalid_access := by
  obtain ⟨hv, hc⟩ := h.1.chain
  cases mu with
  | pushFront v =>
    cases hq : A.new m with
    | none => exact Or.inr (Or.inl (PushFront_none A m this v hq))
    | some q =>
      obtain ⟨m1, he, ho, hf⟩ := PushFront_owns A v h hq
      exact Or.inl ⟨m1, _, he, ho, hf⟩
  | popFront =>
    cases cells with
    | nil =>
      exact Or.inl ⟨m, [], by simp only [mutate, PopFront_nil h.1], h, Frame.frame_refl _ _ _⟩
    | cons c cs =>
      obtain ⟨m1, he, hl, hs, hf⟩ := PopFront_core h.1
      exact Or.inl ⟨m1, cs, by simp only [mutate, he],
        ⟨hl, by rw [hs]; exact size_pred_eq h.1 h.2⟩, hf⟩
  | clear =>
    obtain ⟨m1, he, hl, hf, hs⟩ := Clear_spec cells (GetSize m this) m h.1
      (by simp [GetSize, h.2])
    exact Or.inl ⟨m1, [], by simp only [mutate, he], ⟨hl, by simpa using hs h.2⟩, hf⟩
  | insertAfter j v =>
    rcases Nat.lt_or_ge cells.length j with hj | hj
    · rcases Nat.lt_or_ge (cells.length + 1) j with hj2 | hj2
      · right; right
        have hadv : advance m j ⟨some this⟩ = .error .invalid_access :=
          advance_beyond j ((this, hv) :: cells) hc (by simpa using hj2)
        simp only [mutate, posAt, before_begin, hadv]
      · have hj3 : j = cells.length + 1 := by omega
        have hpos := Linked.posAt_eq hc (j := j) (by omega)
        rw [show ((this, hv) :: cells).drop j = [] by simp [hj3]] at hpos
        exact Or.inl ⟨m, cells, by simp only [mutate, hpos, headPtr, InsertAfter, cend], h,
          Frame.frame_refl _ _ _⟩
    · obtain ⟨xs, ⟨p, pv⟩, h1, h2, h3⟩ := split_behind j (this, hv) cells hj
      have hpos : posAt m this j = .ok ⟨some p⟩ := by
        rw [Linked.posAt_eq hc (by omega), h2]
        rfl
      cases hq : A.new m with
      | none =>
        right; left
        simp only [mutate, hpos, InsertAfter_none A m this p v hq]
      | some q =>
        have hx1 : (this, hv) :: (cells.take j ++ (q, v) :: cells.drop j) =
            xs ++ (p, pv) :: (q, v) :: cells.drop j := by
          rw [← List.cons_append, h3]
          simp
        obtain ⟨m1, he, hl, hs, hf⟩ := InsertAfter_core A v h.1 hc h1 hx1 hq
        have hlen : (cells.take j ++ (q, v) :: cells.drop j).length = cells.length + 1 := by
          simp only [List.length_append, List.length_take, List.length_cons, List.length_drop]
          omega
        refine Or.inl ⟨m1, _, by simp only [mutate, hpos, he], ⟨hl, ?_⟩, hf⟩
        have hlt := hl.length_lt
        rw [hlen] at hlt
        rw [hs, h.2, Nat.mod_eq_of_lt hlt, hlen]
  | eraseAfter j =>
    rcases Nat.lt_or_ge cells.length j with hj | hj
    · rcases Nat.lt_or_ge (cells.length + 1) j with hj2 | hj2
      · right; right
        have hadv : advance m j ⟨some this⟩ = .error .invalid_access :=
          advance_beyond j ((this, hv) :: cells) hc (by simpa using hj2)
        simp only [mutate, posAt, before_begin, hadv]
      · have hj3 : j = cells.length + 1 := by omega
        have hpos := Linked.posAt_eq hc (j := j) (by omega)
        rw [show ((this, hv) :: cells).drop j = [] by simp [hj3]] at hpos
        exact Or.inl ⟨m, cells, by simp only [mutate, hpos, headPtr, EraseAfter], h,
          Frame.frame_refl _ _ _⟩
    · obtain ⟨xs, ⟨p, pv⟩, h1, h2, h3⟩ := split_behind j (this, hv) cells hj
      have hpos : posAt m this j = .ok ⟨some p⟩ := by
        rw [Linked.posAt_eq hc (by omega), h2]
        rfl
      rcases Nat.lt_or_ge j cells.length with hlt | hge
      · have hdrop : cells.drop j = cells[j] :: cells.drop (j + 1) :=
          List.drop_eq_getElem_cons hlt
        rw [hdrop] at h1
        have hx1 : (this, hv) :: cells.eraseIdx j = xs ++ (p, pv) :: cells.drop (j + 1) := by
          rw [List.eraseIdx_eq_take_drop_succ, ← List.cons_append, h3]
          simp
        obtain ⟨m1, he, hl, hs, hf⟩ :=
          EraseAfter_core cells[j].2 (d := cells[j].1) h.1 hc h1 hx1
        have hlen : (cells.eraseIdx j).length = cells.length - 1 := by
          rw [List.length_eraseIdx, if_pos hlt]
        refine Or.inl ⟨m1, _, by simp only [mutate, hpos, he], ⟨hl, ?_⟩, hf⟩
        have hlt0 := h.1.length_lt
        rw [hs, h.2, hlen,
          show cells.length + SIZE_MOD - 1 = (cells.length - 1) + SIZE_MOD by omega,
          Nat.add_mod_right, Nat.mod_eq_of_lt (by omega)]
      · have hnil : cells.drop j = [] := by simp [hge]
        rw [hnil] at h1
        exact Or.inl ⟨m, cells, by simp only [mutate, hpos, EraseAfter_last hc h1], h,
          Frame.frame_refl _ _ _⟩

theorem Owns.unchanged {m : Mem α} {L : Nat} {cells : List (Nat × α)} (h : Owns m L cells) :
    Unchanged m L cells :=
  ⟨h, fun f hf => h.1.toSeq_eq f hf, h.2⟩

/-- A sequence is `std::equal` to itself exactly when each element is `==` to itself. -/
theorem seqEq_same_iff [BEq α] : ∀ xs : List α,
    seqEq xs xs = true ↔ ∀ a ∈ xs, (a == a) = true
  | [] => by simp [seqEq]
  | x :: xs => by simp [seqEq, seqEq_same_iff xs]

theorem seqEq_self [BEq α] (hrefl : ∀ a : α, (a == a) = true) : ∀ xs : List α,
    seqEq xs xs = true
  | [] => rfl
  | x :: xs => by simp [seqEq, hrefl x, seqEq_self hrefl xs]

/-- Mutating one list never touches another list made of other objects. -/
theorem mutateAll_independent (A : Allocator α) {c L : Nat} {cells : List (Nat × α)} :
    ∀ (mus : List (Mutation α)) (m : Mem α) (cs : List (Nat × α)) (m2 : Mem α),
    Owns m c cs → Owns m L cells → (∀ a ∈ c :: addrs cs, a ∉ L :: addrs cells) →
    mutateAll A c mus m = .ok m2 → Owns m2 L cells
  | [], m, cs, m2, _, hL, _, h => by
    simp only [mutateAll, Except.ok.injEq] at h
    exact h ▸ hL
  | mu :: mus, m, cs, m2, hc, hL, hd, h => by
    rcases mutate_spec A hc mu with ⟨m1, cs1, he, ho, hf⟩ | he | he
    · simp only [mutateAll, he] at h
      have hL1 : Owns m1 L cells := hL.keep_owns hf.keep (fun a ha hac => hd a hac ha)
      refine mutateAll_independent A mus m1 cs1 m2 ho hL1 ?_ h
      intro a ha haL
      rcases List.mem_cons.1 ha with rfl | ha1
      · exact hd a (by simp) haL
      · rcases hf.fresh a ha1 with h1 | h1
        · exact hd a (List.mem_cons_of_mem _ h1) haL
        · exact hL.1.live a haL h1
    · simp only [mutateAll, he] at h
      exact mutateAll_independent A mus m cs m2 hc hL hd h
    · simp only [mutateAll, he] at h
      cases h

theorem CopyPost.intro [BEq α] (A : Allocator α) {m1 : Mem α} {c L : Nat}
    {cells cs : List (Nat × α)} (hc : Owns m1 c cs) (hv : vals cs = vals cells)
    (hL : Owns m1 L cells) (hd : ∀ a ∈ c :: addrs cs, a ∉ L :: addrs cells) :
    CopyPost A m1 c L cells := by
  have hlen : cs.length = cells.length := by
    have := congrArg List.length hv
    simpa [vals] using this
  refine ⟨⟨cs, hc, hv, hd⟩, fun f hf => ?_, ?_, fun f hf => ?_, hL.unchanged,
    fun mus m2 h => (mutateAll_independent A mus m1 cs m2 hc hL hd h).unchanged⟩
  · rw [hc.1.toSeq_eq f (by omega), hv]
  · simp only [GetSize, hc.2, hlen]
  · refine ⟨_, op_eq_spec hc hL (by omega), ?_⟩
    rw [hv, hlen, ← seqEq_same_iff]
    simp

theorem WorldOK.disjoint {m : Mem α} {objs : List Nat} {cf : Nat → List (Nat × α)}
    (hw : WorldOK m objs cf) {l1 l2 : Nat} (h1 : l1 ∈ objs) (h2 : l2 ∈ objs) (hne : l1 ≠ l2) :
    ∀ a ∈ l1 :: addrs (cf l1), a ∉ l2 :: addrs (cf l2) := by
  intro a ha hb
  rcases List.mem_cons.1 ha with rfl | ha <;> rcases List.mem_cons.1 hb with hb | hb
  · exact hne hb
  · exact hw.sentinel _ h1 _ h2 hb
  · exact hw.sentinel _ h2 _ h1 (hb ▸ ha)
  · exact hw.cells _ h1 _ h2 hne a ha hb

/-- A step that keeps the footprints of all live lists keeps the invariant. -/
theorem WorldOK.keep_world {m m1 : Mem α} {objs : List Nat} {cf : Nat → List (Nat × α)}
    {S : List Nat} (hw : WorldOK m objs cf) (hk : Keep m m1 S)
    (hS : ∀ a ∈ S, m.nodes a = none) : WorldOK m1 objs cf where
  owns := fun l hl => (hw.owns l hl).keep_owns hk
    (fun a ha h => (hw.owns l hl).1.live a ha (hS a h))
  sentinel := hw.sentinel
  cells := hw.cells

/-- A step on one list `l` — a live one with cells `cf l`, or a new one in unused storage —
that frames the rest keeps the invariant, with the new cells recorded for `l`. -/
theorem WorldOK.step {m m1 : Mem α} {objs objs1 : List Nat} {cf : Nat → List (Nat × α)}
    {l : Nat} {cells0 cells1 : List (Nat × α)} (hw : WorldOK m objs cf)
    (hobjs : ∀ x, x ∈ objs1 ↔ x = l ∨ x ∈ objs)
    (h0 : (l ∈ objs ∧ cells0 = cf l) ∨ (m.nodes l = none ∧ cells0 = []))
    (ho : Owns m1 l cells1) (hf : Frame m m1 l cells0 cells1) :
    WorldOK m1 objs1 (Function.update cf l cells1) := by
  have hlive : ∀ x ∈ objs, ∀ a ∈ x :: addrs (cf x), m.nodes a ≠ none :=
    fun x hx => (hw.owns x hx).1.live
  have hF1 : ∀ x ∈ objs, x ≠ l → ∀ a ∈ x :: addrs (cf x), a ∉ l :: addrs cells0 := by
    intro x hx hxl a ha h
    rcases h0 with ⟨hl, rfl⟩ | ⟨hd, rfl⟩
    · exact hw.disjoint hx hl hxl a ha h
    · simp only [addrs, List.map_nil, List.mem_singleton] at h
      exact hlive x hx a ha (h ▸ hd)
  have hnew : ∀ x ∈ objs, x ≠ l → ∀ a ∈ x :: addrs (cf x), a ∉ l :: addrs cells1 := by
    intro x hx hxl a ha h
    rcases List.mem_cons.1 h with h1 | h1
    · exact hF1 x hx hxl a ha (by simp [h1])
    · rcases hf.fresh a h1 with h2 | h2
      · exact hF1 x hx hxl a ha (List.mem_cons_of_mem _ h2)
      · exact hlive x hx a ha h2
  have hold : ∀ x ∈ objs1, x ≠ l → x ∈ objs := fun x hx hxl =>
    ((hobjs x).1 hx).resolve_left hxl
  refine ⟨fun x hx => ?_, fun l1 h1 l2 h2 => ?_, fun l1 h1 l2 h2 hne a ha => ?_⟩
  · by_cases hxl : x = l
    · subst hxl
      simpa using ho
    · rw [Function.update_noteq hxl]
      exact (hw.owns x (hold x hx hxl)).keep_owns hf.keep (hF1 x (hold x hx hxl) hxl)
  · by_cases h2l : l2 = l
    · subst h2l
      rw [Function.update_same]
      by_cases h1l : l1 = l2
      · subst h1l
        exact (List.nodup_cons.1 ho.1.nodup).1
      · exact fun h => hnew l1 (hold l1 h1 h1l) h1l l1 (by simp) (List.mem_cons_of_mem _ h)
    · rw [Function.update_noteq h2l]
      by_cases h1l : l1 = l
      · subst h1l
        exact fun h => hnew l2 (hold l2 h2 h2l) h2l l1 (List.mem_cons_of_mem _ h) (by simp)
      · exact hw.sentinel l1 (hold l1 h1 h1l) l2 (hold l2 h2 h2l)
  · by_cases h1l : l1 = l
    · subst h1l
      have h2l : l2 ≠ l1 := fun h => hne h.symm
      rw [Function.update_same] at ha
      rw [Function.update_noteq h2l]
      exact fun h => hnew l2 (hold l2 h2 h2l) h2l a (List.mem_cons_of_mem _ h)
        (List.mem_cons_of_mem _ ha)
    · rw [Function.update_noteq h1l] at ha
      by_cases h2l : l2 = l
      · subst h2l
        rw [Function.update_same]
        exact fun h => hnew l1 (hold l1 h1 h1l) h1l a (List.mem_cons_of_mem _ ha)
          (List.mem_cons_of_mem _ h)
      · rw [Function.update_noteq h2l]
        exact hw.cells l1 (hold l1 h1 h1l) l2 (hold l2 h2 h2l) hne a ha

/-- Swapping two distinct live lists keeps the invariant, with their cells exchanged. -/
theorem WorldOK.swap_world {m m1 : Mem α} {objs : List Nat} {cf : Nat → List (Nat × α)} {a b : Nat}
    (hw : WorldOK m objs cf) (ha : a ∈ objs) (hb : b ∈ objs) (hab : a ≠ b)
    (hla : Linked m1 a (cf b)) (hlb : Linked m1 b (cf a)) (hsa : m1.sizes a = m.sizes b)
    (hsb : m1.sizes b = m.sizes a) (hk : Keep m m1 [a, b]) :
    WorldOK m1 objs (fun l => cf (if l = a then b else if l = b then a else l)) := by
  have hpi : ∀ l ∈ objs, (if l = a then b else if l = b then a else l) ∈ objs := by
    intro l hl
    split
    · exact hb
    · split
      · exact ha
      · exact hl
  have hinj : ∀ l1 l2 : Nat, l1 ≠ l2 → (if l1 = a then b else if l1 = b then a else l1) ≠
      (if l2 = a then b else if l2 = b then a else l2) := by
    intro l1 l2 hne
    by_cases h1a : l1 = a <;> by_cases h1b : l1 = b <;> by_cases h2a : l2 = a <;>
      by_cases h2b : l2 = b <;> simp_all <;> omega
  refine ⟨fun l hl => ?_, fun l1 h1 l2 h2 => hw.sentinel l1 h1 _ (hpi l2 h2),
    fun l1 h1 l2 h2 hne => hw.cells _ (hpi l1 h1) _ (hpi l2 h2) (hinj l1 l2 hne)⟩
  by_cases hla1 : l = a
  · subst hla1
    simp only [if_true]
    exact ⟨hla, by rw [hsa]; exact (hw.owns b hb).2⟩
  · by_cases hlb1 : l = b
    · subst hlb1
      simp only [hla1, if_false, if_true]
      exact ⟨hlb, by rw [hsb]; exact (hw.owns a ha).2⟩
    · simp only [hla1, hlb1, if_false]
      refine (hw.owns l hl).keep_owns hk (fun x hx h => ?_)
      simp only [List.mem_cons, List.mem_singleton, List.not_mem_nil, or_false] at h
      rcases h with h | h
      · exact hw.disjoint hl ha hla1 x hx (by simp [h])
      · exact hw.disjoint hl hb hlb1 x hx (by simp [h])

/-- A new list variable keeps the invariant, whichever way its constructor ends. -/
theorem declare_inv (A : Allocator α) {m : Mem α} {objs : List Nat}
    {cf : Nat → List (Nat × α)} (hw : WorldOK m objs cf) (ctor : Nat → Outcome α Unit)
    (hctor : ∀ t, m.nodes t = none → t < SIZE_MOD →
      (∃ m1 cells, ctor t = .ok () m1 ∧ Owns m1 t cells ∧ Frame m m1 t [] cells) ∨
      (∃ m1, ctor t = .bad_alloc m1 ∧ Keep m m1 [t]) ∨ (∃ e, ctor t = .fault e)) :
    (∃ objs1 m1 cf1, declare A m objs ctor = .ok objs1 m1 ∧ WorldOK m1 objs1 cf1) ∨
    (∃ m1, declare A m objs ctor = .bad_alloc m1 ∧ WorldOK m1 objs cf) ∨
    (∃ e, declare A m objs ctor = .fault e) := by
  cases hauto : A.auto m with
  | none => exact Or.inr (Or.inr ⟨_, by simp only [declare, hauto]; rfl⟩)
  | some t =>
    obtain ⟨htd, htb⟩ := A.auto_fresh m t hauto
    rcases hctor t htd htb with ⟨m1, cells, he, ho, hf⟩ | ⟨m1, he, hk⟩ | ⟨e, he⟩
    · exact Or.inl ⟨t :: objs, m1, _, by simp only [declare, hauto, he],
        hw.step (fun x => List.mem_cons) (Or.inr ⟨htd, rfl⟩) ho hf⟩
    · refine Or.inr (Or.inl ⟨m1, by simp only [declare, hauto, he], hw.keep_world hk ?_⟩)
      intro a ha
      simp only [List.mem_singleton] at ha
      exact ha ▸ htd
    · exact Or.inr (Or.inr ⟨e, by simp only [declare, hauto, he]⟩)

/-- Every statement keeps the invariant: after normal completion, and after `std::bad_alloc`. -/
theorem exec_inv [Inhabited α] (A : Allocator α) {m : Mem α} {objs : List Nat}
    {cf : Nat → List (Nat × α)} (hw : WorldOK m objs cf) (c : Cmd α) :
    (∃ objs1 m1 cf1, exec A m objs c = .ok objs1 m1 ∧ WorldOK m1 objs1 cf1) ∨
    (∃ m1, exec A m objs c = .bad_alloc m1 ∧ WorldOK m1 objs cf) ∨
    (∃ e, exec A m objs c = .fault e) := by
  cases c with
  | mkDefault =>
    refine declare_inv A hw _ (fun t _ htb => Or.inl ⟨_, [], rfl, (mk_default_spec m htb).1,
      ⟨?_, fun a ha => Or.inl ha⟩⟩)
    simpa [addrs] using (mk_default_spec m htb).2
  | mkFromValues values =>
    refine declare_inv A hw _ (fun t _ htb => ?_)
    rcases mk_from_values_spec A values.length m t values htb (Nat.le_refl _) with
      ⟨m1, cells, he, ho, _, hf⟩ | ⟨m1, he, hk, _⟩ | ⟨he, _⟩
    · exact Or.inl ⟨m1, cells, he, ho, hf⟩
    · exact Or.inr (Or.inl ⟨m1, he, hk⟩)
    · exact Or.inr (Or.inr ⟨_, he⟩)
  | mkCopy other =>
    by_cases hin : other ∈ objs
    · simp only [exec, hin, if_true]
      have hoo := hw.owns other hin
      refine declare_inv A hw _ (fun t htd htb => ?_)
      rcases mk_copy_spec A (GetSize m other) hoo.1 (fun h => hoo.1.live t h htd) htb
          (by simp [GetSize, hoo.2]) with
        ⟨m1, cells, he, ho, _, hf⟩ | ⟨m1, he, hk, _⟩ | ⟨he, _⟩
      · exact Or.inl ⟨m1, cells, he, ho, hf⟩
      · exact Or.inr (Or.inl ⟨m1, he, hk⟩)
      · exact Or.inr (Or.inr ⟨_, he⟩)
    · exact Or.inr (Or.inr ⟨_, by simp only [exec, hin, if_false]; rfl⟩)
  | assign this rhs =>
    by_cases hin : this ∈ objs ∧ rhs ∈ objs
    · simp only [exec, hin, and_self, if_true]
      by_cases hne : this = rhs
      · subst hne
        exact Or.inl ⟨objs, m, cf, by simp only [assign_self, keepObjs], hw⟩
      · have hot := hw.owns this hin.1
        have hor := hw.owns rhs hin.2
        rcases assign_spec A (max (GetSize m this) (GetSize m rhs)) hot.1 hor.1
            (hw.disjoint hin.1 hin.2 hne) (by simp [GetSize, hot.2])
            (by simp [GetSize, hor.2]) with
          ⟨m1, cs, he, ho, _, hf⟩ | ⟨m1, he, hk, _⟩ | ⟨he, _⟩
        · refine Or.inl ⟨objs, m1, _, by simp only [he, keepObjs],
            hw.step (l := this) (fun x => ?_) (Or.inl ⟨hin.1, rfl⟩) ho hf⟩
          constructor
          · exact fun h => Or.inr h
          · rintro (rfl | h)
            · exact hin.1
            · exact h
        · exact Or.inr (Or.inl ⟨m1, by simp only [he, keepObjs], hw.keep_world hk (by simp)⟩)
        · exact Or.inr (Or.inr ⟨_, by simp only [he, keepObjs]; rfl⟩)
    · exact Or.inr (Or.inr ⟨_, by simp only [exec, hin, if_false]; rfl⟩)
  | swap this other =>
    by_cases hin : this ∈ objs ∧ other ∈ objs
    · simp only [exec, hin, and_self, if_true]
      by_cases hne : this = other
      · subst hne
        exact Or.inl ⟨objs, m, cf, by simp only [swap_self], hw⟩
      · obtain ⟨m1, he, hla, hlb, hsa, hsb, hk⟩ := swap_spec (hw.owns this hin.1).1
          (hw.owns other hin.2).1 (hw.disjoint hin.1 hin.2 hne)
        exact Or.inl ⟨objs, m1, _, by simp only [he],
          hw.swap_world hin.1 hin.2 hne hla hlb hsa hsb hk⟩
    · exact Or.inr (Or.inr ⟨_, by simp only [exec, hin, if_false]; rfl⟩)
  | call this mu =>
    by_cases hin : this ∈ objs
    · simp only [exec, hin, if_true]
      rcases mutate_spec A (hw.owns this hin) mu with ⟨m1, cs, he, ho, hf⟩ | he | he
      · refine Or.inl ⟨objs, m1, _, by simp only [he, keepObjs],
          hw.step (l := this) (fun x => ?_) (Or.inl ⟨hin, rfl⟩) ho hf⟩
        constructor
        · exact fun h => Or.inr h
        · rintro (rfl | h)
          · exact hin
          · exact h
      · exact Or.inr (Or.inl ⟨m, by simp only [he, keepObjs], hw⟩)
      · exact Or.inr (Or.inr ⟨_, by simp only [he, keepObjs]; rfl⟩)
    · exact Or.inr (Or.inr ⟨_, by simp only [exec, hin, if_false]; rfl⟩)

/-- The invariant holds in every state that a program reaches. -/
theorem run_inv [Inhabited α] (A : Allocator α) : ∀ (cmds : List (Cmd α)) (m : Mem α)
    (objs : List Nat) (cf : Nat → List (Nat × α)) (m1 : Mem α) (objs1 : List Nat),
    WorldOK m objs cf → run A cmds m objs = .ok objs1 m1 → ∃ cf1, WorldOK m1 objs1 cf1
  | [], m, objs, cf, m1, objs1, hw, h => by
    simp only [run, Outcome.ok.injEq] at h
    obtain ⟨rfl, rfl⟩ := h
    exact ⟨cf, hw⟩
  | c :: cs, m, objs, cf, m1, objs1, hw, h => by
    rcases exec_inv A hw c with ⟨objs2, m2, cf2, he, hw2⟩ | ⟨m2, he, hw2⟩ | ⟨e, he⟩
    · simp only [run, he] at h
      exact run_inv A cs m2 objs2 cf2 m1 objs1 hw2 h
    · simp only [run, he] at h
      exact run_inv A cs m2 objs cf m1 objs1 hw2 h
    · simp only [run, he] at h
      cases h

/-- Popping as many times as there are cells in front gives back the list behind them. -/
theorem popN_spec {this : Nat} : ∀ (news cells : List (Nat × α)) (m : Mem α),
    Owns m this (news ++ cells) → ∃ m2, popN news.length m this = .ok m2 ∧ Owns m2 this cells
  | [], _, m, h => ⟨m, rfl, h⟩
  | c :: ns, cells, m, h => by
    obtain ⟨m1, he, hl, hs, _⟩ := PopFront_core h.1
    have ho : Owns m1 this (ns ++ cells) := ⟨hl, by rw [hs]; exact size_pred_eq h.1 h.2⟩
    obtain ⟨m2, he2, ho2⟩ := popN_spec ns cells m1 ho
    exact ⟨m2, by simp only [List.length_cons, popN, he, he2], ho2⟩

theorem op_eq_listEq [BEq α] {m : Mem α} {L M : Nat} {cl cm : List (Nat × α)} {fuel : Nat}
    (hL : Owns m L cl) (hM : Owns m M cm) (hf : cl.length ≤ fuel) :
    op_eq fuel m L M = .ok (listEq (vals cl) (vals cm)) := by
  rw [op_eq_spec hL hM hf]
  simp [listEq, vals]

/-- The free `operator<=` on two well-formed lists: `==` or `<` of their values. -/
theorem op_le_spec [BEq α] (lt : α → α → Bool) {m : Mem α} {L M : Nat}
    {cl cm : List (Nat × α)} {fuel : Nat} (hL : Owns m L cl) (hM : Owns m M cm)
    (hf : cl.length ≤ fuel) :
    op_le lt fuel m L M =
      .ok (listEq (vals cl) (vals cm) || lexRef lt (vals cl) (vals cm)) := by
  unfold op_le
  rw [op_eq_listEq hL hM hf]
  cases listEq (vals cl) (vals cm) with
  | true => rfl
  | false => simp only [op_lt_spec lt hL.1 hM.1 hf, Bool.false_or]

/-- The free `operator>` on two well-formed lists: neither `==` nor `<` of their values. -/
theorem op_gt_spec [BEq α] (lt : α → α → Bool) {m : Mem α} {L M : Nat}
    {cl cm : List (Nat × α)} {fuel : Nat} (hL : Owns m L cl) (hM : Owns m M cm)
    (hf : cl.length ≤ fuel) :
    op_gt lt fuel m L M =
      .ok (!(listEq (vals cl) (vals cm) || lexRef lt (vals cl) (vals cm))) := by
  simp only [op_gt, op_le_spec lt hL hM hf]

/-- The free `operator>=` on two well-formed lists: not `<` of their values. -/
theorem op_ge_spec (lt : α → α → Bool) {m : Mem α} {L M : Nat} {cl cm : List (Nat × α)}
    {fuel : Nat} (hL : Linked m L cl) (hM : Linked m M cm) (hf : cl.length ≤ fuel) :
    op_ge lt fuel m L M = .ok (!lexRef lt (vals cl) (vals cm)) := by
  simp only [op_ge, op_lt_spec lt hL hM hf]

theorem listEq_self [BEq α] (hrefl : ∀ a : α, (a == a) = true) (xs : List α) :
    listEq xs xs = true := by
  simp [listEq, seqEq_self hrefl xs]

theorem lexRef_self (lt : α → α → Bool) (hirr : ∀ a, lt a a = false) : ∀ xs : List α,
    lexRef lt xs xs = false
  | [] => rfl
  | x :: xs => by simp [lexRef, hirr x, lexRef_self lt hirr xs]

theorem listEq_cons [BEq α] (x y : α) (xs ys : List α) :
    listEq (x :: xs) (y :: ys) = ((x == y) && listEq xs ys) := by
  simp only [listEq, seqEq, List.length_cons, Nat.add_right_cancel_iff]
  cases (x == y) <;> cases seqEq xs ys <;> simp

/-- Under an asymmetric element `<` with which the element `==` agrees, exactly one of
`xs < ys`, `xs == ys`, `ys < xs` holds for sequences, and `==` is symmetric. -/
theorem lex_trichotomy [BEq α] (lt : α → α → Bool)
    (hasym : ∀ a b, lt a b = true → lt b a = false)
    (hagree : ∀ a b, (a == b) = true ↔ (lt a b = false ∧ lt b a = false)) :
    ∀ xs ys : List α,
      lexRef lt ys xs = (!listEq xs ys && !lexRef lt xs ys) ∧
      (listEq xs ys && lexRef lt xs ys) = false ∧ listEq ys xs = listEq xs ys
  | [], [] => by simp [lexRef, listEq, seqEq]
  | [], _ :: _ => by simp [lexRef, listEq, seqEq]
  | _ :: _, [] => by simp [lexRef, listEq, seqEq]
  | x :: xs, y :: ys => by
    obtain ⟨h1, h2, h3⟩ := lex_trichotomy lt hasym hagree xs ys
    have hxy := hagree x y
    have hyx := hagree y x
    rw [listEq_cons, listEq_cons, h3]
    simp only [lexRef, h1]
    cases hl : lt x y <;> cases hr : lt y x <;> cases he : (x == y) <;>
      cases he2 : (y == x) <;> simp_all

/-- With a heap that never has room, copying a non-empty list does not complete: the failure of
the first `PushFront` leaves the copy constructor by unwinding. -/
theorem mk_copy_no_heap [Inhabited α] (A : Allocator α) (fuel : Nat) {m : Mem α}
    {this other : Nat} {hn : Node α} {c : Nat} (hnew : ∀ m0, A.new m0 = none)
    (ho : m.nodes other = some hn) (hc : hn.next_node = some c) (hne : this ≠ other)
    (hf : 1 ≤ fuel) : ∀ m1, mk_copy A fuel m this other ≠ .ok () m1 := by
  intro m1
  unfold mk_copy
  simp only
  cases hauto : A.auto (m.setNode this ⟨default, none⟩) with
  | none => simp
  | some t1 =>
    have hfresh := (A.auto_fresh _ t1 hauto).1
    have h0 : (m.setNode this ⟨default, none⟩).nodes other = some hn := by
      simp only [Mem.setNode, if_neg (Ne.symm hne), ho]
    have ht1 : other ≠ t1 := by
      rintro rfl
      rw [h0] at hfresh
      exact absurd hfresh (by simp)
    have hb : begin (mk_default (m.setNode this ⟨default, none⟩) t1) other = .ok ⟨some c⟩ := by
      simp only [begin, mk_default, Mem.setNode, Mem.setSize, if_neg (Ne.symm hne), if_neg ht1,
        ho, hc]
    simp only [hb]
    obtain ⟨f, rfl⟩ : ∃ f, fuel = f + 1 := ⟨fuel - 1, by omega⟩
    unfold pushEach
    have hcend : BasicIterator.eq ⟨some c⟩ cend = false := by
      simp [BasicIterator.eq, cend]
    simp only [hcend, Bool.false_eq_true, if_false]
    cases BasicIterator.deref (mk_default (m.setNode this ⟨default, none⟩) t1) ⟨some c⟩ with
    | error e => simp
    | ok el =>
      simp only [PushFront, hnew, unwind]
      cases dtors (f + 1) (mk_default (m.setNode this ⟨default, none⟩) t1) [t1] with
      | error e => simp
      | ok m2 => simp

/-- With a heap that never has room, the copy assignment from a non-empty list does not
complete. -/
theorem assign_no_heap [Inhabited α] (A : Allocator α) (fuel : Nat) {m : Mem α}
    {this rhs : Nat} {rcells : List (Nat × α)} (hnew : ∀ m0, A.new m0 = none)
    (hr : Linked m rhs rcells) (hnil : rcells ≠ []) (hne : this ≠ rhs)
    (hf : rcells.length ≤ fuel) : ∀ m1, assign A fuel m this rhs ≠ .ok () m1 := by
  intro m1
  obtain ⟨c, cs, rfl⟩ := List.exists_cons_of_ne_nil hnil
  obtain ⟨hv, hch⟩ := hr.1
  have hhead : m.nodes rhs = some ⟨hv, some c.1⟩ := hch.1
  simp only [assign, ne_eq, hne, not_false_eq_true, if_true]
  cases hauto : A.auto m with
  | none => simp
  | some temp =>
    have hfresh := (A.auto_fresh _ temp hauto).1
    have htr : temp ≠ rhs := by
      rintro rfl
      rw [hhead] at hfresh
      exact absurd hfresh (by simp)
    have hcopy := mk_copy_no_heap A fuel hnew hhead rfl htr
      (by simp only [List.length_cons] at hf; omega)
    simp only
    cases hm : mk_copy A fuel m temp rhs with
    | fault e => simp
    | bad_alloc m2 => simp
    | ok u m2 => exact absurd hm (hcopy m2)

theorem Owns_memAB_L : Owns memAB 0 [(1000, 2)] :=
  ⟨⟨⟨0, by simp [IsChain, memAB, headPtr]⟩, by decide, by simp [addrs, SIZE_MOD]⟩, rfl⟩

theorem Owns_memAB_M : Owns memAB 1 [(1001, 3)] :=
  ⟨⟨⟨0, by simp [IsChain, memAB, headPtr]⟩, by decide, by simp [addrs, SIZE_MOD]⟩, rfl⟩

theorem properDvd_irrefl (a : Nat) : properDvd a a = false := by
  simp [properDvd]

theorem properDvd_trans (a b c : Nat) (hab : properDvd a b = true) (hbc : properDvd b c = true) :
    properDvd a c = true := by
  simp only [properDvd, Bool.and_eq_true, decide_eq_true_eq] at *
  refine ⟨Nat.dvd_trans hab.1 hbc.1, fun h => ?_⟩
  subst h
  exact hab.2 (Nat.dvd_antisymm hab.1 hbc.1)

theorem Owns_memNaN : Owns memNaN 0 [(1000, Dbl.nan)] :=
  ⟨⟨⟨.num 0, by simp [IsChain, memNaN, headPtr]⟩, by decide, by simp [addrs, SIZE_MOD]⟩, rfl⟩

/-- A sequence is not lexicographically less than itself exactly when no element is `<`
itself. -/
theorem lexRef_same_iff (lt : α → α → Bool) : ∀ xs : List α,
    lexRef lt xs xs = false ↔ ∀ a ∈ xs, lt a a = false
  | [] => by simp [lexRef]
  | x :: xs => by
    cases h : lt x x <;> simp [lexRef, h, lexRef_same_iff lt xs]

/-! ## The claims -/

/-- C2: `size_` matches the chain in every reachable state.  A client program starts without
list objects and runs any sequence of statements: default construction, construction from a
sequence, copy construction, copy assignment, `swap`, `PushFront`, `PopFront`, `Clear`,
`InsertAfter` and `EraseAfter` (at positions reached from `before_begin()`), on any of its live
lists, going on after a `std::bad_alloc`.  In the state it reaches, every live list has a
traversal from `begin()` to `end()` that ends, and `GetSize()` is the number of nodes met. -/
theorem C2_size_matches_chain [Inhabited α] (A : Allocator α) (cmds : List (Cmd α))
    (m0 m : Mem α) (objs : List Nat) (h : run A cmds m0 [] = .ok objs m) :
    ∀ l ∈ objs, ∃ s, (∀ fuel, s.length ≤ fuel → toSeq fuel m l = .ok s) ∧
      GetSize m l = s.length := by
  have hw0 : WorldOK m0 [] (fun _ => ([] : List (Nat × α))) :=
    ⟨fun l hl => by simp at hl, fun l hl => by simp at hl, fun l hl => by simp at hl⟩
  obtain ⟨cf, hw⟩ := run_inv A cmds m0 [] _ m objs hw0 h
  intro l hl
  have ho := hw.owns l hl
  exact ⟨vals (cf l), fun fuel hf => ho.1.toSeq_eq fuel (by simpa [vals] using hf),
    by simp [GetSize, ho.2, vals]⟩

/-- Instance of C2: the program `demoProgram`, started in an empty memory, reaches a state with
three live lists, each with `GetSize()` equal to the length of its traversal. -/
theorem C2_size_matches_chain_witness :
    ∃ objs m, run (firstFit Nat 16 8) demoProgram mem0 [] = .ok objs m ∧ objs.length = 3 ∧
      ∀ l ∈ objs, ∃ s, (∀ fuel, s.length ≤ fuel → toSeq fuel m l = .ok s) ∧
        GetSize m l = s.length :=
  ⟨_, _, rfl, rfl,
    C2_size_matches_chain (firstFit Nat 16 8) demoProgram mem0 _ _ rfl⟩

/-- C4: for well-formed lists `L` and `M` (traversal sequences `vals cl` and `vals cm`),
`operator==` returns a result, which is `true` if and only if `GetSize(L) == GetSize(M)` and at
every index below that size the element of `L` is `==` to the element of `M`; `operator!=`
returns the negation. -/
theorem C4_equality_is_elementwise [BEq α] (m : Mem α) (L M : Nat) (cl cm : List (Nat × α))
    (fuel : Nat) (hL : Owns m L cl) (hM : Owns m M cm) (hf : cl.length ≤ fuel) :
    toSeq fuel m L = .ok (vals cl) ∧ (∀ f, cm.length ≤ f → toSeq f m M = .ok (vals cm)) ∧
    ∃ b, op_eq fuel m L M = .ok b ∧ op_ne fuel m L M = .ok (!b) ∧
      (b = true ↔ GetSize m L = GetSize m M ∧ ∀ i, i < GetSize m L →
        ∃ x y, (vals cl)[i]? = some x ∧ (vals cm)[i]? = some y ∧ (x == y) = true) := by
  refine ⟨hL.1.toSeq_eq fuel hf, fun f hf1 => hM.1.toSeq_eq f hf1, _, op_eq_spec hL hM hf, ?_, ?_⟩
  · simp only [op_ne, op_eq_spec hL hM hf]
  · simp only [GetSize, hL.2, hM.2, Bool.and_eq_true, decide_eq_true_eq]
    constructor
    · rintro ⟨hlen, hseq⟩
      refine ⟨hlen, ?_⟩
      have := (seqEq_iff (vals cl) (vals cm) (by simpa [vals] using hlen)).1 hseq
      simpa [vals] using this
    · rintro ⟨hlen, hall⟩
      refine ⟨hlen, (seqEq_iff (vals cl) (vals cm) (by simpa [vals] using hlen)).2 ?_⟩
      simpa [vals] using hall

/-- Instance of C4: `L = {1, 2, 3}` against `M = {1, 2, 4}`. -/
theorem C4_equality_is_elementwise_witness :
    Owns memLM 0 cells123 ∧ Owns memLM 1 cells124 ∧ cells123.length ≤ 3 ∧
    toSeq 3 memLM 0 = .ok (vals cells123) ∧
    (∀ f, cells124.length ≤ f → toSeq f memLM 1 = .ok (vals cells124)) ∧
    ∃ b, op_eq 3 memLM 0 1 = .ok b ∧ op_ne 3 memLM 0 1 = .ok (!b) ∧
      (b = true ↔ GetSize memLM 0 = GetSize memLM 1 ∧ ∀ i, i < GetSize memLM 0 →
        ∃ x y, (vals cells123)[i]? = some x ∧ (vals cells124)[i]? = some y ∧ (x == y) = true) :=
  ⟨Owns_memLM_L, Owns_memLM_M, by decide,
    C4_equality_is_elementwise memLM 0 1 cells123 cells124 3 Owns_memLM_L Owns_memLM_M
      (by decide)⟩

/-- C5: for well-formed lists `L` and `M` (traversal sequences `vals cl` and `vals cm`),
`operator<` returns a result, which is `true` if and only if the lexicographic comparison under
the element type's `<` holds: at the first position where the elements differ under `<` the
element of `L` is the smaller one, or no position differs and `L` is shorter — which, for an
irreflexive `<` whose incomparable elements are identical, says that `L` is a proper prefix of
`M`.  Scenario: with `L = {1, 2, 3}` and `M = {1, 2, 4}`, `L < M` is true, `M < L` is false and
`L != M` is true. -/
theorem C5_less_is_lexicographic (lt : α → α → Bool) (m : Mem α) (L M : Nat)
    (cl cm : List (Nat × α)) (fuel : Nat) (hL : Owns m L cl) (hM : Owns m M cm)
    (hf : cl.length ≤ fuel) :
    (toSeq fuel m L = .ok (vals cl) ∧ (∀ f, cm.length ≤ f → toSeq f m M = .ok (vals cm)) ∧
      ∃ b, op_lt lt fuel m L M = .ok b ∧ (b = true ↔ LexLess lt (vals cl) (vals cm))) ∧
    ((∀ a, lt a a = false) → (∀ a b, lt a b = false → lt b a = false → a = b) →
      (((∀ i, ¬ DifferAt lt (vals cl) (vals cm) i) ∧ (vals cl).length < (vals cm).length) ↔
        (vals cl <+: vals cm ∧ (vals cl).length < (vals cm).length))) ∧
    (toSeq 3 memLM 0 = .ok [1, 2, 3] ∧ toSeq 3 memLM 1 = .ok [1, 2, 4] ∧
      op_lt (fun a b : Nat => decide (a < b)) 3 memLM 0 1 = .ok true ∧
      op_lt (fun a b : Nat => decide (a < b)) 3 memLM 1 0 = .ok false ∧
      op_ne 3 memLM 0 1 = .ok true) := by
  refine ⟨⟨hL.1.toSeq_eq fuel hf, fun f hf1 => hM.1.toSeq_eq f hf1, _,
    op_lt_spec lt hL.1 hM.1 hf, lexRef_iff lt _ _⟩, fun hirr htri =>
    noDiffer_iff_initial lt hirr htri _ _, rfl, rfl, rfl, rfl, rfl⟩

/-- Instance of C5: `L = {1, 2, 3}` against `M = {1, 2, 4}` under the order of the naturals. -/
theorem C5_less_is_lexicographic_witness :
    Owns memLM 0 cells123 ∧ Owns memLM 1 cells124 ∧ cells123.length ≤ 3 ∧
    (toSeq 3 memLM 0 = .ok (vals cells123) ∧
      (∀ f, cells124.length ≤ f → toSeq f memLM 1 = .ok (vals cells124)) ∧
      ∃ b, op_lt (fun a b : Nat => decide (a < b)) 3 memLM 0 1 = .ok b ∧
        (b = true ↔ LexLess (fun a b : Nat => decide (a < b)) (vals cells123) (vals cells124))) :=
  ⟨Owns_memLM_L, Owns_memLM_M, by decide,
    (C5_less_is_lexicographic (fun a b : Nat => decide (a < b)) memLM 0 1 cells123 cells124 3
      Owns_memLM_L Owns_memLM_M (by decide)).1⟩

/-- C6: on a well-formed list with cells `cells` (traversal sequence `vals cells`, size
`cells.length`), `PushFront(v)` (when the node can be allocated) completes, the traversal
sequence becomes `v` followed by the old sequence, the old cells stay in place behind the new
first cell, and `GetSize()` grows by exactly one. -/
theorem C6_PushFront_prepends (A : Allocator α) (m : Mem α) (this : Nat)
    (cells : List (Nat × α)) (v : α) (h : Owns m this cells) (hnew : A.new m ≠ none) :
    ∃ m1 q, PushFront A m this v = .ok () m1 ∧ Owns m1 this ((q, v) :: cells) ∧
      (∀ fuel, cells.length + 1 ≤ fuel → toSeq fuel m1 this = .ok (v :: vals cells)) ∧
      GetSize m1 this = GetSize m this + 1 := by
  cases hq : A.new m with
  | none => exact absurd hq hnew
  | some q =>
    obtain ⟨m1, he, ho, _⟩ := PushFront_owns A v h hq
    refine ⟨m1, q, he, ho, fun fuel hf => ho.1.toSeq_eq fuel (by simpa using hf), ?_⟩
    simp only [GetSize, ho.2, h.2, List.length_cons]

/-- Instance of C6: pushing `0` in front of the list `{1, 2, 3}`. -/
theorem C6_PushFront_prepends_witness :
    Owns mem123 0 cells123 ∧ (firstFit Nat 8 4).new mem123 ≠ none ∧
    ∃ m1 q, PushFront (firstFit Nat 8 4) mem123 0 0 = .ok () m1 ∧
      Owns m1 0 ((q, 0) :: cells123) ∧
      (∀ fuel, cells123.length + 1 ≤ fuel → toSeq fuel m1 0 = .ok (0 :: vals cells123)) ∧
      GetSize m1 0 = GetSize mem123 0 + 1 :=
  ⟨Owns_mem123, by decide,
    C6_PushFront_prepends (firstFit Nat 8 4) mem123 0 cells123 0 Owns_mem123 (by decide)⟩

/-- C7: on a well-formed list, `PopFront()` completes without error; a list `x` followed by `s`
becomes `s` with size one less, and an empty list stays as it is (same memory, size `0`). -/
theorem C7_PopFront_removes_head (m : Mem α) (this : Nat) (cells : List (Nat × α))
    (h : Owns m this cells) :
    ∃ m1, PopFront m this = .ok m1 ∧ Owns m1 this cells.tail ∧
      (∀ fuel, cells.length - 1 ≤ fuel → toSeq fuel m1 this = .ok (vals cells).tail) ∧
      GetSize m1 this = GetSize m this - 1 ∧ (cells = [] → m1 = m ∧ GetSize m1 this = 0) := by
  cases cells with
  | nil =>
    refine ⟨m, PopFront_nil h.1, h, fun fuel hf => h.1.toSeq_eq fuel (by simp), ?_, ?_⟩
    · simp [GetSize, h.2]
    · intro _
      exact ⟨rfl, by simpa [GetSize] using h.2⟩
  | cons c cs =>
    obtain ⟨m1, he, hl, hs, _⟩ := PopFront_core h.1
    have hs1 : m1.sizes this = cs.length := by rw [hs]; exact size_pred_eq h.1 h.2
    refine ⟨m1, he, ⟨hl, hs1⟩, fun fuel hf => ?_, ?_, ?_⟩
    · simpa [vals] using hl.toSeq_eq fuel (by simpa using hf)
    · simp [GetSize, hs1, h.2]
    · intro hc
      simp at hc

/-- Instance of C7: popping the head of the list `{1, 2, 3}`. -/
theorem C7_PopFront_removes_head_witness :
    Owns mem123 0 cells123 ∧
    ∃ m1, PopFront mem123 0 = .ok m1 ∧ Owns m1 0 cells123.tail ∧
      (∀ fuel, cells123.length - 1 ≤ fuel → toSeq fuel m1 0 = .ok (vals cells123).tail) ∧
      GetSize m1 0 = GetSize mem123 0 - 1 ∧ (cells123 = [] → m1 = mem123 ∧ GetSize m1 0 = 0) :=
  ⟨Owns_mem123, C7_PopFront_removes_head mem123 0 cells123 Owns_mem123⟩

/-- C8: on a well-formed list, let `pos` be the iterator `j` steps behind `before_begin()`
(`j = 0`: the sentinel; `j = k + 1`: the `k`-th real node).  `InsertAfter(pos, v)` (when the node
can be allocated) completes; the new sequence is the first `j` old elements, then `v`, then the
remaining old elements (so `v` followed by the old sequence for `before_begin()`); `GetSize()`
grows by exactly one; the returned iterator dereferences to `v` and is the position just behind
`pos`. -/
theorem C8_InsertAfter_splices (A : Allocator α) (m : Mem α) (this : Nat)
    (cells : List (Nat × α)) (v : α) (j : Nat) (h : Owns m this cells) (hnew : A.new m ≠ none)
    (hj : j ≤ cells.length) :
    ∃ pos m1 it q, posAt m this j = .ok pos ∧ pos.node_ = (this :: addrs cells)[j]? ∧
      (j = 0 → pos = before_begin this) ∧
      InsertAfter A m this pos v = .ok it m1 ∧
      Owns m1 this (cells.take j ++ (q, v) :: cells.drop j) ∧
      (∀ fuel, cells.length + 1 ≤ fuel →
        toSeq fuel m1 this = .ok ((vals cells).take j ++ v :: (vals cells).drop j)) ∧
      (j = 0 → ∀ fuel, cells.length + 1 ≤ fuel → toSeq fuel m1 this = .ok (v :: vals cells)) ∧
      GetSize m1 this = GetSize m this + 1 ∧
      it.deref m1 = .ok v ∧ posAt m1 this (j + 1) = .ok it := by
  obtain ⟨hv, hc⟩ := h.1.chain
  obtain ⟨xs, ⟨p, pv⟩, h1, h2, h3⟩ := split_behind j (this, hv) cells hj
  have hpos : posAt m this j = .ok ⟨some p⟩ := by
    rw [Linked.posAt_eq hc (by omega), h2]
    rfl
  cases hq : A.new m with
  | none => exact absurd hq hnew
  | some q =>
    have hx1 : (this, hv) :: (cells.take j ++ (q, v) :: cells.drop j) =
        xs ++ (p, pv) :: (q, v) :: cells.drop j := by
      rw [← List.cons_append, h3]
      simp
    obtain ⟨m1, he, hl, hs, _⟩ := InsertAfter_core A v h.1 hc h1 hx1 hq
    have hlen : (cells.take j ++ (q, v) :: cells.drop j).length = cells.length + 1 := by
      simp only [List.length_append, List.length_take, List.length_cons, List.length_drop]
      omega
    have hs1 : m1.sizes this = cells.length + 1 := by
      have hlt := hl.length_lt
      rw [hlen] at hlt
      rw [hs, h.2, Nat.mod_eq_of_lt hlt]
    have hseq : ∀ fuel, cells.length + 1 ≤ fuel →
        toSeq fuel m1 this = .ok ((vals cells).take j ++ v :: (vals cells).drop j) := by
      intro fuel hf
      rw [hl.toSeq_eq fuel (by omega), vals_append, vals_take]
      simp [vals, List.map_drop]
    obtain ⟨hv1, hc1⟩ := hl.chain
    obtain ⟨nx, hnode⟩ := hc1.2.node_of_mem (q, v) (by simp)
    refine ⟨⟨some p⟩, m1, ⟨some q⟩, q, hpos, (getElem?_addrs_of_drop h2).symm, ?_, he,
      ⟨hl, by rw [hs1, hlen]⟩, hseq, ?_, ?_, ?_, ?_⟩
    · intro hj0
      subst hj0
      simp only [List.drop_zero, List.cons.injEq, Prod.mk.injEq] at h2
      simp [before_begin, h2.1.1]
    · intro hj0 fuel hf
      subst hj0
      simpa using hseq fuel hf
    · simp only [GetSize, hs1, h.2]
    · simp only [BasicIterator.deref, Mem.load, hnode]
    · rw [Linked.posAt_eq hc1 (by omega), List.drop_succ_cons,
        List.drop_left' (by simp; omega)]
      rfl

/-- Instance of C8: inserting `10` behind the first real node of the list `{1, 2, 3}`. -/
theorem C8_InsertAfter_splices_witness :
    Owns mem123 0 cells123 ∧ (firstFit Nat 8 4).new mem123 ≠ none ∧ 1 ≤ cells123.length ∧
    ∃ pos m1 it q, posAt mem123 0 1 = .ok pos ∧ pos.node_ = (0 :: addrs cells123)[1]? ∧
      (1 = 0 → pos = before_begin 0) ∧
      InsertAfter (firstFit Nat 8 4) mem123 0 pos 10 = .ok it m1 ∧
      Owns m1 0 (cells123.take 1 ++ (q, 10) :: cells123.drop 1) ∧
      (∀ fuel, cells123.length + 1 ≤ fuel →
        toSeq fuel m1 0 = .ok ((vals cells123).take 1 ++ 10 :: (vals cells123).drop 1)) ∧
      (1 = 0 → ∀ fuel, cells123.length + 1 ≤ fuel → toSeq fuel m1 0 = .ok (10 :: vals cells123)) ∧
      GetSize m1 0 = GetSize mem123 0 + 1 ∧
      it.deref m1 = .ok 10 ∧ posAt m1 0 (1 + 1) = .ok it :=
  ⟨Owns_mem123, by decide, by decide,
    C8_InsertAfter_splices (firstFit Nat 8 4) mem123 0 cells123 10 1 Owns_mem123 (by decide)
      (by decide)⟩

/-- C9: on a well-formed list, let `pos` be the iterator `j` steps behind `before_begin()`
(`j = 0`: the sentinel; `j = k + 1`: the `k`-th real node).  If the referenced node has a
successor (`j < size`), `EraseAfter(pos)` removes exactly that successor (the cell of index `j`),
the other cells keep their values and order, `GetSize()` drops by exactly one, and the returned
iterator is the position that now follows `pos`, which is `end()` exactly when nothing follows.
If it has no successor (`j = size`), `EraseAfter(pos)` changes nothing and returns `end()`. -/
theorem C9_EraseAfter_removes_successor (m : Mem α) (this : Nat) (cells : List (Nat × α))
    (j : Nat) (h : Owns m this cells) (hj : j ≤ cells.length) :
    ∃ pos, posAt m this j = .ok pos ∧ pos.node_ = (this :: addrs cells)[j]? ∧
      (j < cells.length → ∃ m1 it, EraseAfter m this pos = .ok (m1, it) ∧
        Owns m1 this (cells.eraseIdx j) ∧
        (∀ fuel, cells.length - 1 ≤ fuel →
          toSeq fuel m1 this = .ok ((vals cells).eraseIdx j)) ∧
        GetSize m1 this + 1 = GetSize m this ∧
        posAt m1 this (j + 1) = .ok it ∧ (it = cend ↔ j + 1 = cells.length)) ∧
      (j = cells.length → EraseAfter m this pos = .ok (m, cend)) := by
  obtain ⟨hv, hc⟩ := h.1.chain
  obtain ⟨xs, ⟨p, pv⟩, h1, h2, h3⟩ := split_behind j (this, hv) cells hj
  have hpos : posAt m this j = .ok ⟨some p⟩ := by
    rw [Linked.posAt_eq hc (by omega), h2]
    rfl
  refine ⟨⟨some p⟩, hpos, (getElem?_addrs_of_drop h2).symm, ?_, ?_⟩
  · intro hlt
    have hdrop : cells.drop j = cells[j] :: cells.drop (j + 1) :=
      List.drop_eq_getElem_cons hlt
    rw [hdrop] at h1
    have hx1 : (this, hv) :: cells.eraseIdx j = xs ++ (p, pv) :: cells.drop (j + 1) := by
      rw [List.eraseIdx_eq_take_drop_succ, ← List.cons_append, h3]
      simp
    obtain ⟨m1, he, hl, hs, _⟩ :=
      EraseAfter_core cells[j].2 (d := cells[j].1) h.1 hc h1 hx1
    have hlen : (cells.eraseIdx j).length = cells.length - 1 := by
      rw [List.length_eraseIdx, if_pos hlt]
    have hs1 : m1.sizes this = cells.length - 1 := by
      have hlt0 := h.1.length_lt
      rw [hs, h.2, show cells.length + SIZE_MOD - 1 = (cells.length - 1) + SIZE_MOD by omega,
        Nat.add_mod_right, Nat.mod_eq_of_lt (by omega)]
    obtain ⟨hv1, hc1⟩ := hl.chain
    refine ⟨m1, ⟨headPtr (cells.drop (j + 1))⟩, he, ⟨hl, by rw [hs1, hlen]⟩, ?_, ?_, ?_, ?_⟩
    · intro fuel hf
      rw [hl.toSeq_eq fuel (by omega)]
      simp [vals, List.eraseIdx_eq_take_drop_succ, List.map_take, List.map_drop]
    · simp only [GetSize, hs1, h.2]
      omega
    · rw [Linked.posAt_eq hc1 (by omega), List.drop_succ_cons,
        List.eraseIdx_eq_take_drop_succ, List.drop_left' (by simp; omega)]
    · have hiff : headPtr (cells.drop (j + 1)) = none ↔ cells.drop (j + 1) = [] := by
        cases cells.drop (j + 1) <;> simp [headPtr]
      simp only [cend, BasicIterator.mk.injEq, hiff, List.drop_eq_nil_iff]
      omega
  · intro hje
    have hnil : cells.drop j = [] := by simp [hje]
    rw [hnil] at h1
    exact EraseAfter_last hc h1

/-- Instance of C9: erasing behind the first real node of the list `{1, 2, 3}`. -/
theorem C9_EraseAfter_removes_successor_witness :
    Owns mem123 0 cells123 ∧ 1 ≤ cells123.length ∧
    ∃ pos, posAt mem123 0 1 = .ok pos ∧ pos.node_ = (0 :: addrs cells123)[1]? ∧
      (1 < cells123.length → ∃ m1 it, EraseAfter mem123 0 pos = .ok (m1, it) ∧
        Owns m1 0 (cells123.eraseIdx 1) ∧
        (∀ fuel, cells123.length - 1 ≤ fuel →
          toSeq fuel m1 0 = .ok ((vals cells123).eraseIdx 1)) ∧
        GetSize m1 0 + 1 = GetSize mem123 0 ∧
        posAt m1 0 (1 + 1) = .ok it ∧ (it = cend ↔ 1 + 1 = cells123.length)) ∧
      (1 = cells123.length → EraseAfter mem123 0 pos = .ok (mem123, cend)) :=
  ⟨Owns_mem123, by decide,
    C9_EraseAfter_removes_successor mem123 0 cells123 1 Owns_mem123 (by decide)⟩

/-- C10: for every memory, list address and value, `InsertAfter(cend(), v)` and
`EraseAfter(cend())` complete without touching the memory (so the traversal sequence and
`GetSize()` of every list are unchanged) and return `end()`. -/
theorem C10_end_position_noop (A : Allocator α) (m : Mem α) (this : Nat) (v : α) :
    InsertAfter A m this cend v = .ok cend m ∧ EraseAfter m this cend = .ok (m, cend) :=
  ⟨rfl, rfl⟩

/-- C11: `InsertAfter(before_begin(), v)` and `PushFront(v)` do the same to every memory: the
same outcome and, when they complete, the very same resulting memory.  On a well-formed list
(when the node can be allocated) both complete, the traversal sequence is `v` followed by the old
sequence and `GetSize()` has grown by one. -/
theorem C11_InsertAfter_before_begin_is_PushFront (A : Allocator α) (m : Mem α) (this : Nat)
    (v : α) :
    dropIt (InsertAfter A m this (before_begin this) v) = PushFront A m this v ∧
    ∀ cells, Owns m this cells → A.new m ≠ none →
      ∃ m1 it, InsertAfter A m this (before_begin this) v = .ok it m1 ∧
        PushFront A m this v = .ok () m1 ∧
        (∀ fuel, cells.length + 1 ≤ fuel → toSeq fuel m1 this = .ok (v :: vals cells)) ∧
        GetSize m1 this = GetSize m this + 1 := by
  have heq : dropIt (InsertAfter A m this (before_begin this) v) = PushFront A m this v := by
    simp only [InsertAfter, PushFront, before_begin]
    cases A.new m with
    | none => rfl
    | some q =>
      cases m.nodes this with
      | none => rfl
      | some hd => rfl
  refine ⟨heq, fun cells h hnew => ?_⟩
  cases hq : A.new m with
  | none => exact absurd hq hnew
  | some q =>
    obtain ⟨m1, he, ho, _⟩ := PushFront_owns A v h hq
    rw [he] at heq
    cases hi : InsertAfter A m this (before_begin this) v with
    | fault e => rw [hi] at heq; cases heq
    | bad_alloc m2 => rw [hi] at heq; cases heq
    | ok it m2 =>
      rw [hi] at heq
      simp only [dropIt, Outcome.ok.injEq, true_and] at heq
      refine ⟨m1, it, by rw [heq], he, fun fuel hf => ho.1.toSeq_eq fuel (by simpa using hf), ?_⟩
      simp only [GetSize, ho.2, h.2, List.length_cons]

/-- Instance of C11: on the list `{1, 2, 3}` with the value `0`. -/
theorem C11_InsertAfter_before_begin_is_PushFront_witness :
    Owns mem123 0 cells123 ∧ (firstFit Nat 8 4).new mem123 ≠ none ∧
    ∃ m1 it, InsertAfter (firstFit Nat 8 4) mem123 0 (before_begin 0) 0 = .ok it m1 ∧
      PushFront (firstFit Nat 8 4) mem123 0 0 = .ok () m1 ∧
      (∀ fuel, cells123.length + 1 ≤ fuel → toSeq fuel m1 0 = .ok (0 :: vals cells123)) ∧
      GetSize m1 0 = GetSize mem123 0 + 1 :=
  ⟨Owns_mem123, by decide,
    (C11_InsertAfter_before_begin_is_PushFront (firstFit Nat 8 4) mem123 0 0).2 cells123
      Owns_mem123 (by decide)⟩

/-- C12: on a well-formed list, empty or not, `EraseAfter(before_begin())` and `PopFront()`
both complete and leave the very same memory, hence the same traversal sequence (the old one
without its first element) and the same `GetSize()`. -/
theorem C12_EraseAfter_before_begin_is_PopFront (m : Mem α) (this : Nat)
    (cells : List (Nat × α)) (h : Owns m this cells) :
    ∃ m1 it, EraseAfter m this (before_begin this) = .ok (m1, it) ∧ PopFront m this = .ok m1 ∧
      Owns m1 this cells.tail ∧
      (∀ fuel, cells.length - 1 ≤ fuel → toSeq fuel m1 this = .ok (vals cells).tail) ∧
      GetSize m1 this = GetSize m this - 1 := by
  obtain ⟨hv, hc⟩ := h.1.chain
  cases cells with
  | nil =>
    refine ⟨m, cend, by simp only [EraseAfter, before_begin, hc.1, headPtr], PopFront_nil h.1, h,
      fun fuel _ => h.1.toSeq_eq fuel (by simp), ?_⟩
    simp [GetSize, h.2]
  | cons c cs =>
    obtain ⟨⟨hp, hd, hpd⟩, hl, _⟩ := unlinkMem_spec [] c.2 (d := c.1) h.1 hc rfl rfl
    have hs1 : (unlinkMem m this this c.1 hv (headPtr cs)).sizes this = cs.length := by
      simp only [unlinkMem, setSize_sizes, delNode_sizes, setNode_sizes, if_true]
      exact size_pred_eq h.1 h.2
    refine ⟨unlinkMem m this this c.1 hv (headPtr cs), ⟨headPtr cs⟩, ?_, ?_, ⟨hl, hs1⟩,
      fun fuel hf => ?_, ?_⟩
    · simp only [EraseAfter, before_begin, hp, hd]
      simp [hpd]
      rfl
    · simp only [PopFront, hp, hd]
      rfl
    · simpa [vals] using hl.toSeq_eq fuel (by simpa using hf)
    · simp [GetSize, hs1, h.2]

/-- Instance of C12: on the list `{1, 2, 3}`. -/
theorem C12_EraseAfter_before_begin_is_PopFront_witness :
    Owns mem123 0 cells123 ∧
    ∃ m1 it, EraseAfter mem123 0 (before_begin 0) = .ok (m1, it) ∧ PopFront mem123 0 = .ok m1 ∧
      Owns m1 0 cells123.tail ∧
      (∀ fuel, cells123.length - 1 ≤ fuel → toSeq fuel m1 0 = .ok (vals cells123).tail) ∧
      GetSize m1 0 = GetSize mem123 0 - 1 :=
  ⟨Owns_mem123, C12_EraseAfter_before_begin_is_PopFront mem123 0 cells123 Owns_mem123⟩

/-- C13: on a well-formed list, `Clear()` completes; afterwards the traversal sequence is empty,
`IsEmpty()` is true and `GetSize()` is `0`; on a list that is already empty it leaves the memory
as it is. -/
theorem C13_Clear_empties (m : Mem α) (this : Nat) (cells : List (Nat × α)) (fuel : Nat)
    (h : Owns m this cells) (hf : cells.length ≤ fuel) :
    ∃ m1, Clear fuel m this = .ok m1 ∧ Owns m1 this [] ∧
      (∀ f, toSeq f m1 this = .ok []) ∧ IsEmpty m1 this = true ∧ GetSize m1 this = 0 ∧
      (cells = [] → m1 = m) := by
  obtain ⟨m1, he, hl, _, hs⟩ := Clear_spec cells fuel m h.1 hf
  have hs0 : m1.sizes this = 0 := hs h.2
  refine ⟨m1, he, ⟨hl, by simpa using hs0⟩, fun f => hl.toSeq_eq f (by simp), ?_, hs0, ?_⟩
  · simp [IsEmpty, hs0]
  · intro hnil
    subst hnil
    obtain ⟨hv, hc⟩ := h.1.chain
    have he0 : Clear fuel m this = .ok m := by
      unfold Clear
      simp only [hc.1, headPtr]
    rw [he0] at he
    simp only [Except.ok.injEq] at he
    exact he.symm

/-- Instance of C13: clearing the list `{1, 2, 3}`. -/
theorem C13_Clear_empties_witness :
    Owns mem123 0 cells123 ∧ cells123.length ≤ 3 ∧
    ∃ m1, Clear 3 mem123 0 = .ok m1 ∧ Owns m1 0 [] ∧
      (∀ f, toSeq f m1 0 = .ok []) ∧ IsEmpty m1 0 = true ∧ GetSize m1 0 = 0 ∧
      (cells123 = [] → m1 = mem123) :=
  ⟨Owns_mem123, by decide, C13_Clear_empties mem123 0 cells123 3 Owns_mem123 (by decide)⟩

/-- C14: for two distinct well-formed lists `L` and `M`, the member `swap` and the free `swap`
complete with the same memory, in which `L` has the original cells, traversal sequence and size
of `M`, and `M` those of `L`; swapping a list with itself leaves the memory as it is. -/
theorem C14_swap_exchanges (m : Mem α) (L M : Nat) (cl cm : List (Nat × α))
    (hL : Owns m L cl) (hM : Owns m M cm) (hd : ∀ x ∈ L :: addrs cl, x ∉ M :: addrs cm) :
    (∃ m1, swap m L M = .ok m1 ∧ free_swap m L M = .ok m1 ∧ Owns m1 L cm ∧ Owns m1 M cl ∧
      (∀ f, cm.length ≤ f → toSeq f m1 L = .ok (vals cm)) ∧ GetSize m1 L = GetSize m M ∧
      (∀ f, cl.length ≤ f → toSeq f m1 M = .ok (vals cl)) ∧ GetSize m1 M = GetSize m L) ∧
    swap m L L = .ok m ∧ free_swap m L L = .ok m := by
  obtain ⟨m1, he, hl1, hl2, hs1, hs2, _⟩ := swap_spec hL.1 hM.1 hd
  exact ⟨⟨m1, he, he, ⟨hl1, by rw [hs1]; exact hM.2⟩, ⟨hl2, by rw [hs2]; exact hL.2⟩,
    fun f hf => hl1.toSeq_eq f hf, hs1, fun f hf => hl2.toSeq_eq f hf, hs2⟩,
    swap_self m L, swap_self m L⟩

/-- Instance of C14: swapping `L = {1, 2, 3}` and `M = {1, 2, 4}`. -/
theorem C14_swap_exchanges_witness :
    Owns memLM 0 cells123 ∧ Owns memLM 1 cells124 ∧
    (∀ x ∈ 0 :: addrs cells123, x ∉ 1 :: addrs cells124) ∧
    (∃ m1, swap memLM 0 1 = .ok m1 ∧ free_swap memLM 0 1 = .ok m1 ∧ Owns m1 0 cells124 ∧
      Owns m1 1 cells123 ∧
      (∀ f, cells124.length ≤ f → toSeq f m1 0 = .ok (vals cells124)) ∧
      GetSize m1 0 = GetSize memLM 1 ∧
      (∀ f, cells123.length ≤ f → toSeq f m1 1 = .ok (vals cells123)) ∧
      GetSize m1 1 = GetSize memLM 0) ∧
    swap memLM 0 0 = .ok memLM ∧ free_swap memLM 0 0 = .ok memLM :=
  ⟨Owns_memLM_L, Owns_memLM_M, by decide,
    C14_swap_exchanges memLM 0 1 cells123 cells124 Owns_memLM_L Owns_memLM_M (by decide)⟩

/-- C15: on a well-formed list, `n` calls of `PushFront` (with the values `vs`, run by `pushAll`)
either all complete or one of them throws `std::bad_alloc` because `operator new` has failed.
When they complete, `GetSize()` has grown by `n`, and `n` calls of `PopFront` then complete and
give back the original cells: the original traversal sequence and the original `GetSize()`; a
list that was empty is empty again with size `0`. -/
theorem C15_push_then_pop_restores (A : Allocator α) (m : Mem α) (this : Nat)
    (cells : List (Nat × α)) (vs : List α) (h : Owns m this cells) :
    match pushAll A this vs m with
    | .ok _ m1 => GetSize m1 this = GetSize m this + vs.length ∧
        ∃ m2, popN vs.length m1 this = .ok m2 ∧ Owns m2 this cells ∧
          (∀ f, cells.length ≤ f → toSeq f m2 this = .ok (vals cells)) ∧
          GetSize m2 this = GetSize m this ∧
          (cells = [] → (∀ f, toSeq f m2 this = .ok []) ∧ GetSize m2 this = 0 ∧
            IsEmpty m2 this = true)
    | .bad_alloc _ => ∃ m0, A.new m0 = none
    | .fault _ => False := by
  obtain ⟨m1, news, hres, _, ho, _⟩ := pushAll_spec A vs m cells h
  rcases hres with ⟨he, hv⟩ | ⟨he, hx⟩
  · rw [he]
    have hlen : news.length = vs.length := by
      have := congrArg List.length hv
      simpa [vals] using this
    obtain ⟨m2, hp, ho2⟩ := popN_spec news cells m1 ho
    rw [hlen] at hp
    refine ⟨?_, m2, hp, ho2, fun f hf => ho2.1.toSeq_eq f hf, ?_, ?_⟩
    · simp only [GetSize, ho.2, h.2, List.length_append, hlen]
      omega
    · simp only [GetSize, ho2.2, h.2]
    · intro hnil
      subst hnil
      refine ⟨fun f => ho2.1.toSeq_eq f (by simp), by simpa [GetSize] using ho2.2, ?_⟩
      simp [IsEmpty, ho2.2]
  · rw [he]
    exact hx

/-- Instance of C15: pushing `7` and `8` in front of the list `{1, 2, 3}` and popping twice; the
pushes complete. -/
theorem C15_push_then_pop_restores_witness :
    Owns mem123 0 cells123 ∧
    (∃ m1, pushAll (firstFit Nat 8 4) 0 [7, 8] mem123 = .ok () m1) ∧
    match pushAll (firstFit Nat 8 4) 0 [7, 8] mem123 with
    | .ok _ m1 => GetSize m1 0 = GetSize mem123 0 + [7, 8].length ∧
        ∃ m2, popN [7, 8].length m1 0 = .ok m2 ∧ Owns m2 0 cells123 ∧
          (∀ f, cells123.length ≤ f → toSeq f m2 0 = .ok (vals cells123)) ∧
          GetSize m2 0 = GetSize mem123 0 ∧
          (cells123 = [] → (∀ f, toSeq f m2 0 = .ok []) ∧ GetSize m2 0 = 0 ∧
            IsEmpty m2 0 = true)
    | .bad_alloc _ => ∃ m0, (firstFit Nat 8 4).new m0 = none
    | .fault _ => False :=
  ⟨Owns_mem123, ⟨_, rfl⟩,
    C15_push_then_pop_restores (firstFit Nat 8 4) mem123 0 cells123 [7, 8] Owns_mem123⟩

/-- C16 (as amended): for a well-formed list `L` (cells `cl`), `L == L` and `L < L` return;
`L == L` is `true` exactly when every element of `L` is `==` to itself, and `L < L` is `false`
exactly when no element of `L` is `<` itself.  So `L == L` is `true` for every element type
with a reflexive `==`, and `L < L` is `false` for every irreflexive element `<`. -/
theorem C16_compare_with_itself [BEq α] (lt : α → α → Bool) (m : Mem α) (L : Nat)
    (cl : List (Nat × α)) (fuel : Nat) (hL : Owns m L cl) (hf : cl.length ≤ fuel) :
    ∃ e l, op_eq fuel m L L = .ok e ∧ op_lt lt fuel m L L = .ok l ∧
      (e = true ↔ ∀ a ∈ vals cl, (a == a) = true) ∧
      (l = false ↔ ∀ a ∈ vals cl, lt a a = false) ∧
      ((∀ a : α, (a == a) = true) → e = true) ∧ ((∀ a : α, lt a a = false) → l = false) := by
  have he : (listEq (vals cl) (vals cl) = true ↔ ∀ a ∈ vals cl, (a == a) = true) := by
    rw [← seqEq_same_iff]
    simp [listEq]
  refine ⟨_, _, op_eq_listEq hL hL hf, op_lt_spec lt hL.1 hL.1 hf, he,
    lexRef_same_iff lt (vals cl), fun hrefl => he.2 (fun a _ => hrefl a),
    fun hirr => (lexRef_same_iff lt (vals cl)).2 (fun a _ => hirr a)⟩

/-- Instance of C16: `L = {1, 2, 3}` under the equality and the order of the naturals. -/
theorem C16_compare_with_itself_witness :
    Owns mem123 0 cells123 ∧ cells123.length ≤ 3 ∧ op_eq 3 mem123 0 0 = .ok true ∧
    op_lt (fun a b : Nat => decide (a < b)) 3 mem123 0 0 = .ok false ∧
    ∃ e l, op_eq 3 mem123 0 0 = .ok e ∧
      op_lt (fun a b : Nat => decide (a < b)) 3 mem123 0 0 = .ok l ∧
      (e = true ↔ ∀ a ∈ vals cells123, (a == a) = true) ∧
      (l = false ↔ ∀ a ∈ vals cells123, (fun a b : Nat => decide (a < b)) a a = false) ∧
      ((∀ a : Nat, (a == a) = true) → e = true) ∧
      ((∀ a : Nat, (fun a b : Nat => decide (a < b)) a a = false) → l = false) :=
  ⟨Owns_mem123, by decide, rfl, rfl,
    C16_compare_with_itself (fun a b : Nat => decide (a < b)) mem123 0 cells123 3 Owns_mem123
      (by decide)⟩

/-- The claim C16 as stated fails for element types whose `==` is not reflexive or whose `<` is
not irreflexive: for the well-formed list `{NaN}`, `L == L` is `false`; and with `<=` of the
naturals in the place of the element `<`, `L < L` is `true` for the list `{1, 2, 3}`. -/
theorem C16_self_comparison_can_fail :
    Owns memNaN 0 [(1000, Dbl.nan)] ∧ toSeq 1 memNaN 0 = .ok [Dbl.nan] ∧
    op_eq 1 memNaN 0 0 = .ok false ∧
    Owns mem123 0 cells123 ∧ toSeq 3 mem123 0 = .ok [1, 2, 3] ∧
    op_lt (fun a b : Nat => decide (a ≤ b)) 3 mem123 0 0 = .ok true :=
  ⟨Owns_memNaN, rfl, rfl, Owns_mem123, rfl, rfl⟩

/-- C17: when the element `<` is a strict order (irreflexive and transitive) and the element
`==` holds exactly between elements that `<` does not separate, the six comparisons of two
well-formed lists `L` and `M` all return, and their results satisfy: `L <= M` iff `L == M` or
`L < M`; `L > M` iff `M < L`; `L >= M` iff `M <= L`; and exactly one of `L < M`, `L == M`,
`M < L` is true. -/
theorem C17_consistent_under_total_order [BEq α] (lt : α → α → Bool) (m : Mem α) (L M : Nat)
    (cl cm : List (Nat × α)) (fuel : Nat)
    (hirr : ∀ a, lt a a = false)
    (htrans : ∀ a b c, lt a b = true → lt b c = true → lt a c = true)
    (hagree : ∀ a b, (a == b) = true ↔ (lt a b = false ∧ lt b a = false))
    (hL : Owns m L cl) (hM : Owns m M cm) (hf1 : cl.length ≤ fuel) (hf2 : cm.length ≤ fuel) :
    ∃ e l l2 le le2 gt ge : Bool,
      op_eq fuel m L M = .ok e ∧ op_lt lt fuel m L M = .ok l ∧ op_lt lt fuel m M L = .ok l2 ∧
      op_le lt fuel m L M = .ok le ∧ op_le lt fuel m M L = .ok le2 ∧
      op_gt lt fuel m L M = .ok gt ∧ op_ge lt fuel m L M = .ok ge ∧
      (le = true ↔ (e = true ∨ l = true)) ∧ (gt = true ↔ l2 = true) ∧
      (ge = true ↔ le2 = true) ∧
      ((l = true ∧ e = false ∧ l2 = false) ∨ (l = false ∧ e = true ∧ l2 = false) ∨
        (l = false ∧ e = false ∧ l2 = true)) := by
  have hasym : ∀ a b, lt a b = true → lt b a = false := by
    intro a b hab
    cases hba : lt b a with
    | false => rfl
    | true => rw [← hirr a, htrans a b a hab hba]
  obtain ⟨h1, h2, h3⟩ := lex_trichotomy lt hasym hagree (vals cl) (vals cm)
  refine ⟨_, _, _, _, _, _, _, op_eq_listEq hL hM hf1, op_lt_spec lt hL.1 hM.1 hf1,
    op_lt_spec lt hM.1 hL.1 hf2, op_le_spec lt hL hM hf1, op_le_spec lt hM hL hf2,
    op_gt_spec lt hL hM hf1, op_ge_spec lt hL.1 hM.1 hf1, ?_, ?_, ?_, ?_⟩
  · simp
  · rw [h1]; simp
  · rw [h3, h1]
    cases he : listEq (vals cl) (vals cm) <;> cases hl : lexRef lt (vals cl) (vals cm) <;>
      simp_all
  · rw [h1]
    cases he : listEq (vals cl) (vals cm) <;> cases hl : lexRef lt (vals cl) (vals cm) <;>
      simp_all

/-- Instance of C17: `L = {1, 2, 3}` against `M = {1, 2, 4}` under the order of the naturals. -/
theorem C17_consistent_under_total_order_witness :
    Owns memLM 0 cells123 ∧ Owns memLM 1 cells124 ∧
    ∃ e l l2 le le2 gt ge : Bool,
      op_eq 3 memLM 0 1 = .ok e ∧ op_lt (fun a b : Nat => decide (a < b)) 3 memLM 0 1 = .ok l ∧
      op_lt (fun a b : Nat => decide (a < b)) 3 memLM 1 0 = .ok l2 ∧
      op_le (fun a b : Nat => decide (a < b)) 3 memLM 0 1 = .ok le ∧
      op_le (fun a b : Nat => decide (a < b)) 3 memLM 1 0 = .ok le2 ∧
      op_gt (fun a b : Nat => decide (a < b)) 3 memLM 0 1 = .ok gt ∧
      op_ge (fun a b : Nat => decide (a < b)) 3 memLM 0 1 = .ok ge ∧
      (le = true ↔ (e = true ∨ l = true)) ∧ (gt = true ↔ l2 = true) ∧
      (ge = true ↔ le2 = true) ∧
      ((l = true ∧ e = false ∧ l2 = false) ∨ (l = false ∧ e = true ∧ l2 = false) ∨
        (l = false ∧ e = false ∧ l2 = true)) :=
  ⟨Owns_memLM_L, Owns_memLM_M,
    C17_consistent_under_total_order (fun a b : Nat => decide (a < b)) memLM 0 1 cells123
      cells124 3 (fun a => by simp) (fun a b c hab hbc => by simp at *; omega)
      (fun a b => by simp; omega) Owns_memLM_L Owns_memLM_M (by decide) (by decide)⟩

/-- C18: on a well-formed list `L` (cells `cells`), when the allocation of the node fails,
`PushFront` and `InsertAfter` (at a real position) throw `std::bad_alloc` to the caller with the
memory exactly as before the call, so the traversal sequence and `GetSize()` of `L` are what
they were.  The copy assignment `L = rhs` from another well-formed list either completes, which
it cannot do when there is something to copy and every allocation fails, or finds no storage for
its local, or throws `std::bad_alloc`, which happens only when an allocation failed, and then
the cells, the traversal sequence and `GetSize()` of `L` (and of `rhs`) are what they were
before the call. -/
theorem C18_alloc_failure_leaves_list [Inhabited α] (A : Allocator α) (m : Mem α) (this : Nat)
    (cells : List (Nat × α)) (h : Owns m this cells) :
    (A.new m = none → ∀ v : α,
      PushFront A m this v = .bad_alloc m ∧
      (∀ p, InsertAfter A m this ⟨some p⟩ v = .bad_alloc m) ∧ Unchanged m this cells) ∧
    (∀ (rhs : Nat) (rcells : List (Nat × α)) (fuel : Nat), Owns m rhs rcells →
      (∀ x ∈ this :: addrs cells, x ∉ rhs :: addrs rcells) →
      cells.length ≤ fuel → rcells.length ≤ fuel →
      match assign A fuel m this rhs with
      | .ok _ _ => (∃ m0, A.new m0 ≠ none) ∨ rcells = []
      | .bad_alloc m1 =>
        Unchanged m1 this cells ∧ Unchanged m1 rhs rcells ∧ ∃ m0, A.new m0 = none
      | .fault e => e = .stack_exhausted) := by
  refine ⟨fun hq v => ⟨PushFront_none A m this v hq, fun p => InsertAfter_none A m this p v hq,
    h.unchanged⟩, fun rhs rcells fuel hr hd hf1 hf2 => ?_⟩
  rcases assign_spec A fuel h.1 hr.1 hd hf1 hf2 with ⟨m1, cs, he, -⟩ | ⟨m1, he, hk, hx⟩ | ⟨he, -⟩
  · rw [he]
    by_cases hnew : ∀ m0, A.new m0 = none
    · by_cases hnil : rcells = []
      · exact Or.inr hnil
      · exact absurd he (assign_no_heap A fuel hnew hr.1 hnil
          (fun e => hd this (by simp) (by simp [e])) hf2 m1)
    · exact Or.inl (not_forall.1 hnew)
  · rw [he]
    exact ⟨(h.keep_owns hk (fun _ _ => List.not_mem_nil _)).unchanged,
      (hr.keep_owns hk (fun _ _ => List.not_mem_nil _)).unchanged, hx⟩
  · rw [he]

/-- Instance of C18: `L = {1, 2, 3}` and `M = {1, 2, 4}` with a heap that has no room left; the
copy assignment `L = M` throws `std::bad_alloc`. -/
theorem C18_alloc_failure_leaves_list_witness :
    Owns memLM 0 cells123 ∧ (firstFit Nat 6 8).new memLM = none ∧
    (PushFront (firstFit Nat 6 8) memLM 0 9 = .bad_alloc memLM ∧
      (∀ p, InsertAfter (firstFit Nat 6 8) memLM 0 ⟨some p⟩ 9 = .bad_alloc memLM) ∧
      Unchanged memLM 0 cells123) ∧
    (∃ m1, assign (firstFit Nat 6 8) 3 memLM 0 1 = .bad_alloc m1) ∧
    (match assign (firstFit Nat 6 8) 3 memLM 0 1 with
      | .ok _ _ => (∃ m0, (firstFit Nat 6 8).new m0 ≠ none) ∨ cells124 = []
      | .bad_alloc m1 =>
        Unchanged m1 0 cells123 ∧ Unchanged m1 1 cells124 ∧
          ∃ m0, (firstFit Nat 6 8).new m0 = none
      | .fault e => e = .stack_exhausted) :=
  ⟨Owns_memLM_L, by decide,
    (C18_alloc_failure_leaves_list (firstFit Nat 6 8) memLM 0 cells123 Owns_memLM_L).1
      (by decide) 9,
    ⟨_, rfl⟩,
    (C18_alloc_failure_leaves_list (firstFit Nat 6 8) memLM 0 cells123 Owns_memLM_L).2 1
      cells124 3 Owns_memLM_M (by decide) (by decide) (by decide)⟩

/-- C19: the scenario on a list `L` of integers, with any allocator and any memory to start
from.  The default constructor makes `L` empty.  Unless an allocation fails, `PushFront(3)`
gives the sequence `[3]`, `PushFront(2)` gives `[2, 3]`, `PushFront(1)` gives `[1, 2, 3]` with
`GetSize() == 3`, and `InsertAfter(begin(), 10)` gives `[1, 10, 2, 3]` with `GetSize() == 4`;
`EraseAfter(begin())` then gives `[1, 2, 3]` with `GetSize() == 3`; and `L` compared by `==` with
a temporary `SingleLinkedList{1, 2, 3}` (unless its construction fails) is `true`. -/
theorem C19_scenario (A : Allocator Nat) (m : Mem Nat) (L : Nat) (hL : L < SIZE_MOD) :
    (∀ f, toSeq f (mk_default m L) L = .ok []) ∧ GetSize (mk_default m L) L = 0 ∧
    match PushFront A (mk_default m L) L 3 with
    | .fault _ => False
    | .bad_alloc _ => ∃ m0, A.new m0 = none
    | .ok _ m1 =>
      (∀ f, 1 ≤ f → toSeq f m1 L = .ok [3]) ∧
      match PushFront A m1 L 2 with
      | .fault _ => False
      | .bad_alloc _ => ∃ m0, A.new m0 = none
      | .ok _ m2 =>
        (∀ f, 2 ≤ f → toSeq f m2 L = .ok [2, 3]) ∧
        match PushFront A m2 L 1 with
        | .fault _ => False
        | .bad_alloc _ => ∃ m0, A.new m0 = none
        | .ok _ m3 =>
          (∀ f, 3 ≤ f → toSeq f m3 L = .ok [1, 2, 3]) ∧ GetSize m3 L = 3 ∧
          ∃ b3, begin m3 L = .ok b3 ∧
            match InsertAfter A m3 L b3 10 with
            | .fault _ => False
            | .bad_alloc _ => ∃ m0, A.new m0 = none
            | .ok _ m4 =>
              (∀ f, 4 ≤ f → toSeq f m4 L = .ok [1, 10, 2, 3]) ∧ GetSize m4 L = 4 ∧
              ∃ b4 m5 it5, begin m4 L = .ok b4 ∧ EraseAfter m4 L b4 = .ok (m5, it5) ∧
                (∀ f, 3 ≤ f → toSeq f m5 L = .ok [1, 2, 3]) ∧ GetSize m5 L = 3 ∧
                ∀ R fuel, A.auto m5 = some R → 3 ≤ fuel →
                  match mk_from_values A fuel m5 R [1, 2, 3] with
                  | .fault e => e = .stack_exhausted
                  | .bad_alloc _ => ∃ m0, A.new m0 = none
                  | .ok _ m6 => op_eq fuel m6 L R = .ok true := by
  obtain ⟨ho0, -⟩ := mk_default_spec m hL
  refine ⟨fun f => ho0.1.toSeq_eq f (Nat.zero_le _), ho0.2, ?_⟩
  cases hq1 : A.new (mk_default m L) with
  | none =>
    rw [PushFront_none A _ L 3 hq1]
    exact ⟨_, hq1⟩
  | some a3 =>
  obtain ⟨m1, he1, ho1, -⟩ := PushFront_owns A 3 ho0 hq1
  rw [he1]
  refine ⟨fun f hf => ho1.1.toSeq_eq f hf, ?_⟩
  cases hq2 : A.new m1 with
  | none =>
    rw [PushFront_none A _ L 2 hq2]
    exact ⟨_, hq2⟩
  | some a2 =>
  obtain ⟨m2, he2, ho2, -⟩ := PushFront_owns A 2 ho1 hq2
  rw [he2]
  refine ⟨fun f hf => ho2.1.toSeq_eq f hf, ?_⟩
  cases hq3 : A.new m2 with
  | none =>
    rw [PushFront_none A _ L 1 hq3]
    exact ⟨_, hq3⟩
  | some a =>
  obtain ⟨m3, he3, ho3, -⟩ := PushFront_owns A 1 ho2 hq3
  rw [he3]
  refine ⟨fun f hf => ho3.1.toSeq_eq f hf, ho3.2, _, ho3.1.begin_eq, ?_⟩
  simp only [headPtr]
  cases hq : A.new m3 with
  | none =>
    rw [InsertAfter_none A m3 L a 10 hq]
    exact ⟨m3, hq⟩
  | some q =>
    obtain ⟨hv3, hc3⟩ := ho3.1.chain
    have hx3 : (L, hv3) :: [(a, 1), (a2, 2), (a3, 3)] =
        [(L, hv3)] ++ (a, 1) :: [(a2, 2), (a3, 3)] := rfl
    have hy3 : (L, hv3) :: [(a, 1), (q, 10), (a2, 2), (a3, 3)] =
        [(L, hv3)] ++ (a, 1) :: (q, 10) :: [(a2, 2), (a3, 3)] := rfl
    obtain ⟨m4, he4, hl4, hs4, -⟩ := InsertAfter_core A 10 ho3.1 hc3 hx3 hy3 hq
    have ho4 : Owns m4 L [(a, 1), (q, 10), (a2, 2), (a3, 3)] :=
      ⟨hl4, by rw [hs4]; exact size_succ_eq hl4 ho3.2⟩
    rw [he4]
    refine ⟨fun f hf => ho4.1.toSeq_eq f hf, ho4.2, ?_⟩
    obtain ⟨hv4, hc4⟩ := ho4.1.chain
    have hx4 : (L, hv4) :: [(a, 1), (q, 10), (a2, 2), (a3, 3)] =
        [(L, hv4)] ++ (a, 1) :: (q, 10) :: [(a2, 2), (a3, 3)] := rfl
    have hy4 : (L, hv4) :: [(a, 1), (a2, 2), (a3, 3)] =
        [(L, hv4)] ++ (a, 1) :: [(a2, 2), (a3, 3)] := rfl
    obtain ⟨m5, he5, hl5, hs5, -⟩ := EraseAfter_core 10 ho4.1 hc4 hx4 hy4
    have ho5 : Owns m5 L [(a, 1), (a2, 2), (a3, 3)] :=
      ⟨hl5, by rw [hs5]; exact (size_pred_eq ho4.1 ho4.2).trans rfl⟩
    refine ⟨_, m5, _, ho4.1.begin_eq, he5, fun f hf => ho5.1.toSeq_eq f hf, ho5.2, ?_⟩
    intro R fuel hR hf
    obtain ⟨hRd, hRb⟩ := A.auto_fresh m5 R hR
    rcases mk_from_values_spec A fuel m5 R [1, 2, 3] hRb hf with
      ⟨m6, cs, he6, ho6, hv6, hfr⟩ | ⟨m6, he6, -, hx⟩ | ⟨he6, -⟩
    · rw [he6]
      have hoL : Owns m6 L [(a, 1), (a2, 2), (a3, 3)] := ho5.keep_owns hfr.keep (by
        intro x hx hxR
        simp only [addrs, List.map_nil, List.mem_singleton] at hxR
        subst hxR
        exact ho5.1.live x hx hRd)
      have hlen : cs.length = 3 := by
        have := congrArg List.length hv6
        simpa [vals] using this
      show op_eq fuel m6 L R = .ok true
      rw [op_eq_spec hoL ho6 hf, hv6]
      simp [hlen, vals, seqEq]
    · rw [he6]; exact hx
    · rw [he6]

/-- Instance of C19: the scenario run with a heap of sixteen slots, the list at address `0` of a
memory that holds no object yet; every step completes. -/
theorem C19_scenario_witness :
    (0 : Nat) < SIZE_MOD ∧ toSeq 0 (mk_default mem0 0) 0 = .ok [] ∧
    ∃ m1 m2 m3, PushFront (firstFit Nat 16 8) (mk_default mem0 0) 0 3 = .ok () m1 ∧
      toSeq 1 m1 0 = .ok [3] ∧ PushFront (firstFit Nat 16 8) m1 0 2 = .ok () m2 ∧
      toSeq 2 m2 0 = .ok [2, 3] ∧ PushFront (firstFit Nat 16 8) m2 0 1 = .ok () m3 ∧
      toSeq 3 m3 0 = .ok [1, 2, 3] ∧ GetSize m3 0 = 3 ∧ begin m3 0 = .ok ⟨some 1002⟩ ∧
      ∃ it4 m4, InsertAfter (firstFit Nat 16 8) m3 0 ⟨some 1002⟩ 10 = .ok it4 m4 ∧
        toSeq 4 m4 0 = .ok [1, 10, 2, 3] ∧ GetSize m4 0 = 4 ∧ begin m4 0 = .ok ⟨some 1002⟩ ∧
        ∃ m5 it5, EraseAfter m4 0 ⟨some 1002⟩ = .ok (m5, it5) ∧
          toSeq 3 m5 0 = .ok [1, 2, 3] ∧ GetSize m5 0 = 3 ∧
          (firstFit Nat 16 8).auto m5 = some 2000 ∧
          ∃ m6, mk_from_values (firstFit Nat 16 8) 3 m5 2000 [1, 2, 3] = .ok () m6 ∧
            op_eq 3 m6 0 2000 = .ok true :=
  ⟨by decide, (C19_scenario (firstFit Nat 16 8) mem0 0 (by decide)).1 0, _, _, _, rfl,
    (C19_scenario (firstFit Nat 16 8) mem0 0 (by decide)).2.2.1 1 (Nat.le_refl 1), rfl, rfl, rfl,
    rfl, rfl, rfl, _, _, rfl, rfl, rfl, rfl, _, _, rfl, rfl, rfl, rfl, _, rfl, rfl⟩

/-- C20: when the element `==` is identity and `a`, `b` are distinct elements that the element
`<` leaves incomparable, the lists `L = {a}` and `M = {b}` have `L > M` true although `M < L` is
false, and `L >= M` true although `M <= L` is false.  Such an element type exists: the naturals
under proper divisibility, a strict partial order (irreflexive and transitive), with `a = 2` and
`b = 3`. -/
theorem C20_partial_order_disagreement [BEq α] [LawfulBEq α] (lt : α → α → Bool) (m : Mem α)
    (L M p q : Nat) (a b : α) (fuel : Nat) (hne : a ≠ b) (hab : lt a b = false)
    (hba : lt b a = false) (hL : Owns m L [(p, a)]) (hM : Owns m M [(q, b)])
    (hf : 1 ≤ fuel) :
    (op_gt lt fuel m L M = .ok true ∧ op_lt lt fuel m M L = .ok false ∧
      op_ge lt fuel m L M = .ok true ∧ op_le lt fuel m M L = .ok false) ∧
    ((∀ x, properDvd x x = false) ∧
      (∀ x y z, properDvd x y = true → properDvd y z = true → properDvd x z = true) ∧
      (2 : Nat) ≠ 3 ∧ properDvd 2 3 = false ∧ properDvd 3 2 = false ∧
      toSeq 1 memAB 0 = .ok [2] ∧ toSeq 1 memAB 1 = .ok [3] ∧
      op_gt properDvd 1 memAB 0 1 = .ok true ∧ op_lt properDvd 1 memAB 1 0 = .ok false ∧
      op_ge properDvd 1 memAB 0 1 = .ok true ∧ op_le properDvd 1 memAB 1 0 = .ok false) := by
  have hne1 : (a == b) = false := by simpa using hne
  have hne2 : (b == a) = false := by simpa using Ne.symm hne
  refine ⟨⟨?_, ?_, ?_, ?_⟩, properDvd_irrefl, properDvd_trans, by decide, rfl, rfl, rfl, rfl,
    rfl, rfl, rfl, rfl⟩
  · rw [op_gt_spec lt hL hM hf]
    simp [listEq, seqEq, lexRef, vals, hne1, hab, hba]
  · rw [op_lt_spec lt hM.1 hL.1 hf]
    simp [lexRef, vals, hab, hba]
  · rw [op_ge_spec lt hL.1 hM.1 hf]
    simp [lexRef, vals, hab, hba]
  · rw [op_le_spec lt hM hL hf]
    simp [listEq, seqEq, lexRef, vals, hne2, hab, hba]

/-- Instance of C20: the lists `{2}` and `{3}` of naturals under proper divisibility. -/
theorem C20_partial_order_disagreement_witness :
    (2 : Nat) ≠ 3 ∧ properDvd 2 3 = false ∧ properDvd 3 2 = false ∧
    Owns memAB 0 [(1000, 2)] ∧ Owns memAB 1 [(1001, 3)] ∧
    op_gt properDvd 1 memAB 0 1 = .ok true ∧ op_lt properDvd 1 memAB 1 0 = .ok false ∧
    op_ge properDvd 1 memAB 0 1 = .ok true ∧ op_le properDvd 1 memAB 1 0 = .ok false :=
  ⟨by decide, rfl, rfl, Owns_memAB_L, Owns_memAB_M,
    (C20_partial_order_disagreement properDvd memAB 0 1 1000 1001 2 3 1 (by decide) rfl rfl
      Owns_memAB_L Owns_memAB_M (Nat.le_refl 1)).1⟩

end SingleLinkedList
